import Mathlib

/-!
Shallow embedding of `puzzle_solver.py`: the sliding-puzzle state
representation (`PuzzleState`), successor generation, the Manhattan-distance
heuristic, the three search procedures (BFS, depth-limited DFS, A* over a
CPython-style binary heap) and the `solve_puzzle` dispatcher, together with a
specification-side description of the unit-cost state graph.

Python `set`s of states (equality and hashing by board) are modelled as lists
of boards with membership checks; the FIFO queue, LIFO stack and `heapq`
priority queue are modelled as lists.  Loops are given explicit fuel; the
fuel `searchFuel` baked into each solver is proved sufficient, and running
out of fuel is a distinguished outcome that the theorems rule out.  Uncaught
Python exceptions (`TypeError` from unpacking `None`, `KeyError` from the
goal-position table) are modelled by the `crash` outcome.  `time_taken`
(wall-clock) is not modelled.
-/

namespace PuzzleSolver

/-- A puzzle board, the Python `List[List[int]]` grid. -/
abbrev Board := List (List Int)

/-- `board[r][c]` (only used at in-bounds indices). -/
def cell (b : Board) (r c : Nat) : Int := (b.getD r []).getD c 0

/-- The functional update `board[r][c] = v`. -/
def setCell (b : Board) (r c : Nat) (v : Int) : Board :=
  b.set r ((b.getD r []).set c v)

/-- The simultaneous swap from `get_successors`:
`new_board[r][c], new_board[nr][nc] = new_board[nr][nc], new_board[r][c]`. -/
def swapCells (b : Board) (r c nr nc : Nat) : Board :=
  setCell (setCell b r c (cell b nr nc)) nr nc (cell b r c)

/-- `find_empty`, scanning row-major for the first cell holding `0`;
`none` models Python's `return None`. -/
def findEmptyAux : Nat → List (List Int) → Option (Nat × Nat)
  | _, [] => none
  | i, row :: rest =>
    match row.findIdx? (fun v => v == 0) with
    | some j => some (i, j)
    | none => findEmptyAux (i + 1) rest

/-- `PuzzleState.find_empty`. -/
def findEmpty (b : Board) : Option (Nat × Nat) := findEmptyAux 0 b

/-- The canonical goal for a given size (`is_goal` treats every size other
than `2` as `3`). -/
def goalBoard (size : Nat) : Board :=
  if size = 2 then [[1, 2], [3, 0]] else [[1, 2, 3], [4, 5, 6], [7, 8, 0]]

/-- `PuzzleState.is_goal`. -/
def isGoal (b : Board) : Bool := b == goalBoard b.length

/-- The candidate moves `(row_delta, col_delta, move_name)`, in source
order UP, DOWN, LEFT, RIGHT. -/
def moves : List (Int × Int × String) :=
  [(-1, 0, "UP"), (1, 0, "DOWN"), (0, -1, "LEFT"), (0, 1, "RIGHT")]

/-- The in-bounds move results from blank position `(r, c)`: each swapped
board paired with its move name, preserving source order. -/
def moveResults (b : Board) (r c : Nat) : List (Board × String) :=
  moves.filterMap fun m =>
    let nr : Int := (r : Int) + m.1
    let nc : Int := (c : Int) + m.2.1
    if 0 ≤ nr ∧ nr < (b.length : Int) ∧ 0 ≤ nc ∧ nc < (b.length : Int) then
      some (swapCells b r c nr.toNat nc.toNat, m.2.2)
    else none

/-- The state class: `board`, `parent`, `move`, `depth`, `cost`. -/
inductive PuzzleState : Type where
  | mk (board : Board) (parent : Option PuzzleState) (move : Option String)
      (depth : Nat) (cost : Nat)

instance : Inhabited PuzzleState := ⟨.mk [] none none 0 0⟩

def PuzzleState.board : PuzzleState → Board
  | .mk b _ _ _ _ => b

def PuzzleState.parent : PuzzleState → Option PuzzleState
  | .mk _ p _ _ _ => p

def PuzzleState.move : PuzzleState → Option String
  | .mk _ _ m _ _ => m

def PuzzleState.depth : PuzzleState → Nat
  | .mk _ _ _ d _ => d

def PuzzleState.cost : PuzzleState → Nat
  | .mk _ _ _ _ c => c

/-- The assignment `state.cost = v` performed by `astar_solve`. -/
def PuzzleState.withCost : PuzzleState → Nat → PuzzleState
  | .mk b p m d _, c => .mk b p m d c

/-- The constructor call `PuzzleState(initial_board)` made by
`solve_puzzle` (all defaulted arguments). -/
def rootState (b : Board) : PuzzleState := .mk b none none 0 0

/-- Path reconstruction: the Python `while state: path.append(state.to_list());
state = state.parent` loop followed by `path.reverse()` — the boards from
the root of the parent chain down to `s`. -/
def PuzzleState.pathBoards : PuzzleState → List Board
  | .mk b none _ _ _ => [b]
  | .mk b (some p) _ _ _ => p.pathBoards ++ [b]

/-- `get_successors`; `none` models the `TypeError` raised when
`find_empty` returns `None` and `row, col = self.find_empty()` fails. -/
def getSuccessors (s : PuzzleState) : Option (List PuzzleState) :=
  (findEmpty s.board).map fun rc =>
    (moveResults s.board rc.1 rc.2).map fun bm =>
      PuzzleState.mk bm.1 (some s) (some bm.2) (s.depth + 1) (s.cost + 1)

/-- The neighbours of a board in the unit-cost state graph the searches
explore (the boards of `get_successors`). -/
def adjBoards (b : Board) : List Board :=
  match findEmpty b with
  | none => []
  | some rc => (moveResults b rc.1 rc.2).map Prod.fst

/-- The per-size `goal_positions` table; `none` models a `KeyError`. -/
def goalPositions (size : Nat) (tile : Int) : Option (Nat × Nat) :=
  if size = 2 then
    if tile = 1 then some (0, 0) else if tile = 2 then some (0, 1)
    else if tile = 3 then some (1, 0) else if tile = 0 then some (1, 1)
    else none
  else
    if tile = 1 then some (0, 0) else if tile = 2 then some (0, 1)
    else if tile = 3 then some (0, 2) else if tile = 4 then some (1, 0)
    else if tile = 5 then some (1, 1) else if tile = 6 then some (1, 2)
    else if tile = 7 then some (2, 0) else if tile = 8 then some (2, 1)
    else if tile = 0 then some (2, 2) else none

/-- One cell's contribution `|i − goal_row| + |j − goal_col|` (`0` for the
skipped blank; `none` when the tile is missing from the table). -/
def manhattanCell (size i j : Nat) (tile : Int) : Option Nat :=
  if tile = 0 then some 0
  else (goalPositions size tile).map fun g =>
    ((i : Int) - (g.1 : Int)).natAbs + ((j : Int) - (g.2 : Int)).natAbs

/-- The inner `for j` loop of `manhattan_distance`, summing one row from
column index `j` on. -/
def manhattanRow (size i : Nat) : Nat → List Int → Option Nat
  | _, [] => some 0
  | j, t :: ts => do
    let d ← manhattanCell size i j t
    let rest ← manhattanRow size i (j + 1) ts
    pure (d + rest)

/-- The outer `for i` loop of `manhattan_distance`, from row index `i` on. -/
def manhattanRows (size : Nat) : Nat → List (List Int) → Option Nat
  | _, [] => some 0
  | i, row :: rest => do
    let d ← manhattanRow size i 0 row
    let others ← manhattanRows size (i + 1) rest
    pure (d + others)

/-- `PuzzleState.manhattan_distance`. -/
def manhattan (b : Board) : Option Nat := manhattanRows b.length 0 b

/-- The result dictionary; `none` fields model absent keys.  `time_taken`
(wall clock) is not modelled. -/
structure ResultDict where
  success : Bool
  algorithm : Option String := none
  solution_path : Option (List Board) := none
  solution_depth : Option Nat := none
  nodes_expanded : Option Nat := none
  max_queue_size : Option Nat := none
  max_stack_size : Option Nat := none
  message : Option String := none
  error : Option String := none
  deriving DecidableEq, Repr

/-- The outcome of a call: a returned dictionary, an uncaught exception, or
the artificial out-of-fuel marker of the loop embeddings. -/
inductive SearchOutcome : Type where
  | ok (r : ResultDict)
  | crash
  | outOfFuel
  deriving DecidableEq, Repr

/-- One loop iteration either continues with a new loop state or finishes
with an outcome. -/
inductive StepRes (σ : Type) : Type where
  | next (st : σ)
  | done (r : SearchOutcome)

/-- Fuel sufficient for any of the three searches started on a board `b`
(proved below); baked into the solvers so that they are total functions. -/
def searchFuel (b : Board) : Nat := 2 * Nat.factorial b.flatten.length + 2

/-! ### BFS -/

/-- The mutable locals of `bfs_solve`'s loop. -/
structure BfsState where
  queue : List PuzzleState
  visited : List Board
  nodesExpanded : Nat
  maxQueueSize : Nat

/-- `for successor in current.get_successors(): if successor not in visited:
visited.add(successor); queue.append(successor)`. -/
def bfsPush : List PuzzleState × List Board → List PuzzleState →
    List PuzzleState × List Board
  | qv, [] => qv
  | (q, v), s :: ss =>
    if s.board ∈ v then bfsPush (q, v) ss
    else bfsPush (q ++ [s], s.board :: v) ss

/-- One iteration of the `while queue:` loop of `bfs_solve` (the `done`
cases are the `return` statements; an empty queue exits the loop into the
failure return). -/
def bfsStep (st : BfsState) : StepRes BfsState :=
  match st.queue with
  | [] => .done (.ok
      { success := false, algorithm := some "BFS",
        nodes_expanded := some st.nodesExpanded,
        max_queue_size := some st.maxQueueSize })
  | cur :: rest =>
    let maxQ := max st.maxQueueSize (rest.length + 1)
    let nodes := st.nodesExpanded + 1
    if isGoal cur.board then
      let path := cur.pathBoards
      .done (.ok
        { success := true, algorithm := some "BFS",
          solution_path := some path, solution_depth := some (path.length - 1),
          nodes_expanded := some nodes, max_queue_size := some maxQ })
    else
      match getSuccessors cur with
      | none => .done .crash
      | some succs =>
        let qv := bfsPush (rest, st.visited) succs
        .next ⟨qv.1, qv.2, nodes, maxQ⟩

/-- The fuelled `while` loop of `bfs_solve`. -/
def bfsRun : Nat → BfsState → SearchOutcome
  | 0, _ => .outOfFuel
  | fuel + 1, st =>
    match bfsStep st with
    | .done r => r
    | .next st2 => bfsRun fuel st2

/-- The loop state after `k` iterations (while the loop is still running). -/
def bfsIter : Nat → BfsState → Option BfsState
  | 0, st => some st
  | k + 1, st =>
    match bfsStep st with
    | .done _ => none
    | .next st2 => bfsIter k st2

/-- The loop state `bfs_solve` starts from. -/
def bfsInit (initial_state : PuzzleState) : BfsState :=
  ⟨[initial_state], [initial_state.board], 0, 0⟩

/-- `bfs_solve`. -/
def bfs_solve (initial_state : PuzzleState) : SearchOutcome :=
  bfsRun (searchFuel initial_state.board) (bfsInit initial_state)

/-! ### Depth-limited DFS -/

/-- The mutable locals of `dfs_solve`'s loop, plus the depth limit. -/
structure DfsState where
  stack : List PuzzleState
  visited : List Board
  nodesExpanded : Nat
  maxStackSize : Nat
  depthLimit : Nat

/-- The DFS push loop (the stack top is at the list head). -/
def dfsPush : List PuzzleState × List Board → List PuzzleState →
    List PuzzleState × List Board
  | sv, [] => sv
  | (st, v), s :: ss =>
    if s.board ∈ v then dfsPush (st, v) ss
    else dfsPush (s :: st, s.board :: v) ss

/-- One iteration of the `while stack:` loop of `dfs_solve`. -/
def dfsStep (st : DfsState) : StepRes DfsState :=
  match st.stack with
  | [] => .done (.ok
      { success := false, algorithm := some "DFS",
        nodes_expanded := some st.nodesExpanded,
        max_stack_size := some st.maxStackSize,
        message := some ("No solution found within depth limit of " ++
          toString st.depthLimit) })
  | cur :: rest =>
    let maxS := max st.maxStackSize (rest.length + 1)
    let nodes := st.nodesExpanded + 1
    if isGoal cur.board then
      let path := cur.pathBoards
      .done (.ok
        { success := true, algorithm := some "DFS",
          solution_path := some path, solution_depth := some (path.length - 1),
          nodes_expanded := some nodes, max_stack_size := some maxS })
    else if cur.depth < st.depthLimit then
      match getSuccessors cur with
      | none => .done .crash
      | some succs =>
        let sv := dfsPush (rest, st.visited) succs.reverse
        .next ⟨sv.1, sv.2, nodes, maxS, st.depthLimit⟩
    else
      .next ⟨rest, st.visited, nodes, maxS, st.depthLimit⟩

/-- The fuelled `while` loop of `dfs_solve`. -/
def dfsRun : Nat → DfsState → SearchOutcome
  | 0, _ => .outOfFuel
  | fuel + 1, st =>
    match dfsStep st with
    | .done r => r
    | .next st2 => dfsRun fuel st2

/-- The loop state after `k` iterations (while the loop is still running). -/
def dfsIter : Nat → DfsState → Option DfsState
  | 0, st => some st
  | k + 1, st =>
    match dfsStep st with
    | .done _ => none
    | .next st2 => dfsIter k st2

/-- The loop state `dfs_solve` starts from. -/
def dfsInit (initial_state : PuzzleState) (depth_limit : Nat) : DfsState :=
  ⟨[initial_state], [initial_state.board], 0, 0, depth_limit⟩

/-- `dfs_solve` (the Python default `depth_limit=50` is supplied explicitly
by `solve_puzzle`). -/
def dfs_solve (initial_state : PuzzleState) (depth_limit : Nat) : SearchOutcome :=
  dfsRun (searchFuel initial_state.board) (dfsInit initial_state depth_limit)

/-! ### A* and the CPython `heapq` -/

/-- A heap entry `(f(n), h(n), state)`. -/
abbrev Entry := Nat × Nat × PuzzleState

/-- The comparison Python evaluates on heap entries: lexicographic tuple
comparison, where the third components are compared with
`PuzzleState.__eq__` (board equality) and `PuzzleState.__lt__`
(comparison of `cost`). -/
def entryLt (a b : Entry) : Bool :=
  if a.1 = b.1 then
    if a.2.1 = b.2.1 then
      if a.2.2.board = b.2.2.board then false
      else decide (a.2.2.cost < b.2.2.cost)
    else decide (a.2.1 < b.2.1)
  else decide (a.1 < b.1)

/-- `heapq._siftdown(heap, startpos, pos)`; the hole at `pos` semantically
holds `newitem`, which CPython stores there before the call
(`parentpos = (pos - 1) >> 1`, `parent = heap[parentpos]`).  The first
`Nat` argument is structural fuel bounding the strictly decreasing `pos`
(`siftdown` below instantiates it sufficiently, and `siftdown_eq` recovers
the unfuelled recurrence). -/
def siftdownF (newitem : Entry) (startpos : Nat) :
    Nat → Nat → List Entry → List Entry
  | 0, pos, heap => heap.set pos newitem
  | fuel + 1, pos, heap =>
    if startpos < pos then
      if entryLt newitem (heap.getD ((pos - 1) / 2) default) then
        siftdownF newitem startpos fuel ((pos - 1) / 2)
          (heap.set pos (heap.getD ((pos - 1) / 2) default))
      else heap.set pos newitem
    else heap.set pos newitem

def siftdown (newitem : Entry) (startpos : Nat) (pos : Nat)
    (heap : List Entry) : List Entry :=
  siftdownF newitem startpos pos pos heap

theorem siftdownF_fuel : ∀ (newitem : Entry) (startpos fuel1 fuel2 pos : Nat)
    (heap : List Entry), pos ≤ fuel1 → pos ≤ fuel2 →
    siftdownF newitem startpos fuel1 pos heap =
      siftdownF newitem startpos fuel2 pos heap
  | _, _, 0, 0, pos, heap, _, _ => rfl
  | n, s, 0, fuel2 + 1, pos, heap, h1, _ => by
    have hp : pos = 0 := by omega
    subst hp
    rw [siftdownF, siftdownF, if_neg (by omega)]
  | n, s, fuel1 + 1, 0, pos, heap, _, h2 => by
    have hp : pos = 0 := by omega
    subst hp
    rw [siftdownF, siftdownF, if_neg (by omega)]
  | n, s, fuel1 + 1, fuel2 + 1, pos, heap, h1, h2 => by
    rw [siftdownF, siftdownF]
    by_cases hs : s < pos
    · rw [if_pos hs, if_pos hs]
      by_cases hlt : entryLt n (heap.getD ((pos - 1) / 2) default) = true
      · rw [if_pos hlt, if_pos hlt]
        exact siftdownF_fuel n s fuel1 fuel2 ((pos - 1) / 2) _
          (by omega) (by omega)
      · rw [if_neg hlt, if_neg hlt]
    · rw [if_neg hs, if_neg hs]

theorem siftdown_eq (newitem : Entry) (startpos pos : Nat)
    (heap : List Entry) :
    siftdown newitem startpos pos heap =
      if startpos < pos then
        if entryLt newitem (heap.getD ((pos - 1) / 2) default) then
          siftdown newitem startpos ((pos - 1) / 2)
            (heap.set pos (heap.getD ((pos - 1) / 2) default))
        else heap.set pos newitem
      else heap.set pos newitem := by
  unfold siftdown
  cases pos with
  | zero => rw [siftdownF, if_neg (by omega)]
  | succ p =>
    rw [siftdownF]
    by_cases hs : startpos < p + 1
    · rw [if_pos hs, if_pos hs]
      by_cases hlt : entryLt newitem (heap.getD ((p + 1 - 1) / 2) default) = true
      · rw [if_pos hlt, if_pos hlt]
        exact siftdownF_fuel newitem startpos p ((p + 1 - 1) / 2)
          ((p + 1 - 1) / 2) _ (by omega) (by omega)
      · rw [if_neg hlt, if_neg hlt]
    · rw [if_neg hs, if_neg hs]

/-- The child `heapq._siftup` selects at `pos`: the right child
`2*pos + 2` when it exists and the left child is not `<` it, the left
child `2*pos + 1` otherwise. -/
def siftupChild (heap : List Entry) (pos : Nat) : Nat :=
  if 2 * pos + 2 < heap.length ∧
      ¬ entryLt (heap.getD (2 * pos + 1) default)
        (heap.getD (2 * pos + 2) default) then
    2 * pos + 2
  else 2 * pos + 1

/-- `heapq._siftup(heap, pos)`; CPython moves the selected child up until
reaching a leaf, then calls `_siftdown`.  The first `Nat` argument is
structural fuel bounding the strictly increasing `pos` by the (invariant)
heap length (`siftup` below instantiates it sufficiently, and `siftup_eq`
recovers the unfuelled recurrence). -/
def siftupF (newitem : Entry) (startpos : Nat) :
    Nat → Nat → List Entry → List Entry
  | 0, pos, heap => siftdown newitem startpos pos heap
  | fuel + 1, pos, heap =>
    if 2 * pos + 1 < heap.length then
      siftupF newitem startpos fuel (siftupChild heap pos)
        (heap.set pos (heap.getD (siftupChild heap pos) default))
    else siftdown newitem startpos pos heap

def siftup (newitem : Entry) (startpos pos : Nat) (heap : List Entry) :
    List Entry :=
  siftupF newitem startpos heap.length pos heap

theorem siftupF_fuel : ∀ (newitem : Entry) (startpos fuel1 fuel2 pos : Nat)
    (heap : List Entry), heap.length ≤ pos + fuel1 →
    heap.length ≤ pos + fuel2 →
    siftupF newitem startpos fuel1 pos heap =
      siftupF newitem startpos fuel2 pos heap
  | _, _, 0, 0, pos, heap, _, _ => rfl
  | n, s, 0, fuel2 + 1, pos, heap, h1, _ => by
    rw [siftupF, siftupF, if_neg (by omega)]
  | n, s, fuel1 + 1, 0, pos, heap, _, h2 => by
    rw [siftupF, siftupF, if_neg (by omega)]
  | n, s, fuel1 + 1, fuel2 + 1, pos, heap, h1, h2 => by
    rw [siftupF, siftupF]
    by_cases hch : 2 * pos + 1 < heap.length
    · rw [if_pos hch, if_pos hch]
      have hcgt : pos < siftupChild heap pos := by
        unfold siftupChild; split <;> omega
      exact siftupF_fuel n s fuel1 fuel2 (siftupChild heap pos) _
        (by simp only [List.length_set]; omega)
        (by simp only [List.length_set]; omega)
    · rw [if_neg hch, if_neg hch]

theorem siftup_eq (newitem : Entry) (startpos pos : Nat)
    (heap : List Entry) :
    siftup newitem startpos pos heap =
      if 2 * pos + 1 < heap.length then
        siftup newitem startpos (siftupChild heap pos)
          (heap.set pos (heap.getD (siftupChild heap pos) default))
      else siftdown newitem startpos pos heap := by
  unfold siftup
  by_cases hch : 2 * pos + 1 < heap.length
  · cases hlen : heap.length with
    | zero => omega
    | succ m =>
      rw [siftupF]
      rw [hlen] at hch
      rw [if_pos hch, if_pos (by rw [hlen]; omega)]
      have hcgt : pos < siftupChild heap pos := by
        unfold siftupChild
        split <;> omega
      refine siftupF_fuel newitem startpos m _ (siftupChild heap pos) _ ?_ ?_
      · simp only [List.length_set]
        omega
      · simp only [List.length_set]
        omega
  · cases hlen : heap.length with
    | zero => rw [siftupF, if_neg (by omega)]
    | succ m =>
      rw [siftupF]
      rw [hlen] at hch
      rw [if_neg hch, if_neg (by rw [hlen]; omega)]

/-- `heapq.heappush`. -/
def heappush (heap : List Entry) (item : Entry) : List Entry :=
  siftdown item 0 heap.length (heap ++ [item])

/-- `heapq.heappop`; `none` models the `IndexError` on an empty heap
(never reached, since the loop guards on non-emptiness). -/
def heappop (heap : List Entry) : Option (Entry × List Entry) :=
  match heap.getLast? with
  | none => none
  | some lastelt =>
    if heap.dropLast.isEmpty then some (lastelt, [])
    else some (heap.dropLast.headD default,
      siftup lastelt 0 0 (heap.dropLast.set 0 lastelt))

/-- The mutable locals of `astar_solve`'s loop. -/
structure AstarState where
  heap : List Entry
  visited : List Board
  nodesExpanded : Nat
  maxQueueSize : Nat

/-- The A* successor loop: an unvisited successor has its `cost` reassigned
to `f = g + h` before being pushed; `none` models the `KeyError` a
heuristic evaluation can raise. -/
def astarPush : List Entry × List Board → List PuzzleState →
    Option (List Entry × List Board)
  | hv, [] => some hv
  | (hp, v), s :: ss =>
    if s.board ∈ v then astarPush (hp, v) ss
    else
      match manhattan s.board with
      | none => none
      | some h =>
        let f := s.depth + h
        let s2 := s.withCost f
        astarPush (heappush hp (f, h, s2), s2.board :: v) ss

/-- One iteration of the `while priority_queue:` loop of `astar_solve`. -/
def astarStep (st : AstarState) : StepRes AstarState :=
  match heappop st.heap with
  | none => .done (.ok
      { success := false, algorithm := some "A*",
        nodes_expanded := some st.nodesExpanded,
        max_queue_size := some st.maxQueueSize })
  | some (e, rest) =>
    let maxQ := max st.maxQueueSize st.heap.length
    let nodes := st.nodesExpanded + 1
    let cur := e.2.2
    if isGoal cur.board then
      let path := cur.pathBoards
      .done (.ok
        { success := true, algorithm := some "A*",
          solution_path := some path, solution_depth := some (path.length - 1),
          nodes_expanded := some nodes, max_queue_size := some maxQ })
    else
      match getSuccessors cur with
      | none => .done .crash
      | some succs =>
        match astarPush (rest, st.visited) succs with
        | none => .done .crash
        | some hv => .next ⟨hv.1, hv.2, nodes, maxQ⟩

/-- The fuelled `while` loop of `astar_solve`. -/
def astarRun : Nat → AstarState → SearchOutcome
  | 0, _ => .outOfFuel
  | fuel + 1, st =>
    match astarStep st with
    | .done r => r
    | .next st2 => astarRun fuel st2

/-- The loop state after `k` iterations (while the loop is still running). -/
def astarIter : Nat → AstarState → Option AstarState
  | 0, st => some st
  | k + 1, st =>
    match astarStep st with
    | .done _ => none
    | .next st2 => astarIter k st2

/-- The assignment `initial_state.cost = initial_state.manhattan_distance()`
performed by `astar_solve` before its loop (for boards on which the
heuristic evaluates). -/
def astarInitState (initial_state : PuzzleState) (h0 : Nat) : PuzzleState :=
  initial_state.withCost h0

/-- The loop state `astar_solve` starts from. -/
def astarInit (initial_state : PuzzleState) (h0 : Nat) : AstarState :=
  ⟨[(h0, h0, astarInitState initial_state h0)],
    [(astarInitState initial_state h0).board], 0, 0⟩

/-- `astar_solve`. -/
def astar_solve (initial_state : PuzzleState) : SearchOutcome :=
  match manhattan initial_state.board with
  | none => .crash
  | some h0 =>
    astarRun (searchFuel initial_state.board) (astarInit initial_state h0)

/-! ### Dispatch -/

/-- `solve_puzzle`. -/
def solve_puzzle (initial_board : Board) (algorithm : String) : SearchOutcome :=
  let size := initial_board.length
  if ¬ (size = 2 ∨ size = 3) then
    .ok
      { success := false,
        error := some ("Invalid puzzle size. Only 2×2 and 3×3 puzzles are supported. Got "
          ++ toString size ++ "×" ++ toString size ++ ".") }
  else if initial_board.any (fun row => row.length ≠ size) then
    .ok
      { success := false,
        error := some ("Invalid puzzle: All rows must have the same size ("
          ++ toString size ++ ").") }
  else
    let initial_state := rootState initial_board
    if algorithm = "BFS" then bfs_solve initial_state
    else if algorithm = "DFS" then dfs_solve initial_state 50
    else if algorithm = "A*" then astar_solve initial_state
    else .ok { success := false, error := some ("Unknown algorithm: " ++ algorithm) }

/-- Whether a call to `solve_puzzle` reaches the statement
`initial_state = PuzzleState(initial_board)`: exactly when both shape
checks pass, regardless of the algorithm string. -/
def solvePuzzleConstructsState (initial_board : Board) : Bool :=
  decide ((initial_board.length = 2 ∨ initial_board.length = 3) ∧
    ¬ initial_board.any (fun row => row.length ≠ initial_board.length))

/-! ### Specification-side notions -/

/-- A valid `n`-sized board: an `n × n` grid whose flattening is a
permutation of `{0, …, n² − 1}`. -/
def ValidBoard (n : Nat) (b : Board) : Prop :=
  b.length = n ∧ (∀ r ∈ b, r.length = n) ∧
    List.Perm b.flatten ((List.range (n * n)).map Int.ofNat)

instance (n : Nat) (b : Board) : Decidable (ValidBoard n b) := by
  unfold ValidBoard; infer_instance

/-- `reachN k a b`: the unit-cost state graph has a length-`k` walk from
`a` to `b`. -/
def reachN : Nat → Board → Board → Bool
  | 0, a, b => a == b
  | k + 1, a, b => (adjBoards a).any fun m => reachN k m b

/-- `b'` is obtained from `b` by swapping the blank with an orthogonally
adjacent cell (the wording of the specification). -/
def BlankSwapAdj (b b' : Board) : Prop :=
  ∃ r c r' c', r < b.length ∧ c < b.length ∧ r' < b.length ∧ c' < b.length ∧
    cell b r c = 0 ∧
    ((r : Int) - r').natAbs + ((c : Int) - c').natAbs = 1 ∧
    b' = swapCells b r c r' c'


/-! ### List and multiset toolkit -/

/-- Replacing position `i` exchanges the old element for the new one in the
underlying multiset. -/
theorem getD_cons_coe_set {α : Type} (l : List α) (i : Nat) (v d : α)
    (h : i < l.length) :
    (l.getD i d) ::ₘ (↑(l.set i v) : Multiset α) = v ::ₘ (↑l : Multiset α) := by
  induction l generalizing i with
  | nil => simp at h
  | cons a t ih =>
    cases i with
    | zero =>
      simp only [List.getD_cons_zero, List.set_cons_zero, ← Multiset.cons_coe]
      exact Multiset.cons_swap _ _ _
    | succ m =>
      have hm : m < t.length := by simpa using h
      have := ih m hm
      simp only [List.getD_cons_succ, List.set_cons_succ, ← Multiset.cons_coe]
      rw [Multiset.cons_swap, this, Multiset.cons_swap]

/-- Writing each of two distinct positions with the other's value permutes
the list. -/
theorem set_set_swap_perm {α : Type} (l : List α) (i j : Nat) (d : α)
    (hij : i ≠ j) (hi : i < l.length) (hj : j < l.length) :
    List.Perm ((l.set i (l.getD j d)).set j (l.getD i d)) l := by
  rw [← Multiset.coe_eq_coe]
  have hj2 : j < (l.set i (l.getD j d)).length := by simpa using hj
  have h2 := getD_cons_coe_set (l.set i (l.getD j d)) j (l.getD i d) d hj2
  have hget : (l.set i (l.getD j d)).getD j d = l.getD j d := by
    rw [List.getD_eq_getElem _ _ hj2]
    rw [List.getElem_set_ne (by omega)]
    exact (List.getD_eq_getElem l d hj).symm
  rw [hget] at h2
  have h1 := getD_cons_coe_set l i (l.getD j d) d hi
  rw [h1] at h2
  exact (Multiset.cons_inj_right _).mp h2

/-! ### Board shape lemmas -/

/-- An `n × n` shape: `n` rows, each of length `n` (the part of validity
`solve_puzzle` actually checks). -/
def ShapeOK (n : Nat) (b : Board) : Prop :=
  b.length = n ∧ ∀ r ∈ b, r.length = n

instance (n : Nat) (b : Board) : Decidable (ShapeOK n b) := by
  unfold ShapeOK; infer_instance

theorem length_setCell (b : Board) (r c : Nat) (v : Int) :
    (setCell b r c v).length = b.length := by
  simp [setCell]

theorem rows_setCell {n : Nat} {b : Board} (hrows : ∀ row ∈ b, row.length = n)
    (r c : Nat) (v : Int) : ∀ row ∈ setCell b r c v, row.length = n := by
  by_cases hr : r < b.length
  · intro row hrow
    unfold setCell at hrow
    rcases List.mem_or_eq_of_mem_set hrow with h | h
    · exact hrows _ h
    · subst h
      rw [List.length_set, List.getD_eq_getElem _ _ hr]
      exact hrows _ (List.getElem_mem hr)
  · intro row hrow
    unfold setCell at hrow
    rw [List.set_eq_of_length_le (by omega)] at hrow
    exact hrows _ hrow

theorem shapeOK_setCell {n : Nat} {b : Board} (h : ShapeOK n b) (r c : Nat) (v : Int) :
    ShapeOK n (setCell b r c v) :=
  ⟨by rw [length_setCell, h.1], rows_setCell h.2 r c v⟩

theorem shapeOK_swapCells {n : Nat} {b : Board} (h : ShapeOK n b) (r c nr nc : Nat) :
    ShapeOK n (swapCells b r c nr nc) :=
  shapeOK_setCell (shapeOK_setCell h r c _) nr nc _

theorem flatten_length_rows {n : Nat} {b : Board}
    (hrows : ∀ row ∈ b, row.length = n) :
    b.flatten.length = b.length * n := by
  induction b with
  | nil => simp
  | cons row rest ih =>
    simp only [List.flatten_cons, List.length_append, List.length_cons]
    rw [ih (fun r hr => hrows r (List.mem_cons_of_mem _ hr)),
      hrows row (List.mem_cons_self _ _)]
    ring

theorem flatten_setCell {n : Nat} (b : Board) (hrows : ∀ row ∈ b, row.length = n)
    (r c : Nat) (hr : r < b.length) (hc : c < n) (v : Int) :
    (setCell b r c v).flatten = b.flatten.set (r * n + c) v := by
  induction b generalizing r with
  | nil => simp at hr
  | cons row rest ih =>
    have hrow : row.length = n := hrows row (List.mem_cons_self _ _)
    have hrest : ∀ row ∈ rest, row.length = n :=
      fun r hr => hrows r (List.mem_cons_of_mem _ hr)
    cases r with
    | zero =>
      simp only [setCell, List.getD_cons_zero, List.set_cons_zero,
        List.flatten_cons, Nat.zero_mul, Nat.zero_add]
      rw [List.set_append_left _ _ (by omega)]
    | succ m =>
      have hm : m < rest.length := by simpa using hr
      have hexp : (m + 1) * n = m * n + n := by ring
      simp only [setCell, List.getD_cons_succ, List.set_cons_succ, List.flatten_cons]
      have ihh := ih hrest m hm
      simp only [setCell] at ihh
      rw [ihh]
      have hidx : (m + 1) * n + c = row.length + (m * n + c) := by rw [hrow]; omega
      rw [hidx, List.set_append_right _ _ (by omega), Nat.add_sub_cancel_left]

theorem cell_flatten {n : Nat} (b : Board) (hrows : ∀ row ∈ b, row.length = n)
    (r c : Nat) (hr : r < b.length) (hc : c < n) :
    cell b r c = b.flatten.getD (r * n + c) 0 := by
  induction b generalizing r with
  | nil => simp at hr
  | cons row rest ih =>
    have hrow : row.length = n := hrows row (List.mem_cons_self _ _)
    have hrest : ∀ row ∈ rest, row.length = n :=
      fun r hr => hrows r (List.mem_cons_of_mem _ hr)
    cases r with
    | zero =>
      simp only [cell, List.getD_cons_zero, List.flatten_cons, Nat.zero_mul,
        Nat.zero_add]
      rw [List.getD_append _ _ _ _ (by omega)]
    | succ m =>
      have hm : m < rest.length := by simpa using hr
      have hexp : (m + 1) * n = m * n + n := by ring
      simp only [cell, List.getD_cons_succ, List.flatten_cons]
      have ihh := ih hrest m hm
      simp only [cell] at ihh
      rw [ihh]
      have hidx : (m + 1) * n + c = row.length + (m * n + c) := by rw [hrow]; omega
      rw [hidx, List.getD_append_right _ _ _ _ (by omega), Nat.add_sub_cancel_left]

theorem flat_index_lt {n len r c : Nat} (hr : r < len) (hc : c < n) :
    r * n + c < len * n := by
  calc r * n + c < r * n + n := by omega
  _ = (r + 1) * n := by ring
  _ ≤ len * n := Nat.mul_le_mul_right n hr

theorem flat_index_inj {n r c nr nc : Nat} (hc : c < n) (hnc : nc < n)
    (h : r * n + c = nr * n + nc) : r = nr ∧ c = nc := by
  rcases Nat.lt_trichotomy r nr with hlt | heq | hgt
  · exfalso
    have : (r + 1) * n ≤ nr * n := Nat.mul_le_mul_right n hlt
    nlinarith
  · subst heq; omega
  · exfalso
    have : (nr + 1) * n ≤ r * n := Nat.mul_le_mul_right n hgt
    nlinarith

theorem swapCells_flatten_perm {n : Nat} (b : Board)
    (hrows : ∀ row ∈ b, row.length = n) (r c nr nc : Nat)
    (hr : r < b.length) (hc : c < n) (hnr : nr < b.length) (hnc : nc < n)
    (hne : ¬ (r = nr ∧ c = nc)) :
    List.Perm (swapCells b r c nr nc).flatten b.flatten := by
  have hrows2 : ∀ row ∈ setCell b r c (cell b nr nc), row.length = n :=
    rows_setCell hrows r c _
  have hlen2 : (setCell b r c (cell b nr nc)).length = b.length :=
    length_setCell b r c _
  unfold swapCells
  rw [flatten_setCell _ hrows2 nr nc (by omega) hnc,
    flatten_setCell b hrows r c hr hc,
    cell_flatten b hrows r c hr hc, cell_flatten b hrows nr nc hnr hnc]
  have hflen : b.flatten.length = b.length * n := flatten_length_rows hrows
  have hij : r * n + c ≠ nr * n + nc := by
    intro h
    exact hne (flat_index_inj hc hnc h)
  exact set_set_swap_perm b.flatten (r * n + c) (nr * n + nc) 0 hij
    (by rw [hflen]; exact flat_index_lt hr hc)
    (by rw [hflen]; exact flat_index_lt hnr hnc)

/-! ### `find_empty` characterisation -/

theorem findEmptyAux_some {b : Board} {i r c : Nat}
    (h : findEmptyAux i b = some (r, c)) :
    ∃ k, k < b.length ∧ r = i + k ∧ c < (b.getD k []).length ∧
      (b.getD k []).getD c 0 = 0 := by
  induction b generalizing i with
  | nil => simp [findEmptyAux] at h
  | cons row rest ih =>
    simp only [findEmptyAux] at h
    cases hidx : row.findIdx? (fun v => v == 0) with
    | some j =>
      rw [hidx] at h
      injection h with h
      injection h with h1 h2
      subst h1; subst h2
      rcases List.findIdx?_eq_some_iff_getElem.mp hidx with ⟨hj, hpj, _⟩
      refine ⟨0, by simp, by omega, by simpa using hj, ?_⟩
      simp only [List.getD_cons_zero]
      rw [List.getD_eq_getElem _ _ hj]
      simpa using hpj
    | none =>
      rw [hidx] at h
      rcases ih h with ⟨k, hk, hr, hc, h0⟩
      exact ⟨k + 1, by simpa using hk, by omega, by simpa using hc, by simpa using h0⟩

theorem findEmpty_some {b : Board} {r c : Nat} (h : findEmpty b = some (r, c)) :
    r < b.length ∧ c < (b.getD r []).length ∧ cell b r c = 0 := by
  rcases findEmptyAux_some h with ⟨k, hk, hr, hc, h0⟩
  have : r = k := by omega
  subst this
  exact ⟨hk, hc, h0⟩

theorem findEmptyAux_none {b : Board} {i : Nat} (h : findEmptyAux i b = none) :
    ∀ row ∈ b, ∀ v ∈ row, v ≠ 0 := by
  induction b generalizing i with
  | nil => simp
  | cons row rest ih =>
    simp only [findEmptyAux] at h
    cases hidx : row.findIdx? (fun v => v == 0) with
    | some j => rw [hidx] at h; exact absurd h (by simp)
    | none =>
      rw [hidx] at h
      intro row2 hrow2 v hv
      rcases List.mem_cons.mp hrow2 with h2 | h2
      · subst h2
        have := List.findIdx?_eq_none_iff.mp hidx v hv
        simpa using this
      · exact ih h row2 h2 v hv

theorem valid_findEmpty_isSome {n : Nat} {b : Board} (hv : ValidBoard n b)
    (hn : 0 < n) : ∃ rc, findEmpty b = some rc := by
  cases h : findEmpty b with
  | some rc => exact ⟨rc, rfl⟩
  | none =>
    exfalso
    have hmem : (0 : Int) ∈ b.flatten := by
      rw [hv.2.2.mem_iff]
      simp only [List.mem_map]
      exact ⟨0, by simpa using Nat.mul_pos hn hn, rfl⟩
    rcases List.mem_flatten.mp hmem with ⟨row, hrow, h0⟩
    exact findEmptyAux_none h row hrow 0 h0 rfl

/-! ### Adjacency: elimination and preservation -/

theorem adj_elim {b b2 : Board} (h : b2 ∈ adjBoards b) :
    ∃ r c nr nc, findEmpty b = some (r, c) ∧ nr < b.length ∧ nc < b.length ∧
      ((r : Int) - nr).natAbs + ((c : Int) - nc).natAbs = 1 ∧
      b2 = swapCells b r c nr nc := by
  unfold adjBoards at h
  cases hfe : findEmpty b with
  | none => rw [hfe] at h; simp at h
  | some rc =>
    obtain ⟨r, c⟩ := rc
    rw [hfe] at h
    rcases List.mem_map.mp h with ⟨⟨b3, name⟩, hmem, hb3⟩
    simp only at hb3
    rcases List.mem_filterMap.mp hmem with ⟨⟨dr, dc, mname⟩, hm, hsome⟩
    simp only at hsome
    split at hsome
    case isTrue hbnd =>
      rw [Option.some_inj, Prod.ext_iff] at hsome
      obtain ⟨hb, -⟩ := hsome
      simp only at hb
      have habs : dr.natAbs + dc.natAbs = 1 := by
        simp only [moves, List.mem_cons, List.not_mem_nil, or_false,
          Prod.mk.injEq] at hm
        rcases hm with ⟨rfl, rfl, -⟩ | ⟨rfl, rfl, -⟩ | ⟨rfl, rfl, -⟩ | ⟨rfl, rfl, -⟩ <;> rfl
      obtain ⟨hb1, hb2, hb3b, hb4⟩ := hbnd
      refine ⟨r, c, ((r : Int) + dr).toNat, ((c : Int) + dc).toNat, rfl, ?_, ?_, ?_, ?_⟩
      · omega
      · omega
      · omega
      · rw [← hb3, ← hb]
    case isFalse => exact absurd hsome (by simp)

theorem shapeOK_adj {n : Nat} {b b2 : Board} (hs : ShapeOK n b)
    (h : b2 ∈ adjBoards b) : ShapeOK n b2 := by
  rcases adj_elim h with ⟨r, c, nr, nc, -, -, -, -, hb2⟩
  rw [hb2]
  exact shapeOK_swapCells hs r c nr nc

theorem valid_adj {n : Nat} {b b2 : Board} (hv : ValidBoard n b)
    (h : b2 ∈ adjBoards b) : ValidBoard n b2 := by
  rcases adj_elim h with ⟨r, c, nr, nc, hfe, hnr, hnc, hdist, hb2⟩
  obtain ⟨hlen, hrows, hperm⟩ := hv
  rcases findEmpty_some hfe with ⟨hr, hc, -⟩
  have hgd : b.getD r [] ∈ b := by
    rw [List.getD_eq_getElem _ _ hr]
    exact List.getElem_mem hr
  have hcn : c < n := by
    have := hrows _ hgd
    omega
  have hne : ¬ (r = nr ∧ c = nc) := by
    rintro ⟨rfl, rfl⟩
    simp at hdist
  refine ⟨?_, ?_, ?_⟩
  · rw [hb2]
    exact (shapeOK_swapCells ⟨hlen, hrows⟩ r c nr nc).1
  · rw [hb2]
    exact (shapeOK_swapCells ⟨hlen, hrows⟩ r c nr nc).2
  · rw [hb2]
    exact (swapCells_flatten_perm b hrows r c nr nc hr hcn (by omega) (by omega)
      hne).trans hperm


/-! ### The reachability relation -/

/-- `Reach src k b`: the unit-cost state graph has a length-`k` walk from
`src` to `b` (the inductive counterpart of `reachN`). -/
inductive Reach (src : Board) : Nat → Board → Prop
  | zero : Reach src 0 src
  | step {k b c} : Reach src k b → c ∈ adjBoards b → Reach src (k + 1) c

theorem reachN_succ_def (k : Nat) (a c : Board) :
    reachN (k + 1) a c = (adjBoards a).any fun m => reachN k m c := rfl

theorem reachN_succ_iff : ∀ (k : Nat) (a c : Board),
    (reachN (k + 1) a c = true ↔ ∃ b, reachN k a b = true ∧ c ∈ adjBoards b)
  | 0, a, c => by
    rw [reachN_succ_def, List.any_eq_true]
    constructor
    · rintro ⟨m, hm, hmc⟩
      simp only [reachN, beq_iff_eq] at hmc
      subst hmc
      exact ⟨a, by simp [reachN], hm⟩
    · rintro ⟨b, hb, hc⟩
      simp only [reachN, beq_iff_eq] at hb
      subst hb
      exact ⟨c, hc, by simp [reachN]⟩
  | k + 1, a, c => by
    rw [reachN_succ_def (k + 1), List.any_eq_true]
    constructor
    · rintro ⟨m, hm, hr⟩
      rcases (reachN_succ_iff k m c).mp hr with ⟨b, hb, hcb⟩
      refine ⟨b, ?_, hcb⟩
      rw [reachN_succ_def, List.any_eq_true]
      exact ⟨m, hm, hb⟩
    · rintro ⟨b, hb, hcb⟩
      rw [reachN_succ_def, List.any_eq_true] at hb
      rcases hb with ⟨m, hm, hr⟩
      exact ⟨m, hm, (reachN_succ_iff k m c).mpr ⟨b, hr, hcb⟩⟩

theorem reach_of_reachN : ∀ {k : Nat} {src b : Board},
    reachN k src b = true → Reach src k b := by
  intro k
  induction k with
  | zero =>
    intro src b h
    simp only [reachN, beq_iff_eq] at h
    exact h ▸ Reach.zero
  | succ k ih =>
    intro src b h
    rcases (reachN_succ_iff k src b).mp h with ⟨m, hm, hadj⟩
    exact Reach.step (ih hm) hadj

theorem reachN_of_reach {src : Board} : ∀ {k : Nat} {b : Board},
    Reach src k b → reachN k src b = true := by
  intro k b h
  induction h with
  | zero => simp [reachN]
  | step hr hadj ih => exact (reachN_succ_iff _ _ _).mpr ⟨_, ih, hadj⟩

theorem reach_iff_reachN {src b : Board} {k : Nat} :
    Reach src k b ↔ reachN k src b = true :=
  ⟨reachN_of_reach, reach_of_reachN⟩

theorem valid_reach {n : Nat} {src b : Board} {k : Nat} (hv : ValidBoard n src)
    (h : Reach src k b) : ValidBoard n b := by
  induction h with
  | zero => exact hv
  | step _ hadj ih => exact valid_adj ih hadj

theorem shapeOK_reach {n : Nat} {src b : Board} {k : Nat} (hs : ShapeOK n src)
    (h : Reach src k b) : ShapeOK n b := by
  induction h with
  | zero => exact hs
  | step _ hadj ih => exact shapeOK_adj ih hadj

/-! ### Parent chains -/

/-- A state whose parent chain records an actual walk of the state graph
from the root board `b0`, with `depth` counting the hops. -/
def GoodState (b0 : Board) : PuzzleState → Prop
  | .mk b none _ d _ => b = b0 ∧ d = 0
  | .mk b (some p) _ d _ => b ∈ adjBoards p.board ∧ d = p.depth + 1 ∧ GoodState b0 p

theorem goodState_root (b0 : Board) : GoodState b0 (rootState b0) := by
  simp [rootState, GoodState]

theorem goodState_reach {b0 : Board} :
    ∀ (s : PuzzleState), GoodState b0 s → Reach b0 s.depth s.board
  | .mk b none m d c, h => by
    obtain ⟨rfl, rfl⟩ := h
    exact Reach.zero
  | .mk b (some p) m d c, h => by
    obtain ⟨hadj, hd, hp⟩ := h
    simp only [PuzzleState.board, PuzzleState.depth, hd]
    exact Reach.step (goodState_reach p hp) hadj

theorem pathBoards_ne_nil : ∀ (s : PuzzleState), s.pathBoards ≠ []
  | .mk b none _ _ _ => by simp [PuzzleState.pathBoards]
  | .mk b (some p) _ _ _ => by simp [PuzzleState.pathBoards]

theorem pathBoards_getLast? : ∀ (s : PuzzleState),
    s.pathBoards.getLast? = some s.board
  | .mk b none _ _ _ => by simp [PuzzleState.pathBoards, PuzzleState.board]
  | .mk b (some p) _ _ _ => by
    simp [PuzzleState.pathBoards, PuzzleState.board, List.getLast?_append]

theorem pathBoards_length {b0 : Board} :
    ∀ (s : PuzzleState), GoodState b0 s → s.pathBoards.length = s.depth + 1
  | .mk b none _ d _, h => by
    obtain ⟨-, rfl⟩ := h
    simp [PuzzleState.pathBoards, PuzzleState.depth]
  | .mk b (some p) _ d _, h => by
    obtain ⟨-, hd, hp⟩ := h
    simp [PuzzleState.pathBoards, PuzzleState.depth, hd,
      pathBoards_length p hp]

theorem pathBoards_head? {b0 : Board} :
    ∀ (s : PuzzleState), GoodState b0 s → s.pathBoards.head? = some b0
  | .mk b none _ _ _, h => by
    obtain ⟨rfl, -⟩ := h
    simp [PuzzleState.pathBoards]
  | .mk b (some p) _ _ _, h => by
    obtain ⟨-, -, hp⟩ := h
    have := pathBoards_head? p hp
    have hne := pathBoards_ne_nil p
    simp only [PuzzleState.pathBoards]
    rwa [List.head?_append_of_ne_nil _ hne]

theorem pathBoards_chain {b0 : Board} :
    ∀ (s : PuzzleState), GoodState b0 s →
      List.Chain' (fun x y => y ∈ adjBoards x) s.pathBoards
  | .mk b none _ _ _, _ => by
    simp only [PuzzleState.pathBoards]
    exact List.chain'_singleton b
  | .mk b (some p) _ _ _, h => by
    obtain ⟨hadj, -, hp⟩ := h
    simp only [PuzzleState.pathBoards]
    apply List.Chain'.append (pathBoards_chain p hp) (List.chain'_singleton b)
    intro x hx y hy
    rw [pathBoards_getLast? p] at hx
    simp only [List.head?_cons, Option.mem_def, Option.some_inj] at hx hy
    rw [← hx, ← hy]
    exact hadj

/-! ### Successor lemmas -/

theorem succ_mem_elim {s s2 : PuzzleState} {l : List PuzzleState}
    (hl : getSuccessors s = some l) (hs2 : s2 ∈ l) :
    ∃ b2 mv, b2 ∈ adjBoards s.board ∧
      s2 = PuzzleState.mk b2 (some s) (some mv) (s.depth + 1) (s.cost + 1) := by
  unfold getSuccessors at hl
  cases hfe : findEmpty s.board with
  | none => rw [hfe] at hl; exact absurd hl (by simp)
  | some rc =>
    rw [hfe] at hl
    simp only [Option.map_some', Option.some_inj] at hl
    subst hl
    rcases List.mem_map.mp hs2 with ⟨⟨b2, mv⟩, hmem, rfl⟩
    refine ⟨b2, mv, ?_, rfl⟩
    unfold adjBoards
    rw [hfe]
    exact List.mem_map.mpr ⟨(b2, mv), hmem, rfl⟩

theorem goodState_succ {b0 : Board} {s s2 : PuzzleState} {l : List PuzzleState}
    (hg : GoodState b0 s) (hl : getSuccessors s = some l) (hs2 : s2 ∈ l) :
    GoodState b0 s2 := by
  rcases succ_mem_elim hl hs2 with ⟨b2, mv, hadj, rfl⟩
  exact ⟨hadj, rfl, hg⟩

theorem valid_getSuccessors_isSome {n : Nat} {s : PuzzleState}
    (hv : ValidBoard n s.board) (hn : 0 < n) :
    ∃ l, getSuccessors s = some l := by
  rcases valid_findEmpty_isSome hv hn with ⟨rc, hrc⟩
  refine ⟨(moveResults s.board rc.1 rc.2).map fun bm =>
    PuzzleState.mk bm.1 (some s) (some bm.2) (s.depth + 1) (s.cost + 1), ?_⟩
  unfold getSuccessors
  rw [hrc]
  rfl

/-! ### Heap multiset lemmas -/

theorem siftdown_coe (newitem : Entry) (start : Nat) :
    ∀ (pos : Nat) (heap : List Entry), pos < heap.length →
      (↑(siftdown newitem start pos heap) : Multiset Entry) =
        ↑(heap.set pos newitem) := by
  intro pos
  induction pos using Nat.strong_induction_on with
  | _ pos ih =>
    intro heap hpos
    rw [siftdown_eq]
    by_cases hs : start < pos
    · rw [if_pos hs]
      have hpplt : (pos - 1) / 2 < pos :=
        Nat.lt_of_le_of_lt (Nat.div_le_self _ _) (by omega)
      by_cases hlt : entryLt newitem (heap.getD ((pos - 1) / 2) default) = true
      · rw [if_pos hlt]
        have hrec := ih ((pos - 1) / 2) hpplt
          (heap.set pos (heap.getD ((pos - 1) / 2) default))
          (by simp only [List.length_set]; omega)
        rw [hrec]
        have h1 := getD_cons_coe_set heap pos
          (heap.getD ((pos - 1) / 2) default) default hpos
        have h2 := getD_cons_coe_set
          (heap.set pos (heap.getD ((pos - 1) / 2) default))
          ((pos - 1) / 2) newitem default
          (by simp only [List.length_set]; omega)
        have hget : (heap.set pos (heap.getD ((pos - 1) / 2) default)).getD
            ((pos - 1) / 2) default = heap.getD ((pos - 1) / 2) default := by
          rw [List.getD_eq_getElem _ _ (by simp only [List.length_set]; omega)]
          rw [List.getElem_set_ne (by omega)]
          exact (List.getD_eq_getElem heap default (by omega)).symm
        rw [hget] at h2
        have h3 := getD_cons_coe_set heap pos newitem default hpos
        have key : heap.getD pos default ::ₘ heap.getD ((pos - 1) / 2) default ::ₘ
            (↑((heap.set pos (heap.getD ((pos - 1) / 2) default)).set
              ((pos - 1) / 2) newitem) : Multiset Entry) =
            heap.getD pos default ::ₘ heap.getD ((pos - 1) / 2) default ::ₘ
              ↑(heap.set pos newitem) := by
          calc heap.getD pos default ::ₘ heap.getD ((pos - 1) / 2) default ::ₘ
              (↑((heap.set pos (heap.getD ((pos - 1) / 2) default)).set
                ((pos - 1) / 2) newitem) : Multiset Entry)
              = heap.getD pos default ::ₘ (newitem ::ₘ
                ↑(heap.set pos (heap.getD ((pos - 1) / 2) default))) := by rw [h2]
            _ = newitem ::ₘ (heap.getD pos default ::ₘ
                ↑(heap.set pos (heap.getD ((pos - 1) / 2) default))) :=
                Multiset.cons_swap _ _ _
            _ = newitem ::ₘ (heap.getD ((pos - 1) / 2) default ::ₘ ↑heap) := by
                rw [h1]
            _ = heap.getD ((pos - 1) / 2) default ::ₘ (newitem ::ₘ ↑heap) :=
                Multiset.cons_swap _ _ _
            _ = heap.getD ((pos - 1) / 2) default ::ₘ
                (heap.getD pos default ::ₘ ↑(heap.set pos newitem)) := by rw [h3]
            _ = heap.getD pos default ::ₘ heap.getD ((pos - 1) / 2) default ::ₘ
                ↑(heap.set pos newitem) := Multiset.cons_swap _ _ _
        exact (Multiset.cons_inj_right _).mp ((Multiset.cons_inj_right _).mp key)
      · rw [if_neg hlt]
    · rw [if_neg hs]

theorem siftup_coe (newitem : Entry) (start : Nat) :
    ∀ (fuel pos : Nat) (heap : List Entry), heap.length ≤ pos + fuel →
      pos < heap.length →
      (↑(siftup newitem start pos heap) : Multiset Entry) =
        ↑(heap.set pos newitem) := by
  intro fuel
  induction fuel with
  | zero => intro pos heap hf hpos; omega
  | succ fuel ih =>
    intro pos heap hf hpos
    rw [siftup_eq]
    by_cases hch : 2 * pos + 1 < heap.length
    · rw [if_pos hch]
      have hc2lt : siftupChild heap pos < heap.length := by
        unfold siftupChild; split <;> omega
      have hc2gt : pos < siftupChild heap pos := by
        unfold siftupChild; split <;> omega
      have hrec := ih (siftupChild heap pos)
        (heap.set pos (heap.getD (siftupChild heap pos) default))
        (by simp only [List.length_set]; omega)
        (by simp only [List.length_set]; omega)
      rw [hrec]
      have h1 := getD_cons_coe_set heap pos
        (heap.getD (siftupChild heap pos) default) default hpos
      have h2 := getD_cons_coe_set
        (heap.set pos (heap.getD (siftupChild heap pos) default))
        (siftupChild heap pos) newitem default
        (by simp only [List.length_set]; omega)
      have hget : (heap.set pos (heap.getD (siftupChild heap pos) default)).getD
          (siftupChild heap pos) default =
          heap.getD (siftupChild heap pos) default := by
        rw [List.getD_eq_getElem _ _ (by simp only [List.length_set]; omega)]
        rw [List.getElem_set_ne (by omega)]
        exact (List.getD_eq_getElem heap default (by omega)).symm
      rw [hget] at h2
      have h3 := getD_cons_coe_set heap pos newitem default hpos
      have key : heap.getD pos default ::ₘ
          heap.getD (siftupChild heap pos) default ::ₘ
          (↑((heap.set pos (heap.getD (siftupChild heap pos) default)).set
            (siftupChild heap pos) newitem) : Multiset Entry) =
          heap.getD pos default ::ₘ heap.getD (siftupChild heap pos) default ::ₘ
            ↑(heap.set pos newitem) := by
        calc heap.getD pos default ::ₘ heap.getD (siftupChild heap pos) default ::ₘ
            (↑((heap.set pos (heap.getD (siftupChild heap pos) default)).set
              (siftupChild heap pos) newitem) : Multiset Entry)
            = heap.getD pos default ::ₘ (newitem ::ₘ
              ↑(heap.set pos (heap.getD (siftupChild heap pos) default))) := by
              rw [h2]
          _ = newitem ::ₘ (heap.getD pos default ::ₘ
              ↑(heap.set pos (heap.getD (siftupChild heap pos) default))) :=
              Multiset.cons_swap _ _ _
          _ = newitem ::ₘ (heap.getD (siftupChild heap pos) default ::ₘ ↑heap) := by
              rw [h1]
          _ = heap.getD (siftupChild heap pos) default ::ₘ (newitem ::ₘ ↑heap) :=
              Multiset.cons_swap _ _ _
          _ = heap.getD (siftupChild heap pos) default ::ₘ
              (heap.getD pos default ::ₘ ↑(heap.set pos newitem)) := by rw [h3]
          _ = heap.getD pos default ::ₘ heap.getD (siftupChild heap pos) default ::ₘ
              ↑(heap.set pos newitem) := Multiset.cons_swap _ _ _
      exact (Multiset.cons_inj_right _).mp ((Multiset.cons_inj_right _).mp key)
    · rw [if_neg hch]
      exact siftdown_coe newitem start pos heap hpos

theorem heappush_coe (heap : List Entry) (item : Entry) :
    (↑(heappush heap item) : Multiset Entry) = item ::ₘ ↑heap := by
  unfold heappush
  rw [siftdown_coe item 0 heap.length (heap ++ [item]) (by simp)]
  rw [List.set_append_right _ _ (Nat.le_refl _)]
  simp only [Nat.sub_self, List.set_cons_zero]
  rw [Multiset.cons_coe]
  exact Multiset.coe_eq_coe.mpr (List.perm_append_singleton _ _)

theorem heappop_coe {heap rest : List Entry} {e : Entry}
    (h : heappop heap = some (e, rest)) :
    (↑heap : Multiset Entry) = e ::ₘ ↑rest := by
  unfold heappop at h
  cases hlast : heap.getLast? with
  | none => rw [hlast] at h; exact absurd h (by simp)
  | some lastelt =>
    rw [hlast] at h
    dsimp only at h
    have hheap : heap.dropLast ++ [lastelt] = heap :=
      List.dropLast_append_getLast? lastelt hlast
    by_cases hemp : heap.dropLast.isEmpty
    · rw [if_pos hemp] at h
      simp only [Option.some_inj, Prod.mk.injEq] at h
      obtain ⟨rfl, rfl⟩ := h
      rw [← hheap, List.isEmpty_iff.mp hemp]
      rfl
    · rw [if_neg hemp] at h
      simp only [Option.some_inj, Prod.mk.injEq] at h
      obtain ⟨he, hrest⟩ := h
      have hlen : 0 < heap.dropLast.length := by
        cases hdl : heap.dropLast with
        | nil => rw [hdl] at hemp; simp at hemp
        | cons x xs => simp [hdl]
      have hsu := siftup_coe lastelt 0 heap.dropLast.length 0
        (heap.dropLast.set 0 lastelt)
        (by simp only [List.length_set]; omega)
        (by simp only [List.length_set]; omega)
      rw [List.set_set] at hsu
      have hh := getD_cons_coe_set heap.dropLast 0 lastelt default hlen
      have hhd : heap.dropLast.headD default = heap.dropLast.getD 0 default := by
        cases heap.dropLast <;> rfl
      calc (↑heap : Multiset Entry) = ↑(heap.dropLast ++ [lastelt]) := by
            rw [hheap]
        _ = lastelt ::ₘ ↑heap.dropLast := by
            rw [Multiset.cons_coe]
            exact Multiset.coe_eq_coe.mpr (List.perm_append_singleton _ _)
        _ = heap.dropLast.getD 0 default ::ₘ ↑(heap.dropLast.set 0 lastelt) :=
            hh.symm
        _ = e ::ₘ ↑rest := by rw [← he, ← hrest, hsu, hhd]

theorem mem_heappush {heap : List Entry} {item x : Entry} :
    x ∈ heappush heap item ↔ x = item ∨ x ∈ heap := by
  rw [← Multiset.mem_coe, heappush_coe, Multiset.mem_cons, Multiset.mem_coe]

theorem heappop_mem {heap rest : List Entry} {e : Entry}
    (h : heappop heap = some (e, rest)) :
    e ∈ heap ∧ ∀ x ∈ rest, x ∈ heap := by
  have hc := heappop_coe h
  constructor
  · rw [← Multiset.mem_coe, hc]
    exact Multiset.mem_cons_self _ _
  · intro x hx
    rw [← Multiset.mem_coe, hc]
    exact Multiset.mem_cons_of_mem (by rwa [Multiset.mem_coe])

/-! ### Push-loop characterisations -/

theorem bfsPush_spec : ∀ (ss q : List PuzzleState) (v : List Board),
    ∃ added, bfsPush (q, v) ss =
        (q ++ added, (added.map PuzzleState.board).reverse ++ v) ∧
      added.Sublist ss ∧ (∀ s ∈ added, s.board ∉ v) ∧
      (∀ s ∈ ss, s.board ∈ (added.map PuzzleState.board).reverse ++ v) ∧
      (v.Nodup → ((added.map PuzzleState.board).reverse ++ v).Nodup)
  | [], q, v => ⟨[], by simp [bfsPush], by simp, by simp, by simp, by simp⟩
  | s :: ss, q, v => by
    by_cases hmem : s.board ∈ v
    · rcases bfsPush_spec ss q v with ⟨added, heq, hsub, hnot, hcov, hnd⟩
      refine ⟨added, ?_, hsub.cons _, hnot, ?_, hnd⟩
      · rw [bfsPush, if_pos hmem]
        exact heq
      · intro s2 hs2
        rcases List.mem_cons.mp hs2 with rfl | hs2
        · simp [hmem]
        · exact hcov s2 hs2
    · rcases bfsPush_spec ss (q ++ [s]) (s.board :: v) with
        ⟨added, heq, hsub, hnot, hcov, hnd⟩
      have hlist : ((s :: added).map PuzzleState.board).reverse ++ v =
          (added.map PuzzleState.board).reverse ++ s.board :: v := by simp
      refine ⟨s :: added, ?_, hsub.cons₂ _, ?_, ?_, ?_⟩
      · rw [bfsPush, if_neg hmem, heq, Prod.mk.injEq]
        exact ⟨by simp, hlist.symm⟩
      · intro s2 hs2
        rcases List.mem_cons.mp hs2 with rfl | hs2
        · exact hmem
        · exact fun hc => hnot s2 hs2 (List.mem_cons_of_mem _ hc)
      · intro s2 hs2
        rw [hlist]
        rcases List.mem_cons.mp hs2 with rfl | hs2
        · exact List.mem_append_right _ (List.mem_cons_self _ _)
        · exact hcov s2 hs2
      · intro hv
        rw [hlist]
        exact hnd (List.nodup_cons.mpr ⟨hmem, hv⟩)

theorem dfsPush_spec : ∀ (ss stk : List PuzzleState) (v : List Board),
    ∃ added : List PuzzleState, dfsPush (stk, v) ss =
        (added.reverse ++ stk, (added.map PuzzleState.board).reverse ++ v) ∧
      added.Sublist ss ∧ (∀ s ∈ added, s.board ∉ v) ∧
      (∀ s ∈ ss, s.board ∈ (added.map PuzzleState.board).reverse ++ v) ∧
      (v.Nodup → ((added.map PuzzleState.board).reverse ++ v).Nodup)
  | [], stk, v => ⟨[], by simp [dfsPush], by simp, by simp, by simp, by simp⟩
  | s :: ss, stk, v => by
    by_cases hmem : s.board ∈ v
    · rcases dfsPush_spec ss stk v with ⟨added, heq, hsub, hnot, hcov, hnd⟩
      refine ⟨added, ?_, hsub.cons _, hnot, ?_, hnd⟩
      · rw [dfsPush, if_pos hmem]
        exact heq
      · intro s2 hs2
        rcases List.mem_cons.mp hs2 with rfl | hs2
        · simp [hmem]
        · exact hcov s2 hs2
    · rcases dfsPush_spec ss (s :: stk) (s.board :: v) with
        ⟨added, heq, hsub, hnot, hcov, hnd⟩
      have hlist : ((s :: added).map PuzzleState.board).reverse ++ v =
          (added.map PuzzleState.board).reverse ++ s.board :: v := by simp
      refine ⟨s :: added, ?_, hsub.cons₂ _, ?_, ?_, ?_⟩
      · rw [dfsPush, if_neg hmem, heq, Prod.mk.injEq]
        exact ⟨by simp, hlist.symm⟩
      · intro s2 hs2
        rcases List.mem_cons.mp hs2 with rfl | hs2
        · exact hmem
        · exact fun hc => hnot s2 hs2 (List.mem_cons_of_mem _ hc)
      · intro s2 hs2
        rw [hlist]
        rcases List.mem_cons.mp hs2 with rfl | hs2
        · exact List.mem_append_right _ (List.mem_cons_self _ _)
        · exact hcov s2 hs2
      · intro hv
        rw [hlist]
        exact hnd (List.nodup_cons.mpr ⟨hmem, hv⟩)

theorem astarPush_spec : ∀ (ss : List PuzzleState) (hp : List Entry)
    (v : List Board) {hp2 : List Entry} {v2 : List Board},
    astarPush (hp, v) ss = some (hp2, v2) →
    ∃ added : List Entry,
      (↑hp2 : Multiset Entry) = ↑hp + ↑added ∧
      v2 = (added.map fun e => e.2.2.board).reverse ++ v ∧
      (∀ e ∈ added, ∃ s ∈ ss, s.board ∉ v ∧ manhattan s.board = some e.2.1 ∧
        e.1 = s.depth + e.2.1 ∧ e.2.2 = s.withCost e.1) ∧
      (∀ s ∈ ss, s.board ∈ v2) ∧
      (v.Nodup → v2.Nodup)
  | [], hp, v, hp2, v2 => by
    intro h
    simp only [astarPush, Option.some_inj, Prod.mk.injEq] at h
    obtain ⟨rfl, rfl⟩ := h
    exact ⟨[], by simp, by simp, by simp, by simp, fun hv => hv⟩
  | s :: ss, hp, v, hp2, v2 => by
    intro h
    rw [astarPush] at h
    by_cases hmem : s.board ∈ v
    · rw [if_pos hmem] at h
      rcases astarPush_spec ss hp v h with ⟨added, hcoe, hv2, hprops, hcov, hnd⟩
      refine ⟨added, hcoe, hv2, ?_, ?_, hnd⟩
      · intro e he
        rcases hprops e he with ⟨s2, hs2, hprops2⟩
        exact ⟨s2, List.mem_cons_of_mem _ hs2, hprops2⟩
      · intro s2 hs2
        rcases List.mem_cons.mp hs2 with rfl | hs2
        · rw [hv2]
          simp [hmem]
        · exact hcov s2 hs2
    · rw [if_neg hmem] at h
      cases hman : manhattan s.board with
      | none => rw [hman] at h; exact absurd h (by simp)
      | some hval =>
        rw [hman] at h
        simp only at h
        rcases astarPush_spec ss (heappush hp (s.depth + hval, hval,
            s.withCost (s.depth + hval))) ((s.withCost (s.depth + hval)).board :: v)
            h with ⟨added, hcoe, hv2, hprops, hcov, hnd⟩
        have hwb : (s.withCost (s.depth + hval)).board = s.board := by
          cases s; rfl
        refine ⟨(s.depth + hval, hval, s.withCost (s.depth + hval)) :: added,
          ?_, ?_, ?_, ?_, ?_⟩
        · rw [hcoe, heappush_coe]
          simp only [← Multiset.cons_coe]
          rw [Multiset.cons_add, Multiset.add_cons]
        · rw [hv2]
          simp [hwb]
        · intro e he
          rcases List.mem_cons.mp he with rfl | he
          · exact ⟨s, List.mem_cons_self _ _, hmem, hman, rfl, rfl⟩
          · rcases hprops e he with ⟨s2, hs2, hnot2, hrest⟩
            refine ⟨s2, List.mem_cons_of_mem _ hs2, ?_, hrest⟩
            intro hc
            exact hnot2 (List.mem_cons_of_mem _ hc)
        · intro s2 hs2
          rcases List.mem_cons.mp hs2 with rfl | hs2
          · rw [hv2, hwb]
            simp
          · exact hcov s2 hs2
        · intro hv
          apply hnd
          rw [hwb]
          exact List.nodup_cons.mpr ⟨hmem, hv⟩

/-! ### Step characterisations -/

/-- Exactly the four things one iteration of the BFS loop can do. -/
theorem bfsStep_spec (st : BfsState) :
    (st.queue = [] ∧ bfsStep st = .done (.ok
      { success := false, algorithm := some "BFS",
        nodes_expanded := some st.nodesExpanded,
        max_queue_size := some st.maxQueueSize })) ∨
    (∃ cur rest, st.queue = cur :: rest ∧ isGoal cur.board = true ∧
      bfsStep st = .done (.ok
        { success := true, algorithm := some "BFS",
          solution_path := some cur.pathBoards,
          solution_depth := some (cur.pathBoards.length - 1),
          nodes_expanded := some (st.nodesExpanded + 1),
          max_queue_size := some (max st.maxQueueSize (rest.length + 1)) })) ∨
    (∃ cur rest, st.queue = cur :: rest ∧ isGoal cur.board = false ∧
      getSuccessors cur = none ∧ bfsStep st = .done .crash) ∨
    (∃ cur rest succs added, st.queue = cur :: rest ∧ isGoal cur.board = false ∧
      getSuccessors cur = some succs ∧ added.Sublist succs ∧
      (∀ s ∈ added, s.board ∉ st.visited) ∧
      (∀ s ∈ succs, s.board ∈ (added.map PuzzleState.board).reverse ++ st.visited) ∧
      (st.visited.Nodup →
        ((added.map PuzzleState.board).reverse ++ st.visited).Nodup) ∧
      bfsStep st = .next ⟨rest ++ added,
        (added.map PuzzleState.board).reverse ++ st.visited,
        st.nodesExpanded + 1, max st.maxQueueSize (rest.length + 1)⟩) := by
  cases hq : st.queue with
  | nil =>
    refine Or.inl ⟨rfl, ?_⟩
    unfold bfsStep
    rw [hq]
  | cons cur rest =>
    by_cases hg : isGoal cur.board = true
    · refine Or.inr (Or.inl ⟨cur, rest, rfl, hg, ?_⟩)
      unfold bfsStep
      rw [hq]
      dsimp only
      rw [if_pos hg]
    · cases hsucc : getSuccessors cur with
      | none =>
        refine Or.inr (Or.inr (Or.inl ⟨cur, rest, rfl,
          Bool.not_eq_true _ ▸ hg, hsucc, ?_⟩))
        unfold bfsStep
        rw [hq]
        dsimp only
        rw [if_neg hg, hsucc]
      | some succs =>
        rcases bfsPush_spec succs rest st.visited with
          ⟨added, heq, hsub, hnot, hcov, hnd⟩
        refine Or.inr (Or.inr (Or.inr ⟨cur, rest, succs, added, rfl,
          Bool.not_eq_true _ ▸ hg, hsucc, hsub, hnot, hcov, hnd, ?_⟩))
        unfold bfsStep
        rw [hq]
        dsimp only
        rw [if_neg hg, hsucc]
        dsimp only
        rw [heq]

/-- Exactly the five things one iteration of the DFS loop can do. -/
theorem dfsStep_spec (st : DfsState) :
    (st.stack = [] ∧ dfsStep st = .done (.ok
      { success := false, algorithm := some "DFS",
        nodes_expanded := some st.nodesExpanded,
        max_stack_size := some st.maxStackSize,
        message := some ("No solution found within depth limit of " ++
          toString st.depthLimit) })) ∨
    (∃ cur rest, st.stack = cur :: rest ∧ isGoal cur.board = true ∧
      dfsStep st = .done (.ok
        { success := true, algorithm := some "DFS",
          solution_path := some cur.pathBoards,
          solution_depth := some (cur.pathBoards.length - 1),
          nodes_expanded := some (st.nodesExpanded + 1),
          max_stack_size := some (max st.maxStackSize (rest.length + 1)) })) ∨
    (∃ cur rest, st.stack = cur :: rest ∧ isGoal cur.board = false ∧
      cur.depth < st.depthLimit ∧ getSuccessors cur = none ∧
      dfsStep st = .done .crash) ∨
    (∃ (cur : PuzzleState) (rest succs added : List PuzzleState),
      st.stack = cur :: rest ∧ isGoal cur.board = false ∧
      cur.depth < st.depthLimit ∧ getSuccessors cur = some succs ∧
      added.Sublist succs.reverse ∧ (∀ s ∈ added, s.board ∉ st.visited) ∧
      (∀ s ∈ succs.reverse, s.board ∈
        (added.map PuzzleState.board).reverse ++ st.visited) ∧
      (st.visited.Nodup →
        ((added.map PuzzleState.board).reverse ++ st.visited).Nodup) ∧
      dfsStep st = .next ⟨added.reverse ++ rest,
        (added.map PuzzleState.board).reverse ++ st.visited,
        st.nodesExpanded + 1, max st.maxStackSize (rest.length + 1),
        st.depthLimit⟩) ∨
    (∃ cur rest, st.stack = cur :: rest ∧ isGoal cur.board = false ∧
      ¬ cur.depth < st.depthLimit ∧
      dfsStep st = .next ⟨rest, st.visited, st.nodesExpanded + 1,
        max st.maxStackSize (rest.length + 1), st.depthLimit⟩) := by
  cases hq : st.stack with
  | nil =>
    refine Or.inl ⟨rfl, ?_⟩
    unfold dfsStep
    rw [hq]
  | cons cur rest =>
    by_cases hg : isGoal cur.board = true
    · refine Or.inr (Or.inl ⟨cur, rest, rfl, hg, ?_⟩)
      unfold dfsStep
      rw [hq]
      dsimp only
      rw [if_pos hg]
    · by_cases hd : cur.depth < st.depthLimit
      · cases hsucc : getSuccessors cur with
        | none =>
          refine Or.inr (Or.inr (Or.inl ⟨cur, rest, rfl,
            Bool.not_eq_true _ ▸ hg, hd, hsucc, ?_⟩))
          unfold dfsStep
          rw [hq]
          dsimp only
          rw [if_neg hg, if_pos hd, hsucc]
        | some succs =>
          rcases dfsPush_spec succs.reverse rest st.visited with
            ⟨added, heq, hsub, hnot, hcov, hnd⟩
          refine Or.inr (Or.inr (Or.inr (Or.inl ⟨cur, rest, succs, added, rfl,
            Bool.not_eq_true _ ▸ hg, hd, hsucc, hsub, hnot, hcov, hnd, ?_⟩)))
          unfold dfsStep
          rw [hq]
          dsimp only
          rw [if_neg hg, if_pos hd, hsucc]
          dsimp only
          rw [heq]
      · refine Or.inr (Or.inr (Or.inr (Or.inr ⟨cur, rest, rfl,
          Bool.not_eq_true _ ▸ hg, hd, ?_⟩)))
        unfold dfsStep
        rw [hq]
        dsimp only
        rw [if_neg hg, if_neg hd]

/-- Exactly the five things one iteration of the A* loop can do. -/
theorem astarStep_spec (st : AstarState) :
    (heappop st.heap = none ∧ astarStep st = .done (.ok
      { success := false, algorithm := some "A*",
        nodes_expanded := some st.nodesExpanded,
        max_queue_size := some st.maxQueueSize })) ∨
    (∃ e rest, heappop st.heap = some (e, rest) ∧ isGoal e.2.2.board = true ∧
      astarStep st = .done (.ok
        { success := true, algorithm := some "A*",
          solution_path := some e.2.2.pathBoards,
          solution_depth := some (e.2.2.pathBoards.length - 1),
          nodes_expanded := some (st.nodesExpanded + 1),
          max_queue_size := some (max st.maxQueueSize st.heap.length) })) ∨
    (∃ e rest, heappop st.heap = some (e, rest) ∧ isGoal e.2.2.board = false ∧
      getSuccessors e.2.2 = none ∧ astarStep st = .done .crash) ∨
    (∃ e rest succs, heappop st.heap = some (e, rest) ∧
      isGoal e.2.2.board = false ∧ getSuccessors e.2.2 = some succs ∧
      astarPush (rest, st.visited) succs = none ∧ astarStep st = .done .crash) ∨
    (∃ e rest succs hp2 v2, heappop st.heap = some (e, rest) ∧
      isGoal e.2.2.board = false ∧ getSuccessors e.2.2 = some succs ∧
      astarPush (rest, st.visited) succs = some (hp2, v2) ∧
      astarStep st = .next ⟨hp2, v2, st.nodesExpanded + 1,
        max st.maxQueueSize st.heap.length⟩) := by
  cases hpop : heappop st.heap with
  | none =>
    refine Or.inl ⟨rfl, ?_⟩
    unfold astarStep
    rw [hpop]
  | some er =>
    obtain ⟨e, rest⟩ := er
    by_cases hg : isGoal e.2.2.board = true
    · refine Or.inr (Or.inl ⟨e, rest, rfl, hg, ?_⟩)
      unfold astarStep
      rw [hpop]
      dsimp only
      rw [if_pos hg]
    · cases hsucc : getSuccessors e.2.2 with
      | none =>
        refine Or.inr (Or.inr (Or.inl ⟨e, rest, rfl,
          Bool.not_eq_true _ ▸ hg, hsucc, ?_⟩))
        unfold astarStep
        rw [hpop]
        dsimp only
        rw [if_neg hg, hsucc]
      | some succs =>
        cases hpush : astarPush (rest, st.visited) succs with
        | none =>
          refine Or.inr (Or.inr (Or.inr (Or.inl ⟨e, rest, succs, rfl,
            Bool.not_eq_true _ ▸ hg, hsucc, hpush, ?_⟩)))
          unfold astarStep
          rw [hpop]
          dsimp only
          rw [if_neg hg, hsucc]
          dsimp only
          rw [hpush]
        | some hv =>
          obtain ⟨hp2, v2⟩ := hv
          refine Or.inr (Or.inr (Or.inr (Or.inr ⟨e, rest, succs, hp2, v2, rfl,
            Bool.not_eq_true _ ▸ hg, hsucc, hpush, ?_⟩)))
          unfold astarStep
          rw [hpop]
          dsimp only
          rw [if_neg hg, hsucc]
          dsimp only
          rw [hpush]

/-! ### Search invariants -/

theorem bfsRun_succ (fuel : Nat) (st : BfsState) :
    bfsRun (fuel + 1) st = (match bfsStep st with
      | .done r => r
      | .next st2 => bfsRun fuel st2) := rfl

theorem bfsIter_succ (k : Nat) (st : BfsState) :
    bfsIter (k + 1) st = (match bfsStep st with
      | .done _ => none
      | .next st2 => bfsIter k st2) := rfl

theorem dfsRun_succ (fuel : Nat) (st : DfsState) :
    dfsRun (fuel + 1) st = (match dfsStep st with
      | .done r => r
      | .next st2 => dfsRun fuel st2) := rfl

theorem dfsIter_succ (k : Nat) (st : DfsState) :
    dfsIter (k + 1) st = (match dfsStep st with
      | .done _ => none
      | .next st2 => dfsIter k st2) := rfl

theorem astarRun_succ (fuel : Nat) (st : AstarState) :
    astarRun (fuel + 1) st = (match astarStep st with
      | .done r => r
      | .next st2 => astarRun fuel st2) := rfl

theorem astarIter_succ (k : Nat) (st : AstarState) :
    astarIter (k + 1) st = (match astarStep st with
      | .done _ => none
      | .next st2 => astarIter k st2) := rfl

/-- The joint invariant of the BFS loop used by the path-validity,
cost-immutability and permutation claims. -/
structure BfsInv (b0 : Board) (st : BfsState) : Prop where
  good : ∀ s ∈ st.queue, GoodState b0 s
  costs : ∀ s ∈ st.queue, s.cost = s.depth
  vis : ∀ c ∈ st.visited, ∃ k, Reach b0 k c

theorem bfsInv_init (b0 : Board) : BfsInv b0 (bfsInit (rootState b0)) := by
  refine ⟨?_, ?_, ?_⟩ <;> intro x hx <;>
    simp only [bfsInit, rootState, PuzzleState.board, List.mem_singleton] at hx <;>
    subst hx
  · exact goodState_root b0
  · rfl
  · exact ⟨0, Reach.zero⟩

theorem bfsStep_next_inv {b0 : Board} {st st2 : BfsState} (hinv : BfsInv b0 st)
    (h : bfsStep st = .next st2) : BfsInv b0 st2 := by
  rcases bfsStep_spec st with ⟨hq, hstep⟩ | ⟨cur, rest, hq, hg, hstep⟩ |
    ⟨cur, rest, hq, hg, hsucc, hstep⟩ |
    ⟨cur, rest, succs, added, hq, hg, hsucc, hsub, hnot, hcov, hnd, hstep⟩
  · rw [hstep] at h; exact absurd h (by simp)
  · rw [hstep] at h; exact absurd h (by simp)
  · rw [hstep] at h; exact absurd h (by simp)
  · rw [hstep] at h
    injection h with h
    subst h
    have hcur : cur ∈ st.queue := by rw [hq]; exact List.mem_cons_self _ _
    refine ⟨?_, ?_, ?_⟩
    · intro s hs
      rcases List.mem_append.mp hs with hs | hs
      · exact hinv.good s (by rw [hq]; exact List.mem_cons_of_mem _ hs)
      · exact goodState_succ (hinv.good cur hcur) hsucc (hsub.subset hs)
    · intro s hs
      rcases List.mem_append.mp hs with hs | hs
      · exact hinv.costs s (by rw [hq]; exact List.mem_cons_of_mem _ hs)
      · rcases succ_mem_elim hsucc (hsub.subset hs) with ⟨b2, mv, hadj, rfl⟩
        show cur.cost + 1 = cur.depth + 1
        rw [hinv.costs cur hcur]
    · intro c hc
      rcases List.mem_append.mp hc with hc | hc
      · rw [List.mem_reverse] at hc
        rcases List.mem_map.mp hc with ⟨s, hs, rfl⟩
        rcases succ_mem_elim hsucc (hsub.subset hs) with ⟨b2, mv, hadj, rfl⟩
        rcases goodState_reach cur (hinv.good cur hcur) with hreach
        exact ⟨cur.depth + 1, Reach.step hreach hadj⟩
      · exact hinv.vis c hc

theorem bfsIter_inv {b0 : Board} : ∀ {k : Nat} {st st2 : BfsState},
    BfsInv b0 st → bfsIter k st = some st2 → BfsInv b0 st2 := by
  intro k
  induction k with
  | zero =>
    intro st st2 hinv h
    simp only [bfsIter, Option.some_inj] at h
    exact h ▸ hinv
  | succ k ih =>
    intro st st2 hinv h
    rw [bfsIter_succ] at h
    cases hstep : bfsStep st with
    | done r => rw [hstep] at h; exact absurd h (by simp)
    | next st3 =>
      rw [hstep] at h
      exact ih (bfsStep_next_inv hinv hstep) h

theorem bfsRun_success {b0 : Board} : ∀ {fuel : Nat} {st : BfsState}
    {r : ResultDict}, BfsInv b0 st → bfsRun fuel st = .ok r →
    r.success = true →
    ∃ cur, GoodState b0 cur ∧ isGoal cur.board = true ∧
      r.solution_path = some cur.pathBoards ∧
      r.solution_depth = some (cur.pathBoards.length - 1) := by
  intro fuel
  induction fuel with
  | zero => intro st r _ h _; exact absurd h (by simp [bfsRun])
  | succ fuel ih =>
    intro st r hinv h hs
    rw [bfsRun_succ] at h
    rcases bfsStep_spec st with ⟨hq, hstep⟩ | ⟨cur, rest, hq, hg, hstep⟩ |
      ⟨cur, rest, hq, hg, hsucc, hstep⟩ |
      ⟨cur, rest, succs, added, hq, hg, hsucc, hsub, hnot, hcov, hnd, hstep⟩
    · rw [hstep] at h
      simp only at h
      injection h with h
      rw [← h] at hs
      exact absurd hs (by simp)
    · rw [hstep] at h
      simp only at h
      injection h with h
      subst h
      exact ⟨cur, hinv.good cur (by rw [hq]; exact List.mem_cons_self _ _),
        hg, rfl, rfl⟩
    · rw [hstep] at h
      simp only at h
      exact absurd h (by simp)
    · rw [hstep] at h
      simp only at h
      exact ih (bfsStep_next_inv hinv hstep) h hs

/-- The joint invariant of the DFS loop. -/
structure DfsInv (b0 : Board) (st : DfsState) : Prop where
  good : ∀ s ∈ st.stack, GoodState b0 s
  costs : ∀ s ∈ st.stack, s.cost = s.depth
  vis : ∀ c ∈ st.visited, ∃ k, Reach b0 k c

theorem dfsInv_init (b0 : Board) (L : Nat) :
    DfsInv b0 (dfsInit (rootState b0) L) := by
  refine ⟨?_, ?_, ?_⟩ <;> intro x hx <;>
    simp only [dfsInit, rootState, PuzzleState.board, List.mem_singleton] at hx <;>
    subst hx
  · exact goodState_root b0
  · rfl
  · exact ⟨0, Reach.zero⟩

theorem dfsStep_next_inv {b0 : Board} {st st2 : DfsState} (hinv : DfsInv b0 st)
    (h : dfsStep st = .next st2) : DfsInv b0 st2 := by
  rcases dfsStep_spec st with ⟨hq, hstep⟩ | ⟨cur, rest, hq, hg, hstep⟩ |
    ⟨cur, rest, hq, hg, hd, hsucc, hstep⟩ |
    ⟨cur, rest, succs, added, hq, hg, hd, hsucc, hsub, hnot, hcov, hnd, hstep⟩ |
    ⟨cur, rest, hq, hg, hd, hstep⟩
  · rw [hstep] at h; exact absurd h (by simp)
  · rw [hstep] at h; exact absurd h (by simp)
  · rw [hstep] at h; exact absurd h (by simp)
  · rw [hstep] at h
    injection h with h
    subst h
    have hcur : cur ∈ st.stack := by rw [hq]; exact List.mem_cons_self _ _
    have hsub2 : added.Subset succs := fun s hs => by
      have := hsub.subset hs
      rwa [List.mem_reverse] at this
    refine ⟨?_, ?_, ?_⟩
    · intro s hs
      rcases List.mem_append.mp hs with hs | hs
      · rw [List.mem_reverse] at hs
        exact goodState_succ (hinv.good cur hcur) hsucc (hsub2 hs)
      · exact hinv.good s (by rw [hq]; exact List.mem_cons_of_mem _ hs)
    · intro s hs
      rcases List.mem_append.mp hs with hs | hs
      · rw [List.mem_reverse] at hs
        rcases succ_mem_elim hsucc (hsub2 hs) with ⟨b2, mv, hadj, rfl⟩
        show cur.cost + 1 = cur.depth + 1
        rw [hinv.costs cur hcur]
      · exact hinv.costs s (by rw [hq]; exact List.mem_cons_of_mem _ hs)
    · intro c hc
      rcases List.mem_append.mp hc with hc | hc
      · rw [List.mem_reverse] at hc
        rcases List.mem_map.mp hc with ⟨s, hs, rfl⟩
        rcases succ_mem_elim hsucc (hsub2 hs) with ⟨b2, mv, hadj, rfl⟩
        exact ⟨cur.depth + 1,
          Reach.step (goodState_reach cur (hinv.good cur hcur)) hadj⟩
      · exact hinv.vis c hc
  · rw [hstep] at h
    injection h with h
    subst h
    refine ⟨?_, ?_, hinv.vis⟩
    · intro s hs
      exact hinv.good s (by rw [hq]; exact List.mem_cons_of_mem _ hs)
    · intro s hs
      exact hinv.costs s (by rw [hq]; exact List.mem_cons_of_mem _ hs)

theorem dfsIter_inv {b0 : Board} : ∀ {k : Nat} {st st2 : DfsState},
    DfsInv b0 st → dfsIter k st = some st2 → DfsInv b0 st2 := by
  intro k
  induction k with
  | zero =>
    intro st st2 hinv h
    simp only [dfsIter, Option.some_inj] at h
    exact h ▸ hinv
  | succ k ih =>
    intro st st2 hinv h
    rw [dfsIter_succ] at h
    cases hstep : dfsStep st with
    | done r => rw [hstep] at h; exact absurd h (by simp)
    | next st3 =>
      rw [hstep] at h
      exact ih (dfsStep_next_inv hinv hstep) h

theorem dfsRun_success {b0 : Board} : ∀ {fuel : Nat} {st : DfsState}
    {r : ResultDict}, DfsInv b0 st → dfsRun fuel st = .ok r →
    r.success = true →
    ∃ cur, GoodState b0 cur ∧ isGoal cur.board = true ∧
      r.solution_path = some cur.pathBoards ∧
      r.solution_depth = some (cur.pathBoards.length - 1) := by
  intro fuel
  induction fuel with
  | zero => intro st r _ h _; exact absurd h (by simp [dfsRun])
  | succ fuel ih =>
    intro st r hinv h hs
    rw [dfsRun_succ] at h
    rcases dfsStep_spec st with ⟨hq, hstep⟩ | ⟨cur, rest, hq, hg, hstep⟩ |
      ⟨cur, rest, hq, hg, hd, hsucc, hstep⟩ |
      ⟨cur, rest, succs, added, hq, hg, hd, hsucc, hsub, hnot, hcov, hnd, hstep⟩ |
      ⟨cur, rest, hq, hg, hd, hstep⟩
    · rw [hstep] at h
      simp only at h
      injection h with h
      rw [← h] at hs
      exact absurd hs (by simp)
    · rw [hstep] at h
      simp only at h
      injection h with h
      subst h
      exact ⟨cur, hinv.good cur (by rw [hq]; exact List.mem_cons_self _ _),
        hg, rfl, rfl⟩
    · rw [hstep] at h
      simp only at h
      exact absurd h (by simp)
    · rw [hstep] at h
      simp only at h
      exact ih (dfsStep_next_inv hinv hstep) h hs
    · rw [hstep] at h
      simp only at h
      exact ih (dfsStep_next_inv hinv hstep) h hs

/-- The joint invariant of the A* loop: parent chains are genuine, every
heap entry `(f, h, s)` satisfies `h = manhattan(s)`, `f = depth + h` and
`s.cost = f` (recording the reassignment of `cost`), and visited boards
are reachable. -/
structure AstarInv (b0 : Board) (st : AstarState) : Prop where
  good : ∀ e ∈ st.heap, GoodState b0 e.2.2
  costs : ∀ e ∈ st.heap, manhattan e.2.2.board = some e.2.1 ∧
    e.1 = e.2.2.depth + e.2.1 ∧ e.2.2.cost = e.1
  vis : ∀ c ∈ st.visited, ∃ k, Reach b0 k c

theorem goodState_withCost {b0 : Board} :
    ∀ {s : PuzzleState} {c : Nat}, GoodState b0 s →
      GoodState b0 (s.withCost c) := by
  intro s c h
  cases s with
  | mk b p m d c0 =>
    cases p with
    | none => exact h
    | some q => exact h

theorem astarInv_init {b0 : Board} {h0 : Nat}
    (hman : manhattan b0 = some h0) :
    AstarInv b0 (astarInit (rootState b0) h0) := by
  refine ⟨?_, ?_, ?_⟩
  · intro e he
    simp only [astarInit, List.mem_singleton] at he
    subst he
    exact goodState_withCost (goodState_root b0)
  · intro e he
    simp only [astarInit, List.mem_singleton] at he
    subst he
    refine ⟨?_, ?_, rfl⟩
    · simpa [astarInitState, rootState, PuzzleState.withCost,
        PuzzleState.board] using hman
    · simp [astarInitState, rootState, PuzzleState.withCost, PuzzleState.depth]
  · intro c hc
    simp only [astarInit, astarInitState, rootState, PuzzleState.withCost,
      PuzzleState.board, List.mem_singleton] at hc
    subst hc
    exact ⟨0, Reach.zero⟩

theorem astarStep_next_inv {b0 : Board} {st st2 : AstarState}
    (hinv : AstarInv b0 st) (h : astarStep st = .next st2) :
    AstarInv b0 st2 := by
  rcases astarStep_spec st with ⟨hq, hstep⟩ | ⟨e, rest, hpop, hg, hstep⟩ |
    ⟨e, rest, hpop, hg, hsucc, hstep⟩ |
    ⟨e, rest, succs, hpop, hg, hsucc, hpush, hstep⟩ |
    ⟨e, rest, succs, hp2, v2, hpop, hg, hsucc, hpush, hstep⟩
  · rw [hstep] at h; exact absurd h (by simp)
  · rw [hstep] at h; exact absurd h (by simp)
  · rw [hstep] at h; exact absurd h (by simp)
  · rw [hstep] at h; exact absurd h (by simp)
  · rw [hstep] at h
    injection h with h
    subst h
    obtain ⟨hein, hrestin⟩ := heappop_mem hpop
    have hcure : GoodState b0 e.2.2 := hinv.good e hein
    rcases astarPush_spec succs rest st.visited hpush with
      ⟨added, hcoe, hv2, hprops, hcov, hnd⟩
    have hmemhp2 : ∀ x ∈ hp2, x ∈ rest ∨ x ∈ added := by
      intro x hx
      have : x ∈ (↑hp2 : Multiset Entry) := by rwa [Multiset.mem_coe]
      rw [hcoe] at this
      rcases Multiset.mem_add.mp this with hx2 | hx2
      · exact Or.inl (Multiset.mem_coe.mp hx2)
      · exact Or.inr (Multiset.mem_coe.mp hx2)
    refine ⟨?_, ?_, ?_⟩
    · intro e2 he2
      rcases hmemhp2 e2 he2 with he2 | he2
      · exact hinv.good e2 (hrestin e2 he2)
      · rcases hprops e2 he2 with ⟨s, hs, -, -, -, he2eq⟩
        rw [he2eq]
        exact goodState_withCost (goodState_succ hcure hsucc hs)
    · intro e2 he2
      rcases hmemhp2 e2 he2 with he2 | he2
      · exact hinv.costs e2 (hrestin e2 he2)
      · rcases hprops e2 he2 with ⟨s, hs, -, hman, hf, he2eq⟩
        have hb : (s.withCost e2.1).board = s.board := by cases s; rfl
        have hd : (s.withCost e2.1).depth = s.depth := by cases s; rfl
        have hcost : (s.withCost e2.1).cost = e2.1 := by cases s; rfl
        rw [he2eq, hb, hd, hcost]
        exact ⟨hman, hf, rfl⟩
    · intro c hc
      rw [hv2] at hc
      rcases List.mem_append.mp hc with hc | hc
      · rw [List.mem_reverse] at hc
        rcases List.mem_map.mp hc with ⟨e2, he2, rfl⟩
        rcases hprops e2 he2 with ⟨s, hs, -, -, -, he2eq⟩
        rcases succ_mem_elim hsucc hs with ⟨b2, mv, hadj, rfl⟩
        have hb : e2.2.2.board = b2 := by rw [he2eq]; rfl
        rw [hb]
        exact ⟨e.2.2.depth + 1,
          Reach.step (goodState_reach _ hcure) hadj⟩
      · exact hinv.vis c hc

theorem astarIter_inv {b0 : Board} : ∀ {k : Nat} {st st2 : AstarState},
    AstarInv b0 st → astarIter k st = some st2 → AstarInv b0 st2 := by
  intro k
  induction k with
  | zero =>
    intro st st2 hinv h
    simp only [astarIter, Option.some_inj] at h
    exact h ▸ hinv
  | succ k ih =>
    intro st st2 hinv h
    rw [astarIter_succ] at h
    cases hstep : astarStep st with
    | done r => rw [hstep] at h; exact absurd h (by simp)
    | next st3 =>
      rw [hstep] at h
      exact ih (astarStep_next_inv hinv hstep) h

theorem astarRun_success {b0 : Board} : ∀ {fuel : Nat} {st : AstarState}
    {r : ResultDict}, AstarInv b0 st → astarRun fuel st = .ok r →
    r.success = true →
    ∃ cur, GoodState b0 cur ∧ isGoal cur.board = true ∧
      r.solution_path = some cur.pathBoards ∧
      r.solution_depth = some (cur.pathBoards.length - 1) := by
  intro fuel
  induction fuel with
  | zero => intro st r _ h _; exact absurd h (by simp [astarRun])
  | succ fuel ih =>
    intro st r hinv h hs
    rw [astarRun_succ] at h
    rcases astarStep_spec st with ⟨hq, hstep⟩ | ⟨e, rest, hpop, hg, hstep⟩ |
      ⟨e, rest, hpop, hg, hsucc, hstep⟩ |
      ⟨e, rest, succs, hpop, hg, hsucc, hpush, hstep⟩ |
      ⟨e, rest, succs, hp2, v2, hpop, hg, hsucc, hpush, hstep⟩
    · rw [hstep] at h
      simp only at h
      injection h with h
      rw [← h] at hs
      exact absurd hs (by simp)
    · rw [hstep] at h
      simp only at h
      injection h with h
      subst h
      exact ⟨e.2.2, hinv.good e (heappop_mem hpop).1, hg, rfl, rfl⟩
    · rw [hstep] at h
      simp only at h
      exact absurd h (by simp)
    · rw [hstep] at h
      simp only at h
      exact absurd h (by simp)
    · rw [hstep] at h
      simp only at h
      exact ih (astarStep_next_inv hinv hstep) h hs

/-! ### Helpers for the claim theorems -/

theorem adj_length {b b2 : Board} (h : b2 ∈ adjBoards b) :
    b2.length = b.length := by
  rcases adj_elim h with ⟨r, c, nr, nc, -, -, -, -, rfl⟩
  unfold swapCells
  rw [length_setCell, length_setCell]

theorem reach_length {src b : Board} {k : Nat} (h : Reach src k b) :
    b.length = src.length := by
  induction h with
  | zero => rfl
  | step _ hadj ih => rw [adj_length hadj, ih]

theorem pathBoards_all_reach {b0 : Board} :
    ∀ (s : PuzzleState), GoodState b0 s →
      ∀ c ∈ s.pathBoards, ∃ k, Reach b0 k c
  | .mk b none _ _ _, h => by
    obtain ⟨rfl, -⟩ := h
    intro c hc
    simp only [PuzzleState.pathBoards, List.mem_singleton] at hc
    subst hc
    exact ⟨0, Reach.zero⟩
  | .mk b (some p) _ _ _, h => by
    obtain ⟨hadj, -, hp⟩ := h
    intro c hc
    simp only [PuzzleState.pathBoards, List.mem_append,
      List.mem_singleton] at hc
    rcases hc with hc | hc
    · exact pathBoards_all_reach p hp c hc
    · subst hc
      rcases goodState_reach p hp with hr
      exact ⟨p.depth + 1, Reach.step hr hadj⟩

theorem adj_blankSwap {n : Nat} {b b2 : Board} (hs : ShapeOK n b)
    (h : b2 ∈ adjBoards b) : BlankSwapAdj b b2 := by
  rcases adj_elim h with ⟨r, c, nr, nc, hfe, hnr, hnc, hdist, rfl⟩
  rcases findEmpty_some hfe with ⟨hr, hc, h0⟩
  have hcb : c < b.length := by
    have hmem : b.getD r [] ∈ b := by
      rw [List.getD_eq_getElem _ _ hr]
      exact List.getElem_mem hr
    have h1 := hs.2 _ hmem
    have h2 := hs.1
    omega
  exact ⟨r, c, nr, nc, hr, hcb, hnr, hnc, h0, hdist, rfl⟩

theorem chain_blankSwap {n : Nat} : ∀ (l : List Board),
    List.Chain' (fun x y => y ∈ adjBoards x) l → (∀ x ∈ l, ShapeOK n x) →
    List.Chain' BlankSwapAdj l
  | [], _, _ => List.chain'_nil
  | [x], _, _ => List.chain'_singleton x
  | x :: y :: rest, hch, hsh => by
    rw [List.chain'_cons] at hch ⊢
    refine ⟨adj_blankSwap (hsh x (List.mem_cons_self _ _)) hch.1, ?_⟩
    exact chain_blankSwap (y :: rest) hch.2
      fun z hz => hsh z (List.mem_cons_of_mem _ hz)

theorem isGoal_true_iff (b : Board) : isGoal b = true ↔ b = goalBoard b.length := by
  simp [isGoal]

theorem isGoal_false_of_ne {b : Board} (h : b ≠ goalBoard b.length) :
    isGoal b = false := by
  simp [isGoal, h]

theorem findEmptyAux_none_of : ∀ (b : Board) (i : Nat),
    (∀ row ∈ b, ∀ v ∈ row, v ≠ 0) → findEmptyAux i b = none
  | [], _, _ => rfl
  | row :: rest, i, h => by
    unfold findEmptyAux
    have hidx : row.findIdx? (fun v => v == 0) = none := by
      rw [List.findIdx?_eq_none_iff]
      intro x hx
      simpa using h row (List.mem_cons_self _ _) x hx
    rw [hidx]
    exact findEmptyAux_none_of rest (i + 1)
      fun r hr => h r (List.mem_cons_of_mem _ hr)

theorem bfsRun_of_done {fuel : Nat} {st : BfsState} {r : SearchOutcome}
    (hf : 0 < fuel) (h : bfsStep st = .done r) : bfsRun fuel st = r := by
  cases fuel with
  | zero => omega
  | succ fuel => rw [bfsRun_succ, h]

theorem dfsRun_of_done {fuel : Nat} {st : DfsState} {r : SearchOutcome}
    (hf : 0 < fuel) (h : dfsStep st = .done r) : dfsRun fuel st = r := by
  cases fuel with
  | zero => omega
  | succ fuel => rw [dfsRun_succ, h]

theorem astarRun_of_done {fuel : Nat} {st : AstarState} {r : SearchOutcome}
    (hf : 0 < fuel) (h : astarStep st = .done r) : astarRun fuel st = r := by
  cases fuel with
  | zero => omega
  | succ fuel => rw [astarRun_succ, h]

theorem searchFuel_pos (b : Board) : 0 < searchFuel b := by
  unfold searchFuel
  omega

theorem dfsStep_next_depthLimit {st st2 : DfsState}
    (h : dfsStep st = .next st2) : st2.depthLimit = st.depthLimit := by
  rcases dfsStep_spec st with ⟨hq, hstep⟩ | ⟨cur, rest, hq, hg, hstep⟩ |
    ⟨cur, rest, hq, hg, hd, hsucc, hstep⟩ |
    ⟨cur, rest, succs, added, hq, hg, hd, hsucc, hsub, hnot, hcov, hnd, hstep⟩ |
    ⟨cur, rest, hq, hg, hd, hstep⟩ <;> rw [hstep] at h
  · exact absurd h (by simp)
  · exact absurd h (by simp)
  · exact absurd h (by simp)
  · injection h with h
    rw [← h]
  · injection h with h
    rw [← h]

theorem dfsRun_failure_message {L : Nat} : ∀ {fuel : Nat} {st : DfsState}
    {r : ResultDict}, st.depthLimit = L → dfsRun fuel st = .ok r →
    r.success = false →
    r.message = some ("No solution found within depth limit of " ++
      toString L) := by
  intro fuel
  induction fuel with
  | zero => intro st r _ h _; exact absurd h (by simp [dfsRun])
  | succ fuel ih =>
    intro st r hL h hs
    rw [dfsRun_succ] at h
    cases hstep : dfsStep st with
    | next st2 =>
      rw [hstep] at h
      simp only at h
      exact ih (by rw [dfsStep_next_depthLimit hstep, hL]) h hs
    | done r2 =>
      rw [hstep] at h
      simp only at h
      subst h
      rcases dfsStep_spec st with ⟨hq, hstep2⟩ | ⟨cur, rest, hq, hg, hstep2⟩ |
        ⟨cur, rest, hq, hg, hd, hsucc, hstep2⟩ |
        ⟨cur, rest, succs, added, hq, hg, hd, hsucc, hsub, hnot, hcov, hnd,
          hstep2⟩ |
        ⟨cur, rest, hq, hg, hd, hstep2⟩ <;> rw [hstep2] at hstep
      · injection hstep with hstep
        injection hstep with hstep
        rw [← hstep, hL]
      · injection hstep with hstep
        injection hstep with hstep
        rw [← hstep] at hs
        exact absurd hs (by simp)
      · exact absurd hstep (by simp)
      · exact absurd hstep (by simp)
      · exact absurd hstep (by simp)

theorem filterMap_ite_eq_filter_map {α β : Type} (p : α → Prop)
    [DecidablePred p] (f : α → β) :
    ∀ l : List α, (l.filterMap fun x => if p x then some (f x) else none) =
      (l.filter fun x => decide (p x)).map f
  | [] => rfl
  | x :: l => by
    by_cases hx : p x
    · simp only [List.filterMap_cons, List.filter_cons, if_pos hx,
        decide_eq_true hx, if_true, List.map_cons]
      rw [filterMap_ite_eq_filter_map p f l]
    · simp only [List.filterMap_cons, List.filter_cons, if_neg hx]
      rw [decide_eq_false hx]
      exact filterMap_ite_eq_filter_map p f l

theorem rootState_board (b : Board) : (rootState b).board = b := rfl

theorem withCost_board (s : PuzzleState) (c : Nat) :
    (s.withCost c).board = s.board := by cases s; rfl

theorem getSuccessors_none_of {s : PuzzleState}
    (h : findEmpty s.board = none) : getSuccessors s = none := by
  unfold getSuccessors
  rw [h]
  rfl

theorem heappop_singleton (e : Entry) : heappop [e] = some (e, []) := rfl

/-! ### Claim C10 -/

/-- C10: a shape-valid 2×2 or 3×3 board with no `0` cell that is not the
canonical goal makes `solve_puzzle` raise an uncaught exception (modelled
by `crash`) for each of the three algorithms, rather than return a failure
result: `find_empty` returns `None` and the searches fail on it (for A*,
when every tile is in the heuristic table the failure surfaces in
`get_successors`, otherwise as the table's `KeyError`), because shape
validation never inspects board contents. -/
theorem C10_no_blank_crashes (b : Board)
    (hlen : b.length = 2 ∨ b.length = 3)
    (hrows : (b.any fun row => row.length ≠ b.length) = false)
    (hz : ∀ row ∈ b, ∀ v ∈ row, v ≠ 0)
    (hng : b ≠ goalBoard b.length) :
    findEmpty b = none ∧ solve_puzzle b "BFS" = .crash ∧
      solve_puzzle b "DFS" = .crash ∧ solve_puzzle b "A*" = .crash := by
  have hfe : findEmpty b = none := findEmptyAux_none_of b 0 hz
  have hgf : isGoal b = false := isGoal_false_of_ne hng
  have hsucc : ∀ c : Nat, getSuccessors ((rootState b).withCost c) = none := by
    intro c
    apply getSuccessors_none_of
    rw [withCost_board, rootState_board]
    exact hfe
  have hsucc0 : getSuccessors (rootState b) = none := by
    apply getSuccessors_none_of
    rw [rootState_board]
    exact hfe
  have hsolve : ∀ alg, solve_puzzle b alg =
      (if alg = "BFS" then bfs_solve (rootState b)
       else if alg = "DFS" then dfs_solve (rootState b) 50
       else if alg = "A*" then astar_solve (rootState b)
       else .ok { success := false, error := some ("Unknown algorithm: " ++ alg) }) := by
    intro alg
    unfold solve_puzzle
    rw [if_neg (not_not_intro hlen), if_neg (by rw [hrows]; simp)]
  have hbfs : bfs_solve (rootState b) = .crash := by
    apply bfsRun_of_done (searchFuel_pos _)
    rcases bfsStep_spec (bfsInit (rootState b)) with ⟨hq, hstep⟩ |
      ⟨cur, rest, hq, hgoal, hstep⟩ | ⟨cur, rest, hq, hgoal, hsuccn, hstep⟩ |
      ⟨cur, rest, succs, added, hq, hgoal, hsuccs, -, -, -, -, hstep⟩
    · exact absurd hq (by simp [bfsInit])
    · injection hq with h1 h2
      rw [← h1, rootState_board, hgf] at hgoal
      exact absurd hgoal (by simp)
    · exact hstep
    · injection hq with h1 h2
      rw [← h1, hsucc0] at hsuccs
      exact absurd hsuccs (by simp)
  have hdfs : dfs_solve (rootState b) 50 = .crash := by
    apply dfsRun_of_done (searchFuel_pos _)
    rcases dfsStep_spec (dfsInit (rootState b) 50) with ⟨hq, hstep⟩ |
      ⟨cur, rest, hq, hgoal, hstep⟩ |
      ⟨cur, rest, hq, hgoal, hd, hsuccn, hstep⟩ |
      ⟨cur, rest, succs, added, hq, hgoal, hd, hsuccs, -, -, -, -, hstep⟩ |
      ⟨cur, rest, hq, hgoal, hd, hstep⟩
    · exact absurd hq (by simp [dfsInit])
    · injection hq with h1 h2
      rw [← h1, rootState_board, hgf] at hgoal
      exact absurd hgoal (by simp)
    · exact hstep
    · injection hq with h1 h2
      rw [← h1, hsucc0] at hsuccs
      exact absurd hsuccs (by simp)
    · injection hq with h1 h2
      rw [← h1] at hd
      exact absurd (show (0 : Nat) < 50 by decide) hd
  have hastar : astar_solve (rootState b) = .crash := by
    unfold astar_solve
    rw [rootState_board]
    cases hman : manhattan b with
    | none => rfl
    | some h0 =>
      apply astarRun_of_done (searchFuel_pos _)
      have hheap : (astarInit (rootState b) h0).heap =
          [(h0, h0, (rootState b).withCost h0)] := rfl
      rcases astarStep_spec (astarInit (rootState b) h0) with ⟨hpop, hstep⟩ |
        ⟨e, rest, hpop, hgoal, hstep⟩ | ⟨e, rest, hpop, hgoal, hsuccn, hstep⟩ |
        ⟨e, rest, succs, hpop, hgoal, hsuccs, hpush, hstep⟩ |
        ⟨e, rest, succs, hp2, v2, hpop, hgoal, hsuccs, hpush, hstep⟩
      · rw [hheap, heappop_singleton] at hpop
        exact absurd hpop (by simp)
      · rw [hheap, heappop_singleton] at hpop
        injection hpop with hpop
        injection hpop with he hrest
        subst he
        simp only at hgoal
        rw [withCost_board, rootState_board, hgf] at hgoal
        exact absurd hgoal (by simp)
      · exact hstep
      · exact hstep
      · rw [hheap, heappop_singleton] at hpop
        injection hpop with hpop
        injection hpop with he hrest
        subst he
        simp only at hsuccs
        rw [hsucc h0] at hsuccs
        exact absurd hsuccs (by simp)
  refine ⟨hfe, ?_, ?_, ?_⟩
  · rw [hsolve "BFS", if_pos rfl]
    exact hbfs
  · rw [hsolve "DFS", if_neg (by decide), if_pos rfl]
    exact hdfs
  · rw [hsolve "A*", if_neg (by decide), if_neg (by decide), if_pos rfl]
    exact hastar

/-- Witness for C10 at the concrete board `[[1,2],[3,4]]`. -/
theorem C10_no_blank_crashes_witness :
    (([[1,2],[3,4]] : Board).length = 2 ∨ ([[1,2],[3,4]] : Board).length = 3) ∧
    solve_puzzle [[1,2],[3,4]] "BFS" = .crash ∧
    solve_puzzle [[1,2],[3,4]] "DFS" = .crash ∧
    solve_puzzle [[1,2],[3,4]] "A*" = .crash := by
  have h := C10_no_blank_crashes [[1,2],[3,4]] (by decide) (by decide)
    (by decide) (by decide)
  exact ⟨Or.inl rfl, h.2.1, h.2.2.1, h.2.2.2⟩

/-! ### Claim C5 -/

/-- C5 as stated is false: for an unrecognised algorithm name
`solve_puzzle` does return the failure dictionary without a
`solution_path` key, but the initial `PuzzleState` *is* constructed
(the constructor call precedes the algorithm dispatch), contradicting
"no state is ever constructed". -/
theorem C5_counterexample :
    solve_puzzle [[1,2],[3,0]] "FOO" =
      .ok { success := false, error := some "Unknown algorithm: FOO" } ∧
    solvePuzzleConstructsState [[1,2],[3,0]] = true := by
  constructor
  · rfl
  · rfl

/-- C5 amended: a shape violation yields the failure dictionary with a
non-empty error and no other keys, before the initial state is
constructed; an unrecognised algorithm name on a shape-valid board also
yields such a dictionary and runs no search, but the initial
`PuzzleState` is constructed first. -/
theorem C5_amended (b : Board) (alg : String) :
    (¬ (b.length = 2 ∨ b.length = 3) ∨
        (b.any fun row => row.length ≠ b.length) = true →
      ∃ e, solve_puzzle b alg = .ok { success := false, error := some e } ∧
        e ≠ "" ∧ solvePuzzleConstructsState b = false) ∧
    ((b.length = 2 ∨ b.length = 3) →
      (b.any fun row => row.length ≠ b.length) = false →
      alg ∉ (["BFS", "DFS", "A*"] : List String) →
      solve_puzzle b alg = .ok
        { success := false, error := some ("Unknown algorithm: " ++ alg) } ∧
      ("Unknown algorithm: " ++ alg) ≠ "" ∧
      solvePuzzleConstructsState b = true) := by
  constructor
  · intro hbad
    by_cases hlen : b.length = 2 ∨ b.length = 3
    · have hany : (b.any fun row => row.length ≠ b.length) = true := by
        rcases hbad with hbad | hbad
        · exact absurd hlen hbad
        · exact hbad
      refine ⟨"Invalid puzzle: All rows must have the same size (" ++
        toString b.length ++ ").", ?_, ?_, ?_⟩
      · unfold solve_puzzle
        rw [if_neg (not_not_intro hlen), if_pos (by rw [hany])]
      · intro hc
        have := congrArg String.length hc
        simp [String.length_append] at this
        exact absurd this.1.1 (by decide)
      · unfold solvePuzzleConstructsState
        simp only [decide_eq_false_iff_not]
        intro hcon
        rw [hany] at hcon
        exact absurd rfl hcon.2
    · refine ⟨"Invalid puzzle size. Only 2×2 and 3×3 puzzles are supported. Got "
        ++ toString b.length ++ "×" ++ toString b.length ++ ".", ?_, ?_, ?_⟩
      · unfold solve_puzzle
        rw [if_pos hlen]
      · intro hc
        have := congrArg String.length hc
        simp [String.length_append] at this
        exact absurd this.1.1.1.1 (by decide)
      · unfold solvePuzzleConstructsState
        simp only [decide_eq_false_iff_not]
        intro hcon
        exact hlen hcon.1
  · intro hlen hrows halg
    simp only [List.mem_cons, List.not_mem_nil, or_false, not_or] at halg
    obtain ⟨h1, h2, h3⟩ := halg
    refine ⟨?_, ?_, ?_⟩
    · unfold solve_puzzle
      rw [if_neg (not_not_intro hlen), if_neg (by rw [hrows]; simp),
        if_neg h1, if_neg h2, if_neg h3]
    · intro hc
      have := congrArg String.length hc
      simp [String.length_append] at this
      exact absurd this.1 (by decide)
    · unfold solvePuzzleConstructsState
      rw [decide_eq_true_iff]
      exact ⟨hlen, by rw [hrows]; simp⟩

/-- Witness for C5 amended: a 1×1 board (bad shape) and the unknown
algorithm "FOO" on a valid board. -/
theorem C5_amended_witness :
    (¬ (([[5]] : Board).length = 2 ∨ ([[5]] : Board).length = 3) ∨
      (([[5]] : Board).any fun row => row.length ≠ ([[5]] : Board).length) = true) ∧
    (∃ e, solve_puzzle [[5]] "BFS" = .ok { success := false, error := some e } ∧
      e ≠ "" ∧ solvePuzzleConstructsState [[5]] = false) ∧
    solve_puzzle [[1,2],[3,0]] "FOO" = .ok
      { success := false, error := some ("Unknown algorithm: " ++ "FOO") } := by
  refine ⟨Or.inl (by decide), ?_, ?_⟩
  · exact (C5_amended [[5]] "BFS").1 (Or.inl (by decide))
  · exact ((C5_amended [[1,2],[3,0]] "FOO").2 (by decide) (by decide)
      (by decide)).1

/-! ### Claim C6 -/

/-- C6 as stated is false: `astar_solve` reassigns the `cost` field of the
initial state (to its Manhattan distance) after the constructor has
returned: the state placed in A*'s initial frontier agrees with the
constructed `rootState` on every other field but has `cost = 2 ≠ 0`. -/
theorem C6_counterexample :
    manhattan [[2,1],[3,0]] = some 2 ∧
    (astarInit (rootState [[2,1],[3,0]]) 2).heap =
      [(2, 2, (rootState [[2,1],[3,0]]).withCost 2)] ∧
    ((rootState [[2,1],[3,0]]).withCost 2).board =
      (rootState [[2,1],[3,0]]).board ∧
    ((rootState [[2,1],[3,0]]).withCost 2).depth =
      (rootState [[2,1],[3,0]]).depth ∧
    ((rootState [[2,1],[3,0]]).withCost 2).cost ≠
      (rootState [[2,1],[3,0]]).cost := by
  exact ⟨by decide, rfl, rfl, rfl, by decide⟩

/-- C6 amended: BFS and DFS never alter any field (every state in their
structures still satisfies the constructor relation `cost = depth`),
while `astar_solve` reassigns exactly the `cost` field: every state in
its frontier carries `cost = depth + manhattan` instead. -/
theorem C6_amended (b : Board) :
    (∀ k st, bfsIter k (bfsInit (rootState b)) = some st →
      ∀ s ∈ st.queue, s.cost = s.depth) ∧
    (∀ L k st, dfsIter k (dfsInit (rootState b) L) = some st →
      ∀ s ∈ st.stack, s.cost = s.depth) ∧
    (∀ h0 k st, manhattan b = some h0 →
      astarIter k (astarInit (rootState b) h0) = some st →
      ∀ e ∈ st.heap, manhattan e.2.2.board = some e.2.1 ∧
        e.1 = e.2.2.depth + e.2.1 ∧ e.2.2.cost = e.1) := by
  refine ⟨?_, ?_, ?_⟩
  · intro k st hit
    exact (bfsIter_inv (bfsInv_init b) hit).costs
  · intro L k st hit
    exact (dfsIter_inv (dfsInv_init b L) hit).costs
  · intro h0 k st hman hit
    exact (astarIter_inv (astarInv_init hman) hit).costs

/-- Witness for C6 amended at the start state of BFS on `[[2,1],[3,0]]`. -/
theorem C6_amended_witness :
    bfsIter 0 (bfsInit (rootState [[2,1],[3,0]])) =
      some (bfsInit (rootState [[2,1],[3,0]])) ∧
    (rootState [[2,1],[3,0]]).cost = (rootState [[2,1],[3,0]]).depth := by
  refine ⟨rfl, ?_⟩
  exact (C6_amended [[2,1],[3,0]]).1 0 _ rfl (rootState [[2,1],[3,0]])
    (List.mem_cons_self _ _)

/-! ### Claim C7 -/

/-- The in-bounds test `0 <= new_row < size and 0 <= new_col < size` for a
candidate move. -/
def inBoundsMove (b : Board) (r c : Nat) (m : Int × Int × String) : Bool :=
  decide (0 ≤ (r : Int) + m.1 ∧ (r : Int) + m.1 < (b.length : Int) ∧
    0 ≤ (c : Int) + m.2.1 ∧ (c : Int) + m.2.1 < (b.length : Int))

theorem moveResults_eq_filter (b : Board) (r c : Nat) :
    moveResults b r c = (moves.filter (inBoundsMove b r c)).map
      (fun m =>
        (swapCells b r c ((r : Int) + m.1).toNat ((c : Int) + m.2.1).toNat,
          m.2.2)) :=
  filterMap_ite_eq_filter_map _ _ moves

/-- C7: `get_successors` emits exactly the in-bounds moves, in the fixed
relative order UP, DOWN, LEFT, RIGHT, and an expanding DFS step pushes a
subsequence of the successor list (its unvisited members) so that the new
stack is that subsequence, in canonical order, on top of the old one. -/
theorem C7_successor_order_and_dfs_push :
    moves.map (fun m => m.2.2) = ["UP", "DOWN", "LEFT", "RIGHT"] ∧
    (∀ (s : PuzzleState) (l : List PuzzleState) (r c : Nat),
      findEmpty s.board = some (r, c) → getSuccessors s = some l →
      l.map PuzzleState.move =
        (moves.filter (inBoundsMove s.board r c)).map (fun m => some m.2.2)) ∧
    (∀ (st st2 : DfsState) (cur : PuzzleState)
      (rest succs : List PuzzleState),
      st.stack = cur :: rest → isGoal cur.board = false →
      cur.depth < st.depthLimit → getSuccessors cur = some succs →
      dfsStep st = .next st2 →
      ∃ pushed : List PuzzleState, pushed.Sublist succs ∧
        st2.stack = pushed ++ rest ∧ ∀ s ∈ pushed, s.board ∉ st.visited) := by
  refine ⟨rfl, ?_, ?_⟩
  · intro s l r c hfe hl
    unfold getSuccessors at hl
    rw [hfe] at hl
    simp only [Option.map_some', Option.some_inj] at hl
    subst hl
    rw [moveResults_eq_filter]
    rw [List.map_map, List.map_map]
    rfl
  · intro st st2 cur rest succs hq hg hd hsucc hstep
    rcases dfsStep_spec st with ⟨hq2, hstep2⟩ | ⟨cur2, rest2, hq2, hg2, hstep2⟩ |
      ⟨cur2, rest2, hq2, hg2, hd2, hsucc2, hstep2⟩ |
      ⟨cur2, rest2, succs2, added, hq2, hg2, hd2, hsucc2, hsub, hnot, hcov,
        hnd, hstep2⟩ |
      ⟨cur2, rest2, hq2, hg2, hd2, hstep2⟩
    · rw [hq] at hq2
      exact absurd hq2 (by simp)
    · rw [hq] at hq2
      injection hq2 with h1 h2
      rw [← h1, hg] at hg2
      exact absurd hg2 (by simp)
    · rw [hq] at hq2
      injection hq2 with h1 h2
      rw [← h1, hsucc] at hsucc2
      exact absurd hsucc2 (by simp)
    · rw [hq] at hq2
      injection hq2 with h1 h2
      subst h1
      subst h2
      rw [hsucc] at hsucc2
      injection hsucc2 with h3
      subst h3
      rw [hstep2] at hstep
      injection hstep with hstep
      subst hstep
      refine ⟨added.reverse, ?_, rfl, ?_⟩
      · have := hsub.reverse
        rwa [List.reverse_reverse] at this
      · intro s hs
        rw [List.mem_reverse] at hs
        exact hnot s hs
    · rw [hq] at hq2
      injection hq2 with h1 h2
      rw [← h1] at hd2
      exact absurd hd hd2

/-- Witness for C7 on the board `[[1,2,3],[4,0,6],[7,5,8]]` (blank in the
centre, all four moves legal) and on the DFS start state. -/
theorem C7_successor_order_and_dfs_push_witness :
    findEmpty (rootState [[1,2,3],[4,0,6],[7,5,8]]).board = some (1, 1) ∧
    (∃ l, getSuccessors (rootState [[1,2,3],[4,0,6],[7,5,8]]) = some l ∧
      l.map PuzzleState.move =
        [some "UP", some "DOWN", some "LEFT", some "RIGHT"]) ∧
    (∃ succs st2 pushed,
      getSuccessors (rootState [[1,2,3],[4,0,6],[7,5,8]]) = some succs ∧
      dfsStep (dfsInit (rootState [[1,2,3],[4,0,6],[7,5,8]]) 50) = .next st2 ∧
      pushed.Sublist succs ∧ st2.stack = pushed ++ []) := by
  refine ⟨by decide, ?_, ?_⟩
  · obtain ⟨l, hl⟩ :
        ∃ l, getSuccessors (rootState [[1,2,3],[4,0,6],[7,5,8]]) = some l :=
      ⟨_, rfl⟩
    refine ⟨l, hl, ?_⟩
    rw [C7_successor_order_and_dfs_push.2.1 _ l 1 1 (by decide) hl]
    decide
  · obtain ⟨succs, hsuccs⟩ :
        ∃ l, getSuccessors (rootState [[1,2,3],[4,0,6],[7,5,8]]) = some l :=
      ⟨_, rfl⟩
    obtain ⟨st2, hst2⟩ :
        ∃ st2, dfsStep (dfsInit (rootState [[1,2,3],[4,0,6],[7,5,8]]) 50) =
          .next st2 := ⟨_, rfl⟩
    obtain ⟨pushed, h1, h2, h3⟩ :=
      C7_successor_order_and_dfs_push.2.2 _ st2 _ [] succs rfl (by decide)
        (by decide) hsuccs hst2
    exact ⟨succs, st2, pushed, hsuccs, hst2, h1, h2⟩

/-! ### Claim C8 -/

/-- C8: a popped state at or beyond the depth limit is still counted as
expanded and goal-tested but pushes nothing; on exhaustion the DFS failure
message names the depth limit; `solve_puzzle` invokes DFS with limit 50. -/
theorem C8_depth_limit_behaviour :
    (∀ (st : DfsState) (cur : PuzzleState) (rest : List PuzzleState),
      st.stack = cur :: rest → isGoal cur.board = false →
      ¬ cur.depth < st.depthLimit →
      dfsStep st = .next ⟨rest, st.visited, st.nodesExpanded + 1,
        max st.maxStackSize (rest.length + 1), st.depthLimit⟩) ∧
    (∀ (st : DfsState) (cur : PuzzleState) (rest : List PuzzleState),
      st.stack = cur :: rest → isGoal cur.board = true →
      dfsStep st = .done (.ok
        { success := true, algorithm := some "DFS",
          solution_path := some cur.pathBoards,
          solution_depth := some (cur.pathBoards.length - 1),
          nodes_expanded := some (st.nodesExpanded + 1),
          max_stack_size := some (max st.maxStackSize (rest.length + 1)) })) ∧
    (∀ (s : PuzzleState) (L : Nat) (r : ResultDict),
      dfs_solve s L = .ok r → r.success = false →
      r.message = some ("No solution found within depth limit of " ++
        toString L)) ∧
    (∀ b : Board, (b.length = 2 ∨ b.length = 3) →
      (b.any fun row => row.length ≠ b.length) = false →
      solve_puzzle b "DFS" = dfs_solve (rootState b) 50) := by
  refine ⟨?_, ?_, ?_, ?_⟩
  · intro st cur rest hq hg hd
    rcases dfsStep_spec st with ⟨hq2, hstep2⟩ | ⟨cur2, rest2, hq2, hg2, hstep2⟩ |
      ⟨cur2, rest2, hq2, hg2, hd2, hsucc2, hstep2⟩ |
      ⟨cur2, rest2, succs2, added, hq2, hg2, hd2, hsucc2, hsub, hnot, hcov,
        hnd, hstep2⟩ |
      ⟨cur2, rest2, hq2, hg2, hd2, hstep2⟩
    · rw [hq] at hq2
      exact absurd hq2 (by simp)
    · rw [hq] at hq2
      injection hq2 with h1 h2
      rw [← h1, hg] at hg2
      exact absurd hg2 (by simp)
    · rw [hq] at hq2
      injection hq2 with h1 h2
      rw [← h1] at hd2
      exact absurd hd2 hd
    · rw [hq] at hq2
      injection hq2 with h1 h2
      rw [← h1] at hd2
      exact absurd hd2 hd
    · rw [hq] at hq2
      injection hq2 with h1 h2
      subst h1
      subst h2
      exact hstep2
  · intro st cur rest hq hg
    rcases dfsStep_spec st with ⟨hq2, hstep2⟩ | ⟨cur2, rest2, hq2, hg2, hstep2⟩ |
      ⟨cur2, rest2, hq2, hg2, hd2, hsucc2, hstep2⟩ |
      ⟨cur2, rest2, succs2, added, hq2, hg2, hd2, hsucc2, hsub, hnot, hcov,
        hnd, hstep2⟩ |
      ⟨cur2, rest2, hq2, hg2, hd2, hstep2⟩
    · rw [hq] at hq2
      exact absurd hq2 (by simp)
    · rw [hq] at hq2
      injection hq2 with h1 h2
      subst h1
      subst h2
      exact hstep2
    · rw [hq] at hq2
      injection hq2 with h1 h2
      rw [← h1, hg] at hg2
      exact absurd hg2 (by simp)
    · rw [hq] at hq2
      injection hq2 with h1 h2
      rw [← h1, hg] at hg2
      exact absurd hg2 (by simp)
    · rw [hq] at hq2
      injection hq2 with h1 h2
      rw [← h1, hg] at hg2
      exact absurd hg2 (by simp)
  · intro s L r hrun hs
    have hrun2 : dfsRun (searchFuel s.board) (dfsInit s L) = .ok r := hrun
    exact dfsRun_failure_message rfl hrun2 hs
  · intro b hlen hrows
    unfold solve_puzzle
    rw [if_neg (not_not_intro hlen), if_neg (by rw [hrows]; simp),
      if_neg (by decide), if_pos rfl]

/-- Witness for C8: DFS on the unsolvable 2×2 board `[[2,1],[3,0]]`
exhausts its reachable space and reports the limit 50 in its message. -/
theorem C8_depth_limit_behaviour_witness :
    dfs_solve (rootState [[2,1],[3,0]]) 50 = .ok
      { success := false, algorithm := some "DFS",
        nodes_expanded := some 12, max_stack_size := some 2,
        message := some "No solution found within depth limit of 50" } ∧
    (ResultDict.mk false (some "DFS") none none (some 12) none (some 2)
        (some "No solution found within depth limit of 50") none).message =
      some ("No solution found within depth limit of " ++ toString 50) := by
  have h1 : dfs_solve (rootState [[2,1],[3,0]]) 50 = .ok
      { success := false, algorithm := some "DFS",
        nodes_expanded := some 12, max_stack_size := some 2,
        message := some "No solution found within depth limit of 50" } := by
    decide
  exact ⟨h1, C8_depth_limit_behaviour.2.2.1 (rootState [[2,1],[3,0]]) 50 _
    h1 rfl⟩

/-! ### Claim C3 -/

theorem success_path_spec {b0 : Board} {cur : PuzzleState}
    (hrows : ∀ row ∈ b0, row.length = b0.length)
    (hg : GoodState b0 cur) (hgoal : isGoal cur.board = true) :
    cur.pathBoards.head? = some b0 ∧
    cur.pathBoards.getLast? = some (goalBoard b0.length) ∧
    List.Chain' BlankSwapAdj cur.pathBoards := by
  have hs0 : ShapeOK b0.length b0 := ⟨rfl, hrows⟩
  have hlen : cur.board.length = b0.length :=
    reach_length (goodState_reach cur hg)
  refine ⟨pathBoards_head? cur hg, ?_, ?_⟩
  · rw [pathBoards_getLast? cur, (isGoal_true_iff cur.board).mp hgoal, hlen]
  · refine chain_blankSwap (n := b0.length) cur.pathBoards
      (pathBoards_chain cur hg) ?_
    intro x hx
    rcases pathBoards_all_reach cur hg x hx with ⟨k, hr⟩
    exact shapeOK_reach hs0 hr

/-- C3: whichever of the three searches returns a dictionary with
`success = true`, its `solution_path` starts at the input board, ends at the
canonical goal of the input's size, moves by single blank swaps, and
`solution_depth` is the path length minus one. -/
theorem C3_path_validity (b : Board) (r : ResultDict)
    (hrows : ∀ row ∈ b, row.length = b.length)
    (h : bfs_solve (rootState b) = .ok r ∨
      (∃ L, dfs_solve (rootState b) L = .ok r) ∨
      astar_solve (rootState b) = .ok r)
    (hs : r.success = true) :
    ∃ path, r.solution_path = some path ∧ path.head? = some b ∧
      path.getLast? = some (goalBoard b.length) ∧
      List.Chain' BlankSwapAdj path ∧
      r.solution_depth = some (path.length - 1) := by
  have hmain : ∃ cur, GoodState b cur ∧ isGoal cur.board = true ∧
      r.solution_path = some cur.pathBoards ∧
      r.solution_depth = some (cur.pathBoards.length - 1) := by
    rcases h with h | ⟨L, h⟩ | h
    · unfold bfs_solve at h
      exact bfsRun_success (bfsInv_init b) h hs
    · unfold dfs_solve at h
      exact dfsRun_success (dfsInv_init b L) h hs
    · unfold astar_solve at h
      rw [rootState_board] at h
      cases hman : manhattan b with
      | none => rw [hman] at h; exact absurd h (by simp)
      | some h0 =>
        rw [hman] at h
        exact astarRun_success (astarInv_init hman) h hs
  rcases hmain with ⟨cur, hg, hgoal, hp, hd⟩
  rcases success_path_spec hrows hg hgoal with ⟨hh, hl, hc⟩
  exact ⟨cur.pathBoards, hp, hh, hl, hc, hd⟩

/-- Witness for C3: BFS solves `[[1,2],[0,3]]` in one move. -/
theorem C3_path_validity_witness :
    ∃ path,
      (ResultDict.mk true (some "BFS")
          (some [[[1, 2], [0, 3]], [[1, 2], [3, 0]]]) (some 1) (some 3)
          (some 2) none none none).solution_path = some path ∧
      path.head? = some [[1, 2], [0, 3]] ∧
      path.getLast? = some (goalBoard ([[1, 2], [0, 3]] : Board).length) ∧
      List.Chain' BlankSwapAdj path ∧
      (ResultDict.mk true (some "BFS")
          (some [[[1, 2], [0, 3]], [[1, 2], [3, 0]]]) (some 1) (some 3)
          (some 2) none none none).solution_depth =
        some (path.length - 1) := by
  have h1 : bfs_solve (rootState [[1, 2], [0, 3]]) = .ok
      (ResultDict.mk true (some "BFS")
        (some [[[1, 2], [0, 3]], [[1, 2], [3, 0]]]) (some 1) (some 3)
        (some 2) none none none) := by decide
  exact C3_path_validity [[1, 2], [0, 3]] _ (by decide) (Or.inl h1) rfl

/-! ### Claim C9 -/

/-- C9: successor generation preserves the permutation invariant and adds
one to the depth; consequently every state held by any of the three search
loops, and every board in their visited sets, satisfies the invariant. -/
theorem C9_permutation_invariant (n : Nat) (hn : n = 2 ∨ n = 3) :
    (∀ (s : PuzzleState) (l : List PuzzleState), ValidBoard n s.board →
      getSuccessors s = some l →
      ∀ s2 ∈ l, ValidBoard n s2.board ∧ s2.depth = s.depth + 1) ∧
    (∀ (b0 : Board) (k : Nat) (st2 : BfsState), ValidBoard n b0 →
      bfsIter k (bfsInit (rootState b0)) = some st2 →
      (∀ s ∈ st2.queue, ValidBoard n s.board) ∧
      ∀ c ∈ st2.visited, ValidBoard n c) ∧
    (∀ (b0 : Board) (L k : Nat) (st2 : DfsState), ValidBoard n b0 →
      dfsIter k (dfsInit (rootState b0) L) = some st2 →
      (∀ s ∈ st2.stack, ValidBoard n s.board) ∧
      ∀ c ∈ st2.visited, ValidBoard n c) ∧
    (∀ (b0 : Board) (h0 k : Nat) (st2 : AstarState), ValidBoard n b0 →
      manhattan b0 = some h0 →
      astarIter k (astarInit (rootState b0) h0) = some st2 →
      (∀ e ∈ st2.heap, ValidBoard n e.2.2.board) ∧
      ∀ c ∈ st2.visited, ValidBoard n c) := by
  refine ⟨?_, ?_, ?_, ?_⟩
  · intro s l hv hl s2 hs2
    rcases succ_mem_elim hl hs2 with ⟨b2, mv, hadj, rfl⟩
    exact ⟨valid_adj hv hadj, rfl⟩
  · intro b0 k st2 hv hiter
    have hinv := bfsIter_inv (bfsInv_init b0) hiter
    refine ⟨?_, ?_⟩
    · intro s hs
      exact valid_reach hv (goodState_reach s (hinv.good s hs))
    · intro c hc
      rcases hinv.vis c hc with ⟨j, hr⟩
      exact valid_reach hv hr
  · intro b0 L k st2 hv hiter
    have hinv := dfsIter_inv (dfsInv_init b0 L) hiter
    refine ⟨?_, ?_⟩
    · intro s hs
      exact valid_reach hv (goodState_reach s (hinv.good s hs))
    · intro c hc
      rcases hinv.vis c hc with ⟨j, hr⟩
      exact valid_reach hv hr
  · intro b0 h0 k st2 hv hman hiter
    have hinv := astarIter_inv (astarInv_init hman) hiter
    refine ⟨?_, ?_⟩
    · intro e he
      exact valid_reach hv (goodState_reach _ (hinv.good e he))
    · intro c hc
      rcases hinv.vis c hc with ⟨j, hr⟩
      exact valid_reach hv hr

/-- Witness for C9 on the valid 2×2 board `[[1,2],[0,3]]` after one BFS
iteration. -/
theorem C9_permutation_invariant_witness :
    (2 = 2 ∨ 2 = 3) ∧ ValidBoard 2 [[1, 2], [0, 3]] ∧
    (∃ l, getSuccessors (rootState [[1, 2], [0, 3]]) = some l ∧
      ∀ s2 ∈ l, ValidBoard 2 s2.board ∧ s2.depth = 0 + 1) ∧
    (∃ st2, bfsIter 1 (bfsInit (rootState [[1, 2], [0, 3]])) = some st2 ∧
      (∀ s ∈ st2.queue, ValidBoard 2 s.board) ∧
      ∀ c ∈ st2.visited, ValidBoard 2 c) := by
  have hn : (2 : Nat) = 2 ∨ (2 : Nat) = 3 := Or.inl rfl
  have hv : ValidBoard 2 [[1, 2], [0, 3]] := by decide
  obtain ⟨l, hl⟩ :
      ∃ l, getSuccessors (rootState [[1, 2], [0, 3]]) = some l := ⟨_, rfl⟩
  obtain ⟨st2, hst2⟩ :
      ∃ st2, bfsIter 1 (bfsInit (rootState [[1, 2], [0, 3]])) = some st2 :=
    ⟨_, rfl⟩
  refine ⟨hn, hv, ⟨l, hl, ?_⟩, ⟨st2, hst2, ?_⟩⟩
  · exact (C9_permutation_invariant 2 hn).1 (rootState [[1, 2], [0, 3]]) l hv hl
  · exact (C9_permutation_invariant 2 hn).2.1 [[1, 2], [0, 3]] 1 st2 hv hst2

/-! ### Claim C4: Manhattan-distance analysis -/

theorem manhattanRow_cons (size i j : Nat) (t : Int) (ts : List Int) :
    manhattanRow size i j (t :: ts) =
      (manhattanCell size i j t).bind fun d =>
        (manhattanRow size i (j + 1) ts).bind fun rest => some (d + rest) := rfl

theorem manhattanRows_cons (size i : Nat) (row : List Int) (rest : Board) :
    manhattanRows size i (row :: rest) =
      (manhattanRow size i 0 row).bind fun d =>
        (manhattanRows size (i + 1) rest).bind fun others =>
          some (d + others) := rfl

theorem manhattanCell_total (size i j : Nat) {t : Int}
    (h : t = 0 ∨ ∃ g, goalPositions size t = some g) :
    ∃ d, manhattanCell size i j t = some d := by
  by_cases h0 : t = 0
  · exact ⟨0, by simp [manhattanCell, h0]⟩
  · rcases h with h | ⟨g, hg⟩
    · exact absurd h h0
    · refine ⟨((i : Int) - (g.1 : Int)).natAbs +
        ((j : Int) - (g.2 : Int)).natAbs, ?_⟩
      unfold manhattanCell
      rw [if_neg h0, hg]
      rfl

theorem goalPositions_total {n : Nat} (hn : n = 2 ∨ n = 3) {t : Int}
    (h1 : 0 ≤ t) (h2 : t < ((n * n : Nat) : Int)) :
    t = 0 ∨ ∃ g, goalPositions n t = some g := by
  rcases hn with rfl | rfl
  · have h2a : t < 4 := by omega
    interval_cases t
    · exact Or.inl rfl
    · exact Or.inr ⟨(0, 0), rfl⟩
    · exact Or.inr ⟨(0, 1), rfl⟩
    · exact Or.inr ⟨(1, 0), rfl⟩
  · have h2a : t < 9 := by omega
    interval_cases t
    · exact Or.inl rfl
    · exact Or.inr ⟨(0, 0), rfl⟩
    · exact Or.inr ⟨(0, 1), rfl⟩
    · exact Or.inr ⟨(0, 2), rfl⟩
    · exact Or.inr ⟨(1, 0), rfl⟩
    · exact Or.inr ⟨(1, 1), rfl⟩
    · exact Or.inr ⟨(1, 2), rfl⟩
    · exact Or.inr ⟨(2, 0), rfl⟩
    · exact Or.inr ⟨(2, 1), rfl⟩

theorem manhattanRow_total (size i : Nat) :
    ∀ (row : List Int) (j : Nat),
      (∀ t ∈ row, t = 0 ∨ ∃ g, goalPositions size t = some g) →
      ∃ S, manhattanRow size i j row = some S
  | [], _, _ => ⟨0, rfl⟩
  | t :: ts, j, h => by
    rcases manhattanCell_total size i j (h t (List.mem_cons_self _ _)) with
      ⟨d, hd⟩
    rcases manhattanRow_total size i ts (j + 1)
      (fun x hx => h x (List.mem_cons_of_mem _ hx)) with ⟨S, hS⟩
    exact ⟨d + S, by rw [manhattanRow_cons, hd, hS]; rfl⟩

theorem manhattanRows_total (size : Nat) :
    ∀ (b : Board) (i : Nat),
      (∀ row ∈ b, ∀ t ∈ row, t = 0 ∨ ∃ g, goalPositions size t = some g) →
      ∃ S, manhattanRows size i b = some S
  | [], _, _ => ⟨0, rfl⟩
  | row :: rest, i, h => by
    rcases manhattanRow_total size i row 0 (h row (List.mem_cons_self _ _))
      with ⟨d, hd⟩
    rcases manhattanRows_total size rest (i + 1)
      (fun r hr => h r (List.mem_cons_of_mem _ hr)) with ⟨S, hS⟩
    exact ⟨d + S, by rw [manhattanRows_cons, hd, hS]; rfl⟩

theorem valid_tile_mem {n : Nat} {b : Board} (hv : ValidBoard n b) {t : Int}
    (ht : t ∈ b.flatten) : 0 ≤ t ∧ t < ((n * n : Nat) : Int) := by
  have hmem := hv.2.2.mem_iff.mp ht
  rcases List.mem_map.mp hmem with ⟨k, hk, rfl⟩
  rw [List.mem_range] at hk
  refine ⟨Int.ofNat_nonneg k, ?_⟩
  rw [Int.ofNat_eq_natCast]
  exact_mod_cast hk

theorem manhattan_total {n : Nat} (hn : n = 2 ∨ n = 3) {b : Board}
    (hv : ValidBoard n b) : ∃ h, manhattan b = some h := by
  unfold manhattan
  rw [hv.1]
  refine manhattanRows_total n b 0 ?_
  intro row hrow t ht
  have htf : t ∈ b.flatten := List.mem_flatten.mpr ⟨row, hrow, ht⟩
  rcases valid_tile_mem hv htf with ⟨h1, h2⟩
  exact goalPositions_total hn h1 h2

theorem manhattanRow_cell_le (size i : Nat) :
    ∀ (row : List Int) (j c : Nat) (S : Nat),
      manhattanRow size i j row = some S → c < row.length →
      ∃ d, manhattanCell size i (j + c) (row.getD c 0) = some d ∧ d ≤ S
  | [], _, c, _, _, hc => by simp at hc
  | t :: ts, j, c, S, hS, hc => by
    rw [manhattanRow_cons] at hS
    cases hcell : manhattanCell size i j t with
    | none => rw [hcell] at hS; exact absurd hS (by simp)
    | some d0 =>
      rw [hcell] at hS
      cases hrest : manhattanRow size i (j + 1) ts with
      | none => rw [hrest] at hS; exact absurd hS (by simp)
      | some S1 =>
        rw [hrest] at hS
        simp only [Option.some_bind, Option.some_inj] at hS
        cases c with
        | zero =>
          refine ⟨d0, ?_, by omega⟩
          simpa using hcell
        | succ m =>
          have hm : m < ts.length := by simpa using hc
          rcases manhattanRow_cell_le size i ts (j + 1) m S1 hrest hm with
            ⟨d, hd, hle⟩
          refine ⟨d, ?_, by omega⟩
          have hjm : j + (m + 1) = (j + 1) + m := by omega
          rw [hjm]
          simpa using hd

theorem manhattanRows_row_le (size : Nat) :
    ∀ (b : Board) (i k : Nat) (S : Nat),
      manhattanRows size i b = some S → k < b.length →
      ∃ Sr, manhattanRow size (i + k) 0 (b.getD k []) = some Sr ∧ Sr ≤ S
  | [], _, k, _, _, hk => by simp at hk
  | row :: rest, i, k, S, hS, hk => by
    rw [manhattanRows_cons] at hS
    cases hrow : manhattanRow size i 0 row with
    | none => rw [hrow] at hS; exact absurd hS (by simp)
    | some d0 =>
      rw [hrow] at hS
      cases hrest : manhattanRows size (i + 1) rest with
      | none => rw [hrest] at hS; exact absurd hS (by simp)
      | some S1 =>
        rw [hrest] at hS
        simp only [Option.some_bind, Option.some_inj] at hS
        cases k with
        | zero =>
          refine ⟨d0, ?_, by omega⟩
          simpa using hrow
        | succ m =>
          have hm : m < rest.length := by simpa using hk
          rcases manhattanRows_row_le size rest (i + 1) m S1 hrest hm with
            ⟨Sr, hSr, hle⟩
          refine ⟨Sr, ?_, by omega⟩
          have him : i + (m + 1) = (i + 1) + m := by omega
          rw [him]
          simpa using hSr

theorem manhattanRow_set (size i : Nat) :
    ∀ (row : List Int) (j c : Nat) (S dold dnew : Nat) (v : Int),
      manhattanRow size i j row = some S → c < row.length →
      manhattanCell size i (j + c) (row.getD c 0) = some dold →
      manhattanCell size i (j + c) v = some dnew →
      ∃ S0, S = S0 + dold ∧
        manhattanRow size i j (row.set c v) = some (S0 + dnew)
  | [], _, c, _, _, _, _, _, hc, _, _ => by simp at hc
  | t :: ts, j, c, S, dold, dnew, v, hS, hc, hold, hnew => by
    rw [manhattanRow_cons] at hS
    cases hcell : manhattanCell size i j t with
    | none => rw [hcell] at hS; exact absurd hS (by simp)
    | some d0 =>
      rw [hcell] at hS
      cases hrest : manhattanRow size i (j + 1) ts with
      | none => rw [hrest] at hS; exact absurd hS (by simp)
      | some S1 =>
        rw [hrest] at hS
        simp only [Option.some_bind, Option.some_inj] at hS
        cases c with
        | zero =>
          simp only [Nat.add_zero, List.getD_cons_zero] at hold hnew
          rw [hcell] at hold
          injection hold with hold
          refine ⟨S1, by omega, ?_⟩
          rw [List.set_cons_zero, manhattanRow_cons, hnew, hrest]
          simp only [Option.some_bind, Option.some_inj]
          omega
        | succ m =>
          have hm : m < ts.length := by simpa using hc
          have hjm : j + (m + 1) = (j + 1) + m := by omega
          rw [hjm, List.getD_cons_succ] at hold
          rw [hjm] at hnew
          rcases manhattanRow_set size i ts (j + 1) m S1 dold dnew v hrest hm
            hold hnew with ⟨S0, hS0, hnewrow⟩
          refine ⟨d0 + S0, by omega, ?_⟩
          rw [List.set_cons_succ, manhattanRow_cons, hcell, hnewrow]
          simp only [Option.some_bind, Option.some_inj]
          omega

theorem manhattanRows_set (size : Nat) :
    ∀ (b : Board) (i k : Nat) (S dold dnew : Nat) (newRow : List Int),
      manhattanRows size i b = some S → k < b.length →
      manhattanRow size (i + k) 0 (b.getD k []) = some dold →
      manhattanRow size (i + k) 0 newRow = some dnew →
      ∃ S0, S = S0 + dold ∧
        manhattanRows size i (b.set k newRow) = some (S0 + dnew)
  | [], _, k, _, _, _, _, _, hk, _, _ => by simp at hk
  | row :: rest, i, k, S, dold, dnew, newRow, hS, hk, hold, hnew => by
    rw [manhattanRows_cons] at hS
    cases hrow : manhattanRow size i 0 row with
    | none => rw [hrow] at hS; exact absurd hS (by simp)
    | some d0 =>
      rw [hrow] at hS
      cases hrest : manhattanRows size (i + 1) rest with
      | none => rw [hrest] at hS; exact absurd hS (by simp)
      | some S1 =>
        rw [hrest] at hS
        simp only [Option.some_bind, Option.some_inj] at hS
        cases k with
        | zero =>
          simp only [Nat.add_zero, List.getD_cons_zero] at hold hnew
          rw [hrow] at hold
          injection hold with hold
          refine ⟨S1, by omega, ?_⟩
          rw [List.set_cons_zero, manhattanRows_cons, hnew, hrest]
          simp only [Option.some_bind, Option.some_inj]
          omega
        | succ m =>
          have hm : m < rest.length := by simpa using hk
          have him : i + (m + 1) = (i + 1) + m := by omega
          rw [him, List.getD_cons_succ] at hold
          rw [him] at hnew
          rcases manhattanRows_set size rest (i + 1) m S1 dold dnew newRow
            hrest hm hold hnew with ⟨S0, hS0, hnewrows⟩
          refine ⟨d0 + S0, by omega, ?_⟩
          rw [List.set_cons_succ, manhattanRows_cons, hrow, hnewrows]
          simp only [Option.some_bind, Option.some_inj]
          omega

theorem getD_set_self {α : Type} (l : List α) (i : Nat) (a d : α)
    (h : i < l.length) : (l.set i a).getD i d = a := by
  rw [List.getD_eq_getElem _ _ (by rwa [List.length_set])]
  simp [List.getElem_set_self]

theorem getD_set_ne {α : Type} (l : List α) {i j : Nat} (a d : α)
    (h : i ≠ j) : (l.set i a).getD j d = l.getD j d := by
  simp [List.getD_eq_getElem?_getD, List.getElem?_set_ne h]

theorem length_getD_setCell (b : Board) (r c : Nat) (v : Int) (k : Nat) :
    ((setCell b r c v).getD k []).length = (b.getD k []).length := by
  unfold setCell
  by_cases hk : r = k
  · subst hk
    by_cases hr : r < b.length
    · rw [getD_set_self _ _ _ _ hr, List.length_set]
    · rw [List.set_eq_of_length_le (by omega)]
  · rw [getD_set_ne _ _ _ hk]

theorem cell_setCell_self {b : Board} {r c : Nat} (v : Int)
    (hr : r < b.length) (hc : c < (b.getD r []).length) :
    cell (setCell b r c v) r c = v := by
  unfold cell setCell
  rw [getD_set_self _ _ _ _ hr, getD_set_self _ _ _ _ hc]

theorem cell_setCell_ne {b : Board} {r c k l : Nat} (v : Int)
    (h : ¬ (k = r ∧ l = c)) :
    cell (setCell b r c v) k l = cell b k l := by
  unfold cell setCell
  by_cases hk : r = k
  · subst hk
    have hl : c ≠ l := fun he => h ⟨rfl, he.symm⟩
    by_cases hr : r < b.length
    · rw [getD_set_self _ _ _ _ hr, getD_set_ne _ _ _ hl]
    · rw [List.set_eq_of_length_le (by omega)]
  · rw [getD_set_ne _ _ _ hk]

theorem manhattan_cell_le {size : Nat} {b : Board} {S : Nat}
    (hS : manhattanRows size 0 b = some S) {r c : Nat}
    (hr : r < b.length) (hc : c < (b.getD r []).length) :
    ∃ d, manhattanCell size r c (cell b r c) = some d ∧ d ≤ S := by
  rcases manhattanRows_row_le size b 0 r S hS hr with ⟨Sr, hSr, hSrle⟩
  rw [Nat.zero_add] at hSr
  rcases manhattanRow_cell_le size r (b.getD r []) 0 c Sr hSr hc with
    ⟨d, hd, hdle⟩
  rw [Nat.zero_add] at hd
  exact ⟨d, hd, le_trans hdle hSrle⟩

theorem manhattan_setCell {size : Nat} {b : Board} {r c : Nat} {v : Int}
    {S dold dnew : Nat}
    (hS : manhattanRows size 0 b = some S) (hr : r < b.length)
    (hc : c < (b.getD r []).length)
    (hold : manhattanCell size r c (cell b r c) = some dold)
    (hnew : manhattanCell size r c v = some dnew) :
    ∃ S0, S = S0 + dold ∧
      manhattanRows size 0 (setCell b r c v) = some (S0 + dnew) := by
  rcases manhattanRows_row_le size b 0 r S hS hr with ⟨Sr, hSr, -⟩
  rw [Nat.zero_add] at hSr
  have hold2 : manhattanCell size r (0 + c) ((b.getD r []).getD c 0) =
      some dold := by rw [Nat.zero_add]; exact hold
  have hnew2 : manhattanCell size r (0 + c) v = some dnew := by
    rw [Nat.zero_add]; exact hnew
  rcases manhattanRow_set size r (b.getD r []) 0 c Sr dold dnew v hSr hc
    hold2 hnew2 with ⟨Sr0, hSr0, hrownew⟩
  have hrowold2 : manhattanRow size (0 + r) 0 (b.getD r []) =
      some (Sr0 + dold) := by rw [Nat.zero_add, hSr, hSr0]
  have hrownew2 : manhattanRow size (0 + r) 0 ((b.getD r []).set c v) =
      some (Sr0 + dnew) := by rw [Nat.zero_add]; exact hrownew
  rcases manhattanRows_set size b 0 r S (Sr0 + dold) (Sr0 + dnew) _ hS hr
    hrowold2 hrownew2 with ⟨S0, hS0, hfinal⟩
  refine ⟨S0 + Sr0, by omega, ?_⟩
  show manhattanRows size 0 (b.set r ((b.getD r []).set c v)) =
    some (S0 + Sr0 + dnew)
  rw [hfinal]
  congr 1
  omega

theorem manhattan_swapCells {size : Nat} {b : Board} {r c nr nc : Nat}
    {S d2 d1 : Nat}
    (hS : manhattanRows size 0 b = some S)
    (hr : r < b.length) (hc : c < (b.getD r []).length)
    (hnr : nr < b.length) (hnc : nc < (b.getD nr []).length)
    (hne : ¬ (r = nr ∧ c = nc))
    (h0 : cell b r c = 0)
    (hd2 : manhattanCell size nr nc (cell b nr nc) = some d2)
    (hd1 : manhattanCell size r c (cell b nr nc) = some d1) :
    ∃ S0, S = S0 + d2 ∧
      manhattanRows size 0 (swapCells b r c nr nc) = some (S0 + d1) := by
  have hd2le : d2 ≤ S := by
    rcases manhattan_cell_le hS hnr hnc with ⟨d, hd, hdle⟩
    rw [hd2] at hd
    injection hd with hd
    omega
  have hold1 : manhattanCell size r c (cell b r c) = some 0 := by
    rw [h0]; rfl
  rcases manhattan_setCell hS hr hc hold1 hd1 with ⟨Sa, hSa, hb1⟩
  have hne2 : ¬ (nr = r ∧ nc = c) := fun ⟨h1, h2⟩ => hne ⟨h1.symm, h2.symm⟩
  have hcell1 : cell (setCell b r c (cell b nr nc)) nr nc = cell b nr nc :=
    cell_setCell_ne _ hne2
  have hold2 : manhattanCell size nr nc
      (cell (setCell b r c (cell b nr nc)) nr nc) = some d2 := by
    rw [hcell1]; exact hd2
  have hnew2 : manhattanCell size nr nc (cell b r c) = some 0 := by
    rw [h0]; rfl
  have hnr2 : nr < (setCell b r c (cell b nr nc)).length := by
    rw [length_setCell]; exact hnr
  have hnc2 : nc < ((setCell b r c (cell b nr nc)).getD nr []).length := by
    rw [length_getD_setCell]; exact hnc
  rcases manhattan_setCell hb1 hnr2 hnc2 hold2 hnew2 with ⟨Sb, hSb, hb2⟩
  refine ⟨S - d2, by omega, ?_⟩
  unfold swapCells
  rw [hb2]
  congr 1
  omega

theorem cell_mem_flatten {b : Board} {r c : Nat} (hr : r < b.length)
    (hc : c < (b.getD r []).length) : cell b r c ∈ b.flatten := by
  have hrow : b.getD r [] ∈ b := by
    rw [List.getD_eq_getElem _ _ hr]
    exact List.getElem_mem hr
  have hcm : (b.getD r []).getD c 0 ∈ b.getD r [] := by
    rw [List.getD_eq_getElem _ _ hc]
    exact List.getElem_mem hc
  exact List.mem_flatten.mpr ⟨_, hrow, hcm⟩

theorem manhattan_adj {n : Nat} (hn : n = 2 ∨ n = 3) {b b2 : Board}
    (hv : ValidBoard n b) (hadj : b2 ∈ adjBoards b) :
    ∃ h h2, manhattan b = some h ∧ manhattan b2 = some h2 ∧
      h ≤ h2 + 1 ∧ h2 ≤ h + 1 := by
  obtain ⟨h, hb⟩ := manhattan_total hn hv
  obtain ⟨h2, hb2⟩ := manhattan_total hn (valid_adj hv hadj)
  refine ⟨h, h2, hb, hb2, ?_⟩
  rcases adj_elim hadj with ⟨r, c, nr, nc, hfe, hnrb, hncb, hdist, rfl⟩
  rcases findEmpty_some hfe with ⟨hr, hc, hcell0⟩
  have hrowlen : ∀ k, k < b.length → (b.getD k []).length = n := by
    intro k hk
    refine hv.2.1 _ ?_
    rw [List.getD_eq_getElem _ _ hk]
    exact List.getElem_mem hk
  have hbn : b.length = n := hv.1
  have hnc2 : nc < (b.getD nr []).length := by rw [hrowlen nr hnrb]; omega
  have hne : ¬ (r = nr ∧ c = nc) := by
    rintro ⟨rfl, rfl⟩
    simp at hdist
  have htmem : cell b nr nc ∈ b.flatten := cell_mem_flatten hnrb hnc2
  rcases valid_tile_mem hv htmem with ⟨ht1, ht2⟩
  have hcases := goalPositions_total hn ht1 ht2
  have hvals : ∃ d2 d1, manhattanCell n nr nc (cell b nr nc) = some d2 ∧
      manhattanCell n r c (cell b nr nc) = some d1 ∧
      d2 ≤ d1 + 1 ∧ d1 ≤ d2 + 1 := by
    rcases hcases with ht0 | ⟨g, hg⟩
    · refine ⟨0, 0, ?_, ?_, by omega, by omega⟩ <;>
        · rw [ht0]; rfl
    · by_cases ht0 : cell b nr nc = 0
      · refine ⟨0, 0, ?_, ?_, by omega, by omega⟩ <;>
          · rw [ht0]; rfl
      · refine ⟨((nr : Int) - (g.1 : Int)).natAbs +
          ((nc : Int) - (g.2 : Int)).natAbs,
          ((r : Int) - (g.1 : Int)).natAbs +
          ((c : Int) - (g.2 : Int)).natAbs, ?_, ?_, by omega, by omega⟩ <;>
          · unfold manhattanCell
            rw [if_neg ht0, hg]
            rfl
  rcases hvals with ⟨d2, d1, hd2, hd1, hdle1, hdle2⟩
  have hSb : manhattanRows n 0 b = some h := by
    unfold manhattan at hb
    rwa [hbn] at hb
  rcases manhattan_swapCells hSb hr hc hnrb hnc2 hne hcell0 hd2 hd1 with
    ⟨S0, hS0, hswap⟩
  have hlen2 : (swapCells b r c nr nc).length = n := by
    unfold swapCells
    rw [length_setCell, length_setCell, hbn]
  have hb2' : manhattanRows n 0 (swapCells b r c nr nc) = some h2 := by
    unfold manhattan at hb2
    rwa [hlen2] at hb2
  rw [hb2'] at hswap
  injection hswap with hswap
  omega

theorem manhattan_goal_zero {n : Nat} (hn : n = 2 ∨ n = 3) :
    manhattan (goalBoard n) = some 0 := by
  rcases hn with rfl | rfl <;> decide

theorem manhattan_admissible {n : Nat} (hn : n = 2 ∨ n = 3) :
    ∀ (k : Nat) (b : Board), ValidBoard n b →
      reachN k b (goalBoard n) = true →
      ∀ {h : Nat}, manhattan b = some h → h ≤ k := by
  intro k
  induction k with
  | zero =>
    intro b hv hr h hm
    simp only [reachN, beq_iff_eq] at hr
    subst hr
    rw [manhattan_goal_zero hn] at hm
    injection hm with hm
    omega
  | succ k ih =>
    intro b hv hr h hm
    rw [reachN_succ_def, List.any_eq_true] at hr
    rcases hr with ⟨m, hmadj, hrm⟩
    rcases manhattan_adj hn hv hmadj with ⟨hh, hm2, hbm, hbm2, hle1, hle2⟩
    rw [hm] at hbm
    injection hbm with hbm
    have := ih m (valid_adj hv hmadj) hrm hbm2
    omega

theorem flatten_exists_cell : ∀ {b : Board} {t : Int}, t ∈ b.flatten →
    ∃ r c, r < b.length ∧ c < (b.getD r []).length ∧ cell b r c = t := by
  intro b
  induction b with
  | nil => intro t ht; simp at ht
  | cons row rest ih =>
    intro t ht
    rw [List.flatten_cons, List.mem_append] at ht
    rcases ht with ht | ht
    · rcases List.mem_iff_getElem.mp ht with ⟨c, hc, hval⟩
      refine ⟨0, c, by simp, by simpa using hc, ?_⟩
      show row.getD c 0 = t
      rw [List.getD_eq_getElem _ _ hc]
      exact hval
    · rcases ih ht with ⟨r, c, hr, hc, hcell⟩
      refine ⟨r + 1, c, by simpa using hr, by simpa using hc, ?_⟩
      simpa [cell] using hcell

theorem board_ext {n : Nat} {b b2 : Board} (h1 : ShapeOK n b)
    (h2 : ShapeOK n b2)
    (hc : ∀ i j, i < n → j < n → cell b i j = cell b2 i j) : b = b2 := by
  apply List.ext_getElem (by rw [h1.1, h2.1])
  intro i hi hi2
  have hrow1 : b[i].length = n := h1.2 _ (List.getElem_mem hi)
  have hrow2 : b2[i].length = n := h2.2 _ (List.getElem_mem hi2)
  apply List.ext_getElem (by rw [hrow1, hrow2])
  intro j hj hj2
  have hin : i < n := by rw [← h1.1]; exact hi
  have hjn : j < n := by rw [← hrow1]; exact hj
  have hcc := hc i j hin hjn
  unfold cell at hcc
  rw [List.getD_eq_getElem _ _ hi, List.getD_eq_getElem _ _ hi2] at hcc
  rw [List.getD_eq_getElem _ _ hj, List.getD_eq_getElem _ _ hj2] at hcc
  exact hcc

theorem manhattan_zero_cells {n : Nat} {b : Board} (hsh : ShapeOK n b)
    (h0 : manhattan b = some 0) :
    ∀ r c, r < n → c < n → manhattanCell n r c (cell b r c) = some 0 := by
  intro r c hr hc
  unfold manhattan at h0
  rw [hsh.1] at h0
  have hrb : r < b.length := by rw [hsh.1]; exact hr
  have hcb : c < (b.getD r []).length := by
    rw [hsh.2 _ (by rw [List.getD_eq_getElem _ _ hrb]; exact List.getElem_mem hrb)]
    exact hc
  rcases manhattan_cell_le h0 hrb hcb with ⟨d, hd, hdle⟩
  have hd0 : d = 0 := by omega
  rw [hd0] at hd
  exact hd

theorem manhattanCell_zero_pos {size r c : Nat} {t : Int} (ht : t ≠ 0)
    (h : manhattanCell size r c t = some 0) :
    goalPositions size t = some (r, c) := by
  unfold manhattanCell at h
  rw [if_neg ht] at h
  cases hg : goalPositions size t with
  | none => rw [hg] at h; exact absurd h (by simp)
  | some g =>
    rw [hg] at h
    simp only [Option.map_some', Option.some_inj] at h
    cases g with
    | mk a d =>
      simp only at h
      have ha : a = r := by omega
      have hd : d = c := by omega
      rw [ha, hd]

theorem goalBoard_table₂ : ∀ i ∈ List.range 2, ∀ j ∈ List.range 2,
    ¬ (i = 1 ∧ j = 1) →
    cell (goalBoard 2) i j ≠ 0 ∧ 0 ≤ cell (goalBoard 2) i j ∧
    cell (goalBoard 2) i j < ((2 * 2 : Nat) : Int) ∧
    goalPositions 2 (cell (goalBoard 2) i j) = some (i, j) := by decide

theorem goalBoard_table₃ : ∀ i ∈ List.range 3, ∀ j ∈ List.range 3,
    ¬ (i = 2 ∧ j = 2) →
    cell (goalBoard 3) i j ≠ 0 ∧ 0 ≤ cell (goalBoard 3) i j ∧
    cell (goalBoard 3) i j < ((3 * 3 : Nat) : Int) ∧
    goalPositions 3 (cell (goalBoard 3) i j) = some (i, j) := by decide

theorem no_tile_at_corner₂ : ∀ t : Int, 0 ≤ t → t < ((2 * 2 : Nat) : Int) →
    t ≠ 0 → goalPositions 2 t ≠ some (1, 1) := by
  intro t h1 h2 h0
  have h2a : t < 4 := by omega
  interval_cases t <;> first | exact absurd rfl h0 | decide

theorem no_tile_at_corner₃ : ∀ t : Int, 0 ≤ t → t < ((3 * 3 : Nat) : Int) →
    t ≠ 0 → goalPositions 3 t ≠ some (2, 2) := by
  intro t h1 h2 h0
  have h2a : t < 9 := by omega
  interval_cases t <;> first | exact absurd rfl h0 | decide

theorem mem_range_map_int {m : Nat} {t : Int} (h1 : 0 ≤ t)
    (h2 : t < ((m : Nat) : Int)) :
    t ∈ (List.range m).map Int.ofNat := by
  refine List.mem_map.mpr ⟨t.toNat, ?_, ?_⟩
  · rw [List.mem_range]; omega
  · rw [Int.ofNat_eq_natCast]; omega

theorem manhattan_zero_goal {n : Nat} (hn : n = 2 ∨ n = 3) {b : Board}
    (hv : ValidBoard n b) (h0 : manhattan b = some 0) : b = goalBoard n := by
  have hsh : ShapeOK n b := ⟨hv.1, hv.2.1⟩
  have hshg : ShapeOK n (goalBoard n) := by rcases hn with rfl | rfl <;> decide
  have hrowlen : ∀ k, k < b.length → (b.getD k []).length = n := by
    intro k hk
    refine hv.2.1 _ ?_
    rw [List.getD_eq_getElem _ _ hk]
    exact List.getElem_mem hk
  refine board_ext hsh hshg ?_
  intro i j hi hj
  by_cases hcorner : i = n - 1 ∧ j = n - 1
  · obtain ⟨rfl, rfl⟩ := hcorner
    have hgoal0 : cell (goalBoard n) (n - 1) (n - 1) = 0 := by
      rcases hn with rfl | rfl <;> decide
    rw [hgoal0]
    by_contra ht
    have hrb : n - 1 < b.length := by rw [hsh.1]; omega
    have hcb : n - 1 < (b.getD (n - 1) []).length := by
      rw [hrowlen _ hrb]; omega
    have hz := manhattan_zero_cells hsh h0 (n - 1) (n - 1) (by omega) (by omega)
    have hpos := manhattanCell_zero_pos ht hz
    have htf := cell_mem_flatten hrb hcb
    rcases valid_tile_mem hv htf with ⟨hb1, hb2⟩
    rcases hn with rfl | rfl
    · exact no_tile_at_corner₂ _ hb1 hb2 ht hpos
    · exact no_tile_at_corner₃ _ hb1 hb2 ht hpos
  · have htab : cell (goalBoard n) i j ≠ 0 ∧ 0 ≤ cell (goalBoard n) i j ∧
        cell (goalBoard n) i j < ((n * n : Nat) : Int) ∧
        goalPositions n (cell (goalBoard n) i j) = some (i, j) := by
      rcases hn with rfl | rfl
      · exact goalBoard_table₂ i (List.mem_range.mpr hi) j
          (List.mem_range.mpr hj) hcorner
      · exact goalBoard_table₃ i (List.mem_range.mpr hi) j
          (List.mem_range.mpr hj) hcorner
    rcases htab with ⟨hg0, hgl, hgu, hgpos⟩
    have hgmem : cell (goalBoard n) i j ∈ b.flatten := by
      refine hv.2.2.mem_iff.mpr ?_
      exact mem_range_map_int hgl hgu
    rcases flatten_exists_cell hgmem with ⟨r, c, hr, hc, hcell⟩
    have hrn : r < n := by rw [← hsh.1]; exact hr
    have hcn : c < n := by rw [← hrowlen _ hr]; exact hc
    have hz := manhattan_zero_cells hsh h0 r c hrn hcn
    rw [hcell] at hz
    have hpos := manhattanCell_zero_pos hg0 hz
    rw [hgpos] at hpos
    injection hpos with hpos
    injection hpos with hpi hpj
    rw [← hpi, ← hpj] at hcell
    exact hcell

/-- C4: on valid boards the Manhattan heuristic is defined, admissible
(never exceeds the length of any walk to the goal), consistent across one
slide, and zero exactly on the goal board. -/
theorem C4_manhattan_admissible_consistent (n : Nat) (hn : n = 2 ∨ n = 3)
    (b : Board) (hv : ValidBoard n b) :
    ∃ h, manhattan b = some h ∧
      (∀ k, reachN k b (goalBoard n) = true → h ≤ k) ∧
      (∀ b2 ∈ adjBoards b, ∃ h2, manhattan b2 = some h2 ∧ h ≤ 1 + h2) ∧
      (h = 0 ↔ b = goalBoard n) := by
  obtain ⟨h, hb⟩ := manhattan_total hn hv
  refine ⟨h, hb, ?_, ?_, ?_, ?_⟩
  · intro k hr
    exact manhattan_admissible hn k b hv hr hb
  · intro b2 hadj
    rcases manhattan_adj hn hv hadj with ⟨h1, h2, hb1, hb2, hle1, hle2⟩
    rw [hb] at hb1
    injection hb1 with hb1
    exact ⟨h2, hb2, by omega⟩
  · intro h0
    rw [h0] at hb
    exact manhattan_zero_goal hn hv hb
  · intro hbg
    rw [hbg, manhattan_goal_zero hn] at hb
    injection hb with hb
    omega

/-- Witness for C4 on the valid board `[[1,2],[0,3]]`. -/
theorem C4_manhattan_admissible_consistent_witness :
    (2 = 2 ∨ 2 = 3) ∧ ValidBoard 2 [[1, 2], [0, 3]] ∧
    ∃ h, manhattan [[1, 2], [0, 3]] = some h ∧
      (∀ k, reachN k [[1, 2], [0, 3]] (goalBoard 2) = true → h ≤ k) ∧
      (∀ b2 ∈ adjBoards [[1, 2], [0, 3]],
        ∃ h2, manhattan b2 = some h2 ∧ h ≤ 1 + h2) ∧
      (h = 0 ↔ [[1, 2], [0, 3]] = goalBoard 2) :=
  ⟨Or.inl rfl, by decide,
    C4_manhattan_admissible_consistent 2 (Or.inl rfl) [[1, 2], [0, 3]]
      (by decide)⟩

/-! ### Claim C1: BFS optimality -/

theorem flatten_inj {n : Nat} : ∀ {b b2 : Board}, b.length = b2.length →
    (∀ r ∈ b, r.length = n) → (∀ r ∈ b2, r.length = n) →
    b.flatten = b2.flatten → b = b2
  | [], [], _, _, _, _ => rfl
  | [], r2 :: rest2, hlen, _, _, _ => by simp at hlen
  | r :: rest, [], hlen, _, _, _ => by simp at hlen
  | r :: rest, r2 :: rest2, hlen, h1, h2, hf => by
    rw [List.flatten_cons, List.flatten_cons] at hf
    have hlr : r.length = r2.length := by
      rw [h1 r (List.mem_cons_self _ _), h2 r2 (List.mem_cons_self _ _)]
    rcases List.append_inj hf hlr with ⟨hr, hrest⟩
    rw [hr, flatten_inj (n := n) (by simpa using hlen)
      (fun x hx => h1 x (List.mem_cons_of_mem _ hx))
      (fun x hx => h2 x (List.mem_cons_of_mem _ hx)) hrest]

theorem reach_flatten_perm {n : Nat} {b0 : Board} (hsh : ShapeOK n b0) :
    ∀ {k : Nat} {c : Board}, Reach b0 k c →
      List.Perm c.flatten b0.flatten := by
  intro k c h
  induction h with
  | zero => exact List.Perm.refl _
  | step hr hadj ih =>
    rename_i k b c
    have hshb : ShapeOK n b := shapeOK_reach hsh hr
    rcases adj_elim hadj with ⟨r, cc, nr, nc, hfe, hnr, hnc, hdist, rfl⟩
    rcases findEmpty_some hfe with ⟨hrb, hcb, -⟩
    have hrown : (b.getD r []).length = n := by
      refine hshb.2 _ ?_
      rw [List.getD_eq_getElem _ _ hrb]
      exact List.getElem_mem hrb
    have hne : ¬ (r = nr ∧ cc = nc) := by
      rintro ⟨rfl, rfl⟩
      simp at hdist
    have hbl : b.length = n := hshb.1
    exact (swapCells_flatten_perm b hshb.2 r cc nr nc hrb (by omega)
      (by omega) (by omega) hne).trans ih

theorem visited_length_le {n : Nat} {b0 : Board} (hsh : ShapeOK n b0)
    (V : List Board) (hnd : V.Nodup)
    (hr : ∀ c ∈ V, ∃ k, Reach b0 k c) :
    V.length ≤ Nat.factorial b0.flatten.length := by
  have hshV : ∀ c ∈ V, ShapeOK n c := by
    intro c hc
    rcases hr c hc with ⟨k, hk⟩
    exact shapeOK_reach hsh hk
  have hmapnd : (V.map List.flatten).Nodup := by
    rw [List.nodup_map_iff_inj_on hnd]
    intro a ha b hb hf
    exact flatten_inj (n := n) (by rw [(hshV a ha).1, (hshV b hb).1])
      (hshV a ha).2 (hshV b hb).2 hf
  have hsub : V.map List.flatten ⊆ b0.flatten.permutations := by
    intro f hf
    rcases List.mem_map.mp hf with ⟨c, hc, rfl⟩
    rcases hr c hc with ⟨k, hk⟩
    exact List.mem_permutations.mpr (reach_flatten_perm hsh hk)
  have := (hmapnd.subperm hsub).length_le
  rw [List.length_map, List.length_permutations] at this
  exact this

theorem succ_boards {s : PuzzleState} {l : List PuzzleState}
    (hl : getSuccessors s = some l) :
    l.map PuzzleState.board = adjBoards s.board := by
  unfold getSuccessors at hl
  cases hfe : findEmpty s.board with
  | none => rw [hfe] at hl; exact absurd hl (by simp)
  | some rc =>
    rw [hfe] at hl
    simp only [Option.map_some', Option.some_inj] at hl
    subst hl
    unfold adjBoards
    rw [hfe, List.map_map]
    rfl

theorem isGoal_goalBoard {n : Nat} (hn : n = 2 ∨ n = 3) :
    isGoal (goalBoard n) = true := by
  rcases hn with rfl | rfl <;> decide

/-- The strengthened BFS invariant that yields optimality: the visited set
is duplicate-free and reachable, the queue is sorted by depth with at most
two adjacent depth levels, every queued state's depth is the true graph
distance of its board, every board nearer than the whole frontier has been
visited, and every visited board is either still queued or fully expanded
(and not the goal). -/
structure BfsOpt (b0 : Board) (st : BfsState) : Prop where
  good : ∀ s ∈ st.queue, GoodState b0 s
  vis_nodup : st.visited.Nodup
  vis_reach : ∀ c ∈ st.visited, ∃ k, Reach b0 k c
  root_vis : b0 ∈ st.visited
  sorted : st.queue.Pairwise (fun s t => s.depth ≤ t.depth)
  near : ∀ s ∈ st.queue, ∀ t ∈ st.queue, s.depth ≤ t.depth + 1
  min_depth : ∀ s ∈ st.queue, ∀ k, Reach b0 k s.board → s.depth ≤ k
  reach_vis : ∀ (k : Nat) (c : Board), Reach b0 k c →
    (∀ s ∈ st.queue, k < s.depth) → c ∈ st.visited
  expanded : ∀ c ∈ st.visited, (∃ s ∈ st.queue, s.board = c) ∨
    ((∀ m ∈ adjBoards c, m ∈ st.visited) ∧ isGoal c = false)

theorem bfsOpt_init (b0 : Board) : BfsOpt b0 (bfsInit (rootState b0)) := by
  have hq : (bfsInit (rootState b0)).queue = [rootState b0] := rfl
  have hv : (bfsInit (rootState b0)).visited = [b0] := rfl
  refine ⟨?_, ?_, ?_, ?_, ?_, ?_, ?_, ?_, ?_⟩
  · intro s hs
    rw [hq, List.mem_singleton] at hs
    subst hs
    exact goodState_root b0
  · rw [hv]; exact List.nodup_singleton b0
  · intro c hc
    rw [hv, List.mem_singleton] at hc
    subst hc
    exact ⟨0, Reach.zero⟩
  · rw [hv]; exact List.mem_singleton.mpr rfl
  · rw [hq]; exact List.pairwise_singleton _ _
  · intro s hs t ht
    rw [hq, List.mem_singleton] at hs ht
    subst hs; subst ht
    omega
  · intro s hs k hk
    rw [hq, List.mem_singleton] at hs
    subst hs
    show 0 ≤ k
    omega
  · intro k c hr hall
    exfalso
    have := hall (rootState b0) (by rw [hq]; exact List.mem_singleton.mpr rfl)
    simp [rootState, PuzzleState.depth] at this
  · intro c hc
    rw [hv, List.mem_singleton] at hc
    exact Or.inl ⟨rootState b0, by rw [hq]; exact List.mem_singleton.mpr rfl,
      hc.symm⟩

theorem bfsOpt_step {b0 : Board} {st : BfsState} (hinv : BfsOpt b0 st)
    {cur : PuzzleState} {rest succs added : List PuzzleState}
    (hq : st.queue = cur :: rest) (hg : isGoal cur.board = false)
    (hsucc : getSuccessors cur = some succs) (hsub : added.Sublist succs)
    (hnot : ∀ s ∈ added, s.board ∉ st.visited)
    (hcov : ∀ s ∈ succs,
      s.board ∈ (added.map PuzzleState.board).reverse ++ st.visited)
    (hnd : st.visited.Nodup →
      ((added.map PuzzleState.board).reverse ++ st.visited).Nodup) :
    BfsOpt b0 ⟨rest ++ added,
      (added.map PuzzleState.board).reverse ++ st.visited,
      st.nodesExpanded + 1, max st.maxQueueSize (rest.length + 1)⟩ := by
  have hcurq : cur ∈ st.queue := by rw [hq]; exact List.mem_cons_self _ _
  have hrestq : ∀ t ∈ rest, t ∈ st.queue := fun t ht => by
    rw [hq]; exact List.mem_cons_of_mem _ ht
  have hgoodcur := hinv.good cur hcurq
  have hdep : ∀ s ∈ added, s.depth = cur.depth + 1 := by
    intro s hs
    rcases succ_mem_elim hsucc (hsub.subset hs) with ⟨b2, mv, hadj, rfl⟩
    rfl
  have hrest_lb : ∀ t ∈ rest, cur.depth ≤ t.depth := by
    have hsorted := hinv.sorted
    rw [hq, List.pairwise_cons] at hsorted
    exact hsorted.1
  have hrest_ub : ∀ t ∈ rest, t.depth ≤ cur.depth + 1 := fun t ht =>
    hinv.near t (hrestq t ht) cur hcurq
  have hAB : ∀ {c : Board}, c ∈ (added.map PuzzleState.board).reverse ↔
      ∃ s ∈ added, s.board = c := by
    intro c
    rw [List.mem_reverse, List.mem_map]
  have hadj_cov : ∀ m ∈ adjBoards cur.board,
      m ∈ (added.map PuzzleState.board).reverse ++ st.visited := by
    intro m hm
    rw [← succ_boards hsucc] at hm
    rcases List.mem_map.mp hm with ⟨s, hs, rfl⟩
    exact hcov s hs
  have hclose : ∀ {k : Nat} {c : Board}, Reach b0 k c → k ≤ cur.depth →
      c ∈ st.visited := by
    intro k c h
    induction h with
    | zero => intro _; exact hinv.root_vis
    | step hr hadj ih =>
      rename_i k2 p c2
      intro hk
      have hp : p ∈ st.visited := by
        apply hinv.reach_vis k2 p hr
        intro s hs
        rw [hq] at hs
        rcases List.mem_cons.mp hs with rfl | hs
        · omega
        · have := hrest_lb s hs; omega
      rcases hinv.expanded p hp with ⟨t, htq, htb⟩ | ⟨hnb, -⟩
      · exfalso
        have h1 : t.depth ≤ k2 := hinv.min_depth t htq k2
          (by rw [htb]; exact hr)
        have h2 : cur.depth ≤ t.depth := by
          rw [hq] at htq
          rcases List.mem_cons.mp htq with rfl | htq
          · exact le_refl _
          · exact hrest_lb t htq
        omega
      · exact hnb c2 hadj
  have hmin2 : ∀ s ∈ rest ++ added, ∀ k, Reach b0 k s.board → s.depth ≤ k := by
    intro s hs k hk
    rcases List.mem_append.mp hs with hs | hs
    · exact hinv.min_depth s (hrestq s hs) k hk
    · by_contra hlt
      push_neg at hlt
      have hsd := hdep s hs
      have hmem : s.board ∈ st.visited := hclose hk (by omega)
      exact hnot s hs hmem
  refine ⟨?_, hnd hinv.vis_nodup, ?_, List.mem_append_right _ hinv.root_vis,
    ?_, ?_, hmin2, ?_, ?_⟩
  · intro s hs
    rcases List.mem_append.mp hs with hs | hs
    · exact hinv.good s (hrestq s hs)
    · exact goodState_succ hgoodcur hsucc (hsub.subset hs)
  · intro c hc
    rcases List.mem_append.mp hc with hc | hc
    · rcases hAB.mp hc with ⟨s, hs, hsb⟩
      rcases succ_mem_elim hsucc (hsub.subset hs) with ⟨b2, mv, hadj, rfl⟩
      rw [← hsb]
      exact ⟨cur.depth + 1, Reach.step (goodState_reach cur hgoodcur) hadj⟩
    · exact hinv.vis_reach c hc
  · rw [List.pairwise_append]
    refine ⟨?_, ?_, ?_⟩
    · have hsorted := hinv.sorted
      rw [hq, List.pairwise_cons] at hsorted
      exact hsorted.2
    · refine List.pairwise_of_forall_mem_list ?_
      intro a ha b hb
      rw [hdep a ha, hdep b hb]
    · intro a ha b hb
      rw [hdep b hb]
      exact hrest_ub a ha
  · intro s hs t ht
    rcases List.mem_append.mp hs with hs | hs <;>
      rcases List.mem_append.mp ht with ht | ht
    · exact hinv.near s (hrestq s hs) t (hrestq t ht)
    · rw [hdep t ht]
      have := hrest_ub s hs
      omega
    · rw [hdep s hs]
      have := hrest_lb t ht
      omega
    · rw [hdep s hs, hdep t ht]
      omega
  · intro k c hr
    induction hr with
    | zero => intro _; exact List.mem_append_right _ hinv.root_vis
    | step hr2 hadj ih =>
      rename_i k2 p c2
      intro hall
      have hp : p ∈ (added.map PuzzleState.board).reverse ++ st.visited := by
        apply ih
        intro s hs
        have := hall s hs
        omega
      rcases List.mem_append.mp hp with hpAB | hpV
      · rcases hAB.mp hpAB with ⟨s, hs, hsb⟩
        exfalso
        have h1 : s.depth ≤ k2 :=
          hmin2 s (List.mem_append_right _ hs) k2 (by rw [hsb]; exact hr2)
        have h2 := hall s (List.mem_append_right _ hs)
        omega
      · rcases hinv.expanded p hpV with ⟨t, htq, htb⟩ | ⟨hnb, -⟩
        · rw [hq] at htq
          rcases List.mem_cons.mp htq with rfl | htq
          · exact hadj_cov c2 (by rw [htb]; exact hadj)
          · exfalso
            have h1 : t.depth ≤ k2 :=
              hinv.min_depth t (hrestq t htq) k2 (by rw [htb]; exact hr2)
            have h2 := hall t (List.mem_append_left _ htq)
            omega
        · exact List.mem_append_right _ (hnb c2 hadj)
  · intro c hc
    rcases List.mem_append.mp hc with hcAB | hcV
    · rcases hAB.mp hcAB with ⟨s, hs, hsb⟩
      exact Or.inl ⟨s, List.mem_append_right _ hs, hsb⟩
    · rcases hinv.expanded c hcV with ⟨t, htq, htb⟩ | ⟨hnb, hgf⟩
      · rw [hq] at htq
        rcases List.mem_cons.mp htq with heq | htq
        · subst heq
          refine Or.inr ⟨?_, by rw [← htb]; exact hg⟩
          intro m hm
          rw [← htb] at hm
          exact hadj_cov m hm
        · exact Or.inl ⟨t, List.mem_append_left _ htq, htb⟩
      · exact Or.inr ⟨fun m hm => List.mem_append_right _ (hnb m hm), hgf⟩

theorem bfsRun_optimal {n : Nat} (hn : n = 2 ∨ n = 3) {b0 : Board}
    (hv : ValidBoard n b0) {kg : Nat}
    (hsolv : Reach b0 kg (goalBoard n)) :
    ∀ (fuel : Nat) (st : BfsState), BfsOpt b0 st →
      2 * (Nat.factorial b0.flatten.length - st.visited.length) +
        st.queue.length < fuel →
      ∃ r, bfsRun fuel st = .ok r ∧ r.success = true ∧
        ∃ cur, GoodState b0 cur ∧ cur.board = goalBoard n ∧
          r.solution_path = some cur.pathBoards ∧
          r.solution_depth = some (cur.pathBoards.length - 1) ∧
          ∀ j, Reach b0 j (goalBoard n) → cur.depth ≤ j := by
  intro fuel
  induction fuel with
  | zero => intro st hinv hm; exact absurd hm (by omega)
  | succ fuel ih =>
    intro st hinv hm
    rcases bfsStep_spec st with ⟨hq, hstep⟩ | ⟨cur, rest, hq, hgoal, hstep⟩ |
      ⟨cur, rest, hq, hgoal, hsucc, hstep⟩ |
      ⟨cur, rest, succs, added, hq, hgoal, hsucc, hsub, hnot, hcov, hnd, hstep⟩
    · exfalso
      have hgv : goalBoard n ∈ st.visited := by
        apply hinv.reach_vis kg _ hsolv
        intro s hs
        rw [hq] at hs
        exact absurd hs (List.not_mem_nil s)
      rcases hinv.expanded _ hgv with ⟨s, hsq, -⟩ | ⟨-, hgf⟩
      · rw [hq] at hsq
        exact absurd hsq (List.not_mem_nil s)
      · have htrue := isGoal_goalBoard hn
        rw [hgf] at htrue
        exact absurd htrue (by simp)
    · have hcurm : cur ∈ st.queue := by rw [hq]; exact List.mem_cons_self _ _
      have hgood := hinv.good cur hcurm
      have hboard : cur.board = goalBoard n := by
        have h1 := (isGoal_true_iff cur.board).mp hgoal
        have h2 : cur.board.length = n := by
          rw [reach_length (goodState_reach cur hgood), hv.1]
        rw [h2] at h1
        exact h1
      refine ⟨_, bfsRun_of_done (by omega) hstep, rfl, cur, hgood, hboard,
        rfl, rfl, ?_⟩
      intro j hj
      exact hinv.min_depth cur hcurm j (by rw [hboard]; exact hj)
    · exfalso
      have hcurm : cur ∈ st.queue := by rw [hq]; exact List.mem_cons_self _ _
      have hvc : ValidBoard n cur.board :=
        valid_reach hv (goodState_reach cur (hinv.good cur hcurm))
      rcases valid_findEmpty_isSome hvc
        (by rcases hn with rfl | rfl <;> omega) with ⟨rc, hrc⟩
      unfold getSuccessors at hsucc
      rw [hrc] at hsucc
      exact absurd hsucc (by simp)
    · have hinv2 := bfsOpt_step hinv hq hgoal hsucc hsub hnot hcov hnd
      have hcount : ((added.map PuzzleState.board).reverse ++
          st.visited).length ≤ Nat.factorial b0.flatten.length := by
        refine visited_length_le (n := n) ⟨hv.1, hv.2.1⟩ _
          (hnd hinv.vis_nodup) ?_
        exact hinv2.vis_reach
      have hql : st.queue.length = rest.length + 1 := by rw [hq]; rfl
      have hvl : ((added.map PuzzleState.board).reverse ++
          st.visited).length = added.length + st.visited.length := by
        rw [List.length_append, List.length_reverse, List.length_map]
      rw [bfsRun_succ, hstep]
      apply ih _ hinv2
      show 2 * (Nat.factorial b0.flatten.length -
        ((added.map PuzzleState.board).reverse ++ st.visited).length) +
        (rest ++ added).length < fuel
      rw [hvl, List.length_append]
      rw [hvl] at hcount
      omega

theorem bfs_solve_optimal_core {n : Nat} (hn : n = 2 ∨ n = 3) {b0 : Board}
    (hv : ValidBoard n b0) {kg : Nat}
    (hsolv : reachN kg b0 (goalBoard n) = true) :
    ∃ r, bfs_solve (rootState b0) = .ok r ∧ r.success = true ∧
      ∃ d, r.solution_depth = some d ∧ reachN d b0 (goalBoard n) = true ∧
        ∀ j, reachN j b0 (goalBoard n) = true → d ≤ j := by
  have hreach := reach_of_reachN hsolv
  have hK : 0 < Nat.factorial b0.flatten.length := Nat.factorial_pos _
  have hmeas : 2 * (Nat.factorial b0.flatten.length -
      (bfsInit (rootState b0)).visited.length) +
      (bfsInit (rootState b0)).queue.length < searchFuel b0 := by
    have h1 : (bfsInit (rootState b0)).visited.length = 1 := rfl
    have h2 : (bfsInit (rootState b0)).queue.length = 1 := rfl
    rw [h1, h2]
    unfold searchFuel
    omega
  rcases bfsRun_optimal hn hv hreach (searchFuel b0)
    (bfsInit (rootState b0)) (bfsOpt_init b0) hmeas with
    ⟨r, hrun, hsucc2, cur, hgood, hboard, hpath, hdepth, hmin⟩
  refine ⟨r, hrun, hsucc2, cur.depth, ?_, ?_, ?_⟩
  · rw [hdepth, pathBoards_length cur hgood, Nat.add_sub_cancel]
  · apply reachN_of_reach
    have hr := goodState_reach cur hgood
    rw [hboard] at hr
    exact hr
  · intro j hj
    exact hmin j (reach_of_reachN hj)

/-- C1: on a solvable valid board, BFS succeeds and its reported
`solution_depth` is the length of a shortest walk from the input board to
the canonical goal in the unit-cost state graph. -/
theorem C1_bfs_optimal (n : Nat) (hn : n = 2 ∨ n = 3) (b0 : Board)
    (hv : ValidBoard n b0) (k : Nat)
    (hsolv : reachN k b0 (goalBoard n) = true) :
    ∃ r, bfs_solve (rootState b0) = .ok r ∧ r.success = true ∧
      ∃ d, r.solution_depth = some d ∧ reachN d b0 (goalBoard n) = true ∧
        ∀ j, reachN j b0 (goalBoard n) = true → d ≤ j :=
  bfs_solve_optimal_core hn hv hsolv

/-- Witness for C1: the board `[[1,2],[0,3]]` is one move from the goal. -/
theorem C1_bfs_optimal_witness :
    ∃ r, bfs_solve (rootState [[1, 2], [0, 3]]) = .ok r ∧
      r.success = true ∧
      ∃ d, r.solution_depth = some d ∧
        reachN d [[1, 2], [0, 3]] (goalBoard 2) = true ∧
        ∀ j, reachN j [[1, 2], [0, 3]] (goalBoard 2) = true → d ≤ j :=
  C1_bfs_optimal 2 (Or.inl rfl) [[1, 2], [0, 3]] (by decide) 1 (by decide)

/-! ### Claim C2: A* versus BFS -/

/-- The `solution_depth` key of a returned dictionary. -/
def outcomeDepth : SearchOutcome → Option Nat
  | .ok r => r.solution_depth
  | _ => none

/-- The `success` key of a returned dictionary. -/
def outcomeSuccess : SearchOutcome → Option Bool
  | .ok r => some r.success
  | _ => none

/-- A solvable 3×3 board on which A* returns a non-optimal depth. -/
def cexBoard : Board := [[1, 3, 5], [4, 0, 8], [7, 6, 2]]

theorem heappop_none {heap : List Entry} (h : heappop heap = none) :
    heap = [] := by
  unfold heappop at h
  cases hlast : heap.getLast? with
  | none => exact List.getLast?_eq_none_iff.mp hlast
  | some lastelt =>
    rw [hlast] at h
    dsimp only at h
    by_cases hemp : heap.dropLast.isEmpty
    · rw [if_pos hemp] at h
      exact absurd h (by simp)
    · rw [if_neg hemp] at h
      exact absurd h (by simp)

theorem astarPush_some : ∀ (ss : List PuzzleState) (hp : List Entry)
    (v : List Board), (∀ s ∈ ss, ∃ h, manhattan s.board = some h) →
    ∃ out, astarPush (hp, v) ss = some out
  | [], hp, v, _ => ⟨(hp, v), rfl⟩
  | s :: ss, hp, v, h => by
    rw [astarPush]
    by_cases hmem : s.board ∈ v
    · rw [if_pos hmem]
      exact astarPush_some ss hp v fun x hx => h x (List.mem_cons_of_mem _ hx)
    · rw [if_neg hmem]
      rcases h s (List.mem_cons_self _ _) with ⟨hm, hman⟩
      rw [hman]
      exact astarPush_some ss _ _ fun x hx => h x (List.mem_cons_of_mem _ hx)

/-- The invariant that yields A* completeness: the visited set is
duplicate-free and reachable, and every visited board is either still on
the heap or fully expanded (and not the goal). -/
structure AstarCpl (b0 : Board) (st : AstarState) : Prop where
  good : ∀ e ∈ st.heap, GoodState b0 e.2.2
  vis_nodup : st.visited.Nodup
  vis_reach : ∀ c ∈ st.visited, ∃ k, Reach b0 k c
  root_vis : b0 ∈ st.visited
  expanded : ∀ c ∈ st.visited, (∃ e ∈ st.heap, e.2.2.board = c) ∨
    ((∀ m ∈ adjBoards c, m ∈ st.visited) ∧ isGoal c = false)

theorem astarCpl_init (b0 : Board) (h0 : Nat) :
    AstarCpl b0 (astarInit (rootState b0) h0) := by
  have hq : (astarInit (rootState b0) h0).heap =
    [(h0, h0, astarInitState (rootState b0) h0)] := rfl
  have hv : (astarInit (rootState b0) h0).visited = [b0] := rfl
  refine ⟨?_, ?_, ?_, ?_, ?_⟩
  · intro e he
    rw [hq, List.mem_singleton] at he
    subst he
    exact goodState_withCost (goodState_root b0)
  · rw [hv]; exact List.nodup_singleton b0
  · intro c hc
    rw [hv, List.mem_singleton] at hc
    subst hc
    exact ⟨0, Reach.zero⟩
  · rw [hv]; exact List.mem_singleton.mpr rfl
  · intro c hc
    rw [hv, List.mem_singleton] at hc
    exact Or.inl ⟨(h0, h0, astarInitState (rootState b0) h0),
      by rw [hq]; exact List.mem_singleton.mpr rfl, hc.symm⟩

theorem astarCpl_step {b0 : Board} {st : AstarState} (hinv : AstarCpl b0 st)
    {e : Entry} {rest : List Entry} {succs : List PuzzleState}
    {hp2 : List Entry} {v2 : List Board}
    (hpop : heappop st.heap = some (e, rest))
    (hg : isGoal e.2.2.board = false)
    (hsucc : getSuccessors e.2.2 = some succs)
    (hpush : astarPush (rest, st.visited) succs = some (hp2, v2)) :
    AstarCpl b0 ⟨hp2, v2, st.nodesExpanded + 1,
      max st.maxQueueSize st.heap.length⟩ := by
  rcases astarPush_spec succs rest st.visited hpush with
    ⟨added, hcoe, hv2, hprops, hcov, hndp⟩
  have hpc := heappop_coe hpop
  have hadded_hp2 : ∀ x ∈ added, x ∈ hp2 := by
    intro x hx
    rw [← Multiset.mem_coe, hcoe, Multiset.mem_add]
    exact Or.inr (Multiset.mem_coe.mpr hx)
  have hrest_hp2 : ∀ x ∈ rest, x ∈ hp2 := by
    intro x hx
    rw [← Multiset.mem_coe, hcoe, Multiset.mem_add]
    exact Or.inl (Multiset.mem_coe.mpr hx)
  have hmem_hp2 : ∀ x ∈ hp2, x ∈ rest ∨ x ∈ added := by
    intro x hx
    have hx2 : x ∈ (↑hp2 : Multiset Entry) := Multiset.mem_coe.mpr hx
    rw [hcoe, Multiset.mem_add] at hx2
    rcases hx2 with hx2 | hx2
    · exact Or.inl (Multiset.mem_coe.mp hx2)
    · exact Or.inr (Multiset.mem_coe.mp hx2)
  have he_heap := (heappop_mem hpop).1
  have hrest_heap := (heappop_mem hpop).2
  have hgood_e := hinv.good e he_heap
  have hheap_cases : ∀ x ∈ st.heap, x = e ∨ x ∈ rest := by
    intro x hx
    have hx2 : x ∈ (↑st.heap : Multiset Entry) := Multiset.mem_coe.mpr hx
    rw [hpc, Multiset.mem_cons] at hx2
    rcases hx2 with hx2 | hx2
    · exact Or.inl hx2
    · exact Or.inr (Multiset.mem_coe.mp hx2)
  refine ⟨?_, hndp hinv.vis_nodup, ?_, ?_, ?_⟩
  · intro x hx
    rcases hmem_hp2 x hx with hx | hx
    · exact hinv.good x (hrest_heap x hx)
    · rcases hprops x hx with ⟨s, hs, -, -, -, hxeq⟩
      rw [hxeq]
      exact goodState_withCost (goodState_succ hgood_e hsucc hs)
  · intro c hc
    rw [hv2] at hc
    rcases List.mem_append.mp hc with hc | hc
    · rw [List.mem_reverse] at hc
      rcases List.mem_map.mp hc with ⟨e2, he2, rfl⟩
      rcases hprops e2 he2 with ⟨s, hs, -, -, -, he2eq⟩
      rcases succ_mem_elim hsucc hs with ⟨b2, mv, hadj, rfl⟩
      have hb : e2.2.2.board = b2 := by rw [he2eq]; rfl
      rw [hb]
      exact ⟨e.2.2.depth + 1, Reach.step (goodState_reach _ hgood_e) hadj⟩
    · exact hinv.vis_reach c hc
  · show b0 ∈ v2
    rw [hv2]
    exact List.mem_append_right _ hinv.root_vis
  · intro c hc
    rw [hv2] at hc
    rcases List.mem_append.mp hc with hc | hc
    · rw [List.mem_reverse] at hc
      rcases List.mem_map.mp hc with ⟨e2, he2, rfl⟩
      exact Or.inl ⟨e2, hadded_hp2 e2 he2, rfl⟩
    · rcases hinv.expanded c hc with ⟨e2, he2, he2b⟩ | ⟨hnb, hgf⟩
      · rcases hheap_cases e2 he2 with heq | he2r
        · subst heq
          refine Or.inr ⟨?_, by rw [← he2b]; exact hg⟩
          intro m hm
          rw [← he2b, ← succ_boards hsucc] at hm
          rcases List.mem_map.mp hm with ⟨s, hs, rfl⟩
          exact hcov s hs
        · exact Or.inl ⟨e2, hrest_hp2 e2 he2r, he2b⟩
      · refine Or.inr ⟨?_, hgf⟩
        intro m hm
        rw [hv2]
        exact List.mem_append_right _ (hnb m hm)

theorem astarRun_complete {n : Nat} (hn : n = 2 ∨ n = 3) {b0 : Board}
    (hv : ValidBoard n b0) {kg : Nat}
    (hsolv : Reach b0 kg (goalBoard n)) :
    ∀ (fuel : Nat) (st : AstarState), AstarCpl b0 st →
      2 * (Nat.factorial b0.flatten.length - st.visited.length) +
        st.heap.length < fuel →
      ∃ r, astarRun fuel st = .ok r ∧ r.success = true ∧
        ∃ cur, GoodState b0 cur ∧ cur.board = goalBoard n ∧
          r.solution_path = some cur.pathBoards ∧
          r.solution_depth = some (cur.pathBoards.length - 1) := by
  intro fuel
  induction fuel with
  | zero => intro st hinv hm; exact absurd hm (by omega)
  | succ fuel ih =>
    intro st hinv hm
    rcases astarStep_spec st with ⟨hpop, hstep⟩ | ⟨e, rest, hpop, hg, hstep⟩ |
      ⟨e, rest, hpop, hg, hsucc, hstep⟩ |
      ⟨e, rest, succs, hpop, hg, hsucc, hpush, hstep⟩ |
      ⟨e, rest, succs, hp2, v2, hpop, hg, hsucc, hpush, hstep⟩
    · exfalso
      have hempty : st.heap = [] := heappop_none hpop
      have hall : ∀ (k : Nat) (c : Board), Reach b0 k c →
          c ∈ st.visited := by
        intro k c hr
        induction hr with
        | zero => exact hinv.root_vis
        | step hr2 hadj ih2 =>
          rename_i k2 p c2
          rcases hinv.expanded p ih2 with ⟨e2, he2, -⟩ | ⟨hnb, -⟩
          · rw [hempty] at he2
            exact absurd he2 (List.not_mem_nil e2)
          · exact hnb c2 hadj
      have hgv := hall kg _ hsolv
      rcases hinv.expanded _ hgv with ⟨e2, he2, -⟩ | ⟨-, hgf⟩
      · rw [hempty] at he2
        exact absurd he2 (List.not_mem_nil e2)
      · have htrue := isGoal_goalBoard hn
        rw [hgf] at htrue
        exact absurd htrue (by simp)
    · have hgood := hinv.good e (heappop_mem hpop).1
      have hboard : e.2.2.board = goalBoard n := by
        have h1 := (isGoal_true_iff e.2.2.board).mp hg
        have h2 : e.2.2.board.length = n := by
          rw [reach_length (goodState_reach _ hgood), hv.1]
        rw [h2] at h1
        exact h1
      exact ⟨_, astarRun_of_done (by omega) hstep, rfl, e.2.2, hgood,
        hboard, rfl, rfl⟩
    · exfalso
      have hvc : ValidBoard n e.2.2.board :=
        valid_reach hv (goodState_reach _ (hinv.good e (heappop_mem hpop).1))
      rcases valid_findEmpty_isSome hvc
        (by rcases hn with rfl | rfl <;> omega) with ⟨rc, hrc⟩
      unfold getSuccessors at hsucc
      rw [hrc] at hsucc
      exact absurd hsucc (by simp)
    · exfalso
      have hvc : ValidBoard n e.2.2.board :=
        valid_reach hv (goodState_reach _ (hinv.good e (heappop_mem hpop).1))
      have hmans : ∀ s ∈ succs, ∃ hx, manhattan s.board = some hx := by
        intro s hs
        rcases succ_mem_elim hsucc hs with ⟨b2, mv, hadj, rfl⟩
        exact manhattan_total hn (valid_adj hvc hadj)
      rcases astarPush_some succs rest st.visited hmans with ⟨out, hout⟩
      rw [hout] at hpush
      exact absurd hpush (by simp)
    · have hinv2 := astarCpl_step hinv hpop hg hsucc hpush
      rcases astarPush_spec succs rest st.visited hpush with
        ⟨added, hcoe, hv2, -, -, -⟩
      have hlen_hp2 : hp2.length = rest.length + added.length := by
        have hcard := congrArg Multiset.card hcoe
        simpa using hcard
      have hlen_heap : st.heap.length = rest.length + 1 := by
        have hcard := congrArg Multiset.card (heappop_coe hpop)
        simpa using hcard
      have hlen_v2 : v2.length = added.length + st.visited.length := by
        rw [hv2, List.length_append, List.length_reverse, List.length_map]
      have hcount : v2.length ≤ Nat.factorial b0.flatten.length := by
        refine visited_length_le (n := n) ⟨hv.1, hv.2.1⟩ _ ?_ ?_
        · exact hinv2.vis_nodup
        · exact hinv2.vis_reach
      rw [astarRun_succ, hstep]
      apply ih _ hinv2
      show 2 * (Nat.factorial b0.flatten.length - v2.length) +
        hp2.length < fuel
      omega

/-- C2 amended: on a solvable valid board A* does return `success=true`,
and its `solution_depth` is the length of some walk to the goal, hence at
least BFS's (optimal) `solution_depth`; the counterexample shows the two
depths need not be equal. -/
theorem C2_amended (n : Nat) (hn : n = 2 ∨ n = 3) (b0 : Board)
    (hv : ValidBoard n b0) (k : Nat)
    (hsolv : reachN k b0 (goalBoard n) = true) :
    ∃ ra rb da db,
      astar_solve (rootState b0) = .ok ra ∧ ra.success = true ∧
      ra.solution_depth = some da ∧ reachN da b0 (goalBoard n) = true ∧
      bfs_solve (rootState b0) = .ok rb ∧ rb.success = true ∧
      rb.solution_depth = some db ∧ db ≤ da := by
  have hreach := reach_of_reachN hsolv
  obtain ⟨h0, hman⟩ := manhattan_total hn hv
  have hunf : astar_solve (rootState b0) =
      astarRun (searchFuel b0) (astarInit (rootState b0) h0) := by
    unfold astar_solve
    rw [rootState_board, hman]
  have hK : 0 < Nat.factorial b0.flatten.length := Nat.factorial_pos _
  have hmeas : 2 * (Nat.factorial b0.flatten.length -
      (astarInit (rootState b0) h0).visited.length) +
      (astarInit (rootState b0) h0).heap.length < searchFuel b0 := by
    have h1 : (astarInit (rootState b0) h0).visited.length = 1 := rfl
    have h2 : (astarInit (rootState b0) h0).heap.length = 1 := rfl
    rw [h1, h2]
    unfold searchFuel
    omega
  rcases astarRun_complete hn hv hreach (searchFuel b0)
    (astarInit (rootState b0) h0) (astarCpl_init b0 h0) hmeas with
    ⟨ra, hruna, hsucca, cura, hgooda, hboarda, hpatha, hdeptha⟩
  rcases bfs_solve_optimal_core hn hv hsolv with
    ⟨rb, hrunb, hsuccb, db, hdepthb, hrealb, hminb⟩
  have hreacha : reachN cura.depth b0 (goalBoard n) = true := by
    apply reachN_of_reach
    have hr := goodState_reach cura hgooda
    rw [hboarda] at hr
    exact hr
  refine ⟨ra, rb, cura.depth, db, by rw [hunf]; exact hruna, hsucca, ?_,
    hreacha, hrunb, hsuccb, hdepthb, hminb _ hreacha⟩
  rw [hdeptha, pathBoards_length cura hgooda, Nat.add_sub_cancel]

/-- Witness for the amended C2 on the solvable board `[[1,2],[0,3]]`. -/
theorem C2_amended_witness :
    ∃ ra rb da db,
      astar_solve (rootState [[1, 2], [0, 3]]) = .ok ra ∧
      ra.success = true ∧
      ra.solution_depth = some da ∧
      reachN da [[1, 2], [0, 3]] (goalBoard 2) = true ∧
      bfs_solve (rootState [[1, 2], [0, 3]]) = .ok rb ∧
      rb.success = true ∧
      rb.solution_depth = some db ∧ db ≤ da :=
  C2_amended 2 (Or.inl rfl) [[1, 2], [0, 3]] (by decide) 1 (by decide)

set_option maxHeartbeats 4000000 in
/-- C2 is refuted: on the solvable valid board `[[1,3,5],[4,0,8],[7,6,2]]`
both searches succeed but A* reports `solution_depth` 12 while BFS reports
the optimal 10 — marking successors visited at generation time makes this
A* variant non-optimal. -/
theorem C2_counterexample :
    ∃ (b0 : Board) (k : Nat), ValidBoard 3 b0 ∧
      reachN k b0 (goalBoard 3) = true ∧
      outcomeSuccess (astar_solve (rootState b0)) = some true ∧
      outcomeSuccess (bfs_solve (rootState b0)) = some true ∧
      outcomeDepth (astar_solve (rootState b0)) ≠
        outcomeDepth (bfs_solve (rootState b0)) := by
  have hval : ValidBoard 3 cexBoard := by decide
  have r1 : Reach cexBoard 1 [[1, 3, 5], [4, 8, 0], [7, 6, 2]] :=
    Reach.step Reach.zero (by decide)
  have r2 : Reach cexBoard 2 [[1, 3, 5], [4, 8, 2], [7, 6, 0]] :=
    Reach.step r1 (by decide)
  have r3 : Reach cexBoard 3 [[1, 3, 5], [4, 8, 2], [7, 0, 6]] :=
    Reach.step r2 (by decide)
  have r4 : Reach cexBoard 4 [[1, 3, 5], [4, 0, 2], [7, 8, 6]] :=
    Reach.step r3 (by decide)
  have r5 : Reach cexBoard 5 [[1, 3, 5], [4, 2, 0], [7, 8, 6]] :=
    Reach.step r4 (by decide)
  have r6 : Reach cexBoard 6 [[1, 3, 0], [4, 2, 5], [7, 8, 6]] :=
    Reach.step r5 (by decide)
  have r7 : Reach cexBoard 7 [[1, 0, 3], [4, 2, 5], [7, 8, 6]] :=
    Reach.step r6 (by decide)
  have r8 : Reach cexBoard 8 [[1, 2, 3], [4, 0, 5], [7, 8, 6]] :=
    Reach.step r7 (by decide)
  have r9 : Reach cexBoard 9 [[1, 2, 3], [4, 5, 0], [7, 8, 6]] :=
    Reach.step r8 (by decide)
  have r10 : Reach cexBoard 10 (goalBoard 3) := Reach.step r9 (by decide)
  have hsolv : reachN 10 cexBoard (goalBoard 3) = true := reachN_of_reach r10
  rcases bfs_solve_optimal_core (Or.inr rfl) hval hsolv with
    ⟨rb, hrunb, hsuccb, db, hdepthb, hrealb, hminb⟩
  have hub : db ≤ 10 := hminb 10 hsolv
  have hman : manhattan cexBoard = some 10 := by decide
  have hlb : 10 ≤ db :=
    manhattan_admissible (Or.inr rfl) db cexBoard hval hrealb hman
  have hdb : db = 10 := by omega
  have hastar : outcomeDepth (astar_solve (rootState cexBoard)) =
      some 12 := by decide
  have hasucc : outcomeSuccess (astar_solve (rootState cexBoard)) =
      some true := by decide
  refine ⟨cexBoard, 10, hval, hsolv, hasucc, ?_, ?_⟩
  · rw [hrunb]
    show some rb.success = some true
    rw [hsuccb]
  · rw [hastar, hrunb]
    show (some 12 : Option Nat) ≠ rb.solution_depth
    rw [hdepthb, hdb]
    decide

end PuzzleSolver
